import Mathlib

/-! Expression context analysis.

A shallow embedding of `lib/IDE/ExprContextAnalysis.cpp`: the reset that
prepares an expression for another type-checking pass, the mapping of a written
argument position to a parameter position, the collection of expected types
and labels at a call argument, the type-checking of the enclosing contexts,
the rules of the analysis by kind of ancestor, and the two walks that find the
expression of a range and the ancestors of the hole.

Out-parameters (`unsigned &Position`, `bool &HasName`) are passed in and
returned explicitly; `unsigned` is a natural number and the cast `(signed)` is
the two's-complement reinterpretation at 32 bits.
-/

set_option autoImplicit false

namespace ExprContextAnalysis

/-! ## Types -/

/-- The part of `swift::Type` the analysis observes. `Option Ty` stands for a
`Type` that may be null. -/
inductive Ty where
  | Nominal (name : String)
  | Error
  | Unresolved
  | GenericTypeParam (name : String)
  | LValue (object : Ty)
  | InOut (object : Ty)
  | Tuple (elements : List Ty)
  | Function (params : List Ty) (result : Ty)

mutual
/-- Decide equality of two types (types are uniqued, so pointer identity of
`TypeBase *` is structural equality). -/
def Ty.decEq : (a b : Ty) → Decidable (a = b)
  | .Nominal x, .Nominal y =>
    match (inferInstance : DecidableEq String) x y with
    | isTrue h => isTrue (by rw [h])
    | isFalse h => isFalse (by intro e; cases e; exact h rfl)
  | .Error, .Error => isTrue rfl
  | .Unresolved, .Unresolved => isTrue rfl
  | .GenericTypeParam x, .GenericTypeParam y =>
    match (inferInstance : DecidableEq String) x y with
    | isTrue h => isTrue (by rw [h])
    | isFalse h => isFalse (by intro e; cases e; exact h rfl)
  | .LValue x, .LValue y =>
    match Ty.decEq x y with
    | isTrue h => isTrue (by rw [h])
    | isFalse h => isFalse (by intro e; cases e; exact h rfl)
  | .InOut x, .InOut y =>
    match Ty.decEq x y with
    | isTrue h => isTrue (by rw [h])
    | isFalse h => isFalse (by intro e; cases e; exact h rfl)
  | .Tuple x, .Tuple y =>
    match Ty.decEqList x y with
    | isTrue h => isTrue (by rw [h])
    | isFalse h => isFalse (by intro e; cases e; exact h rfl)
  | .Function x r, .Function y s =>
    match Ty.decEqList x y, Ty.decEq r s with
    | isTrue h, isTrue k => isTrue (by rw [h, k])
    | isFalse h, _ => isFalse (by intro e; cases e; exact h rfl)
    | _, isFalse k => isFalse (by intro e; cases e; exact k rfl)
  | .Nominal _, .Error => isFalse (by intro e; cases e)
  | .Nominal _, .Unresolved => isFalse (by intro e; cases e)
  | .Nominal _, .GenericTypeParam _ => isFalse (by intro e; cases e)
  | .Nominal _, .LValue _ => isFalse (by intro e; cases e)
  | .Nominal _, .InOut _ => isFalse (by intro e; cases e)
  | .Nominal _, .Tuple _ => isFalse (by intro e; cases e)
  | .Nominal _, .Function _ _ => isFalse (by intro e; cases e)
  | .Error, .Nominal _ => isFalse (by intro e; cases e)
  | .Error, .Unresolved => isFalse (by intro e; cases e)
  | .Error, .GenericTypeParam _ => isFalse (by intro e; cases e)
  | .Error, .LValue _ => isFalse (by intro e; cases e)
  | .Error, .InOut _ => isFalse (by intro e; cases e)
  | .Error, .Tuple _ => isFalse (by intro e; cases e)
  | .Error, .Function _ _ => isFalse (by intro e; cases e)
  | .Unresolved, .Nominal _ => isFalse (by intro e; cases e)
  | .Unresolved, .Error => isFalse (by intro e; cases e)
  | .Unresolved, .GenericTypeParam _ => isFalse (by intro e; cases e)
  | .Unresolved, .LValue _ => isFalse (by intro e; cases e)
  | .Unresolved, .InOut _ => isFalse (by intro e; cases e)
  | .Unresolved, .Tuple _ => isFalse (by intro e; cases e)
  | .Unresolved, .Function _ _ => isFalse (by intro e; cases e)
  | .GenericTypeParam _, .Nominal _ => isFalse (by intro e; cases e)
  | .GenericTypeParam _, .Error => isFalse (by intro e; cases e)
  | .GenericTypeParam _, .Unresolved => isFalse (by intro e; cases e)
  | .GenericTypeParam _, .LValue _ => isFalse (by intro e; cases e)
  | .GenericTypeParam _, .InOut _ => isFalse (by intro e; cases e)
  | .GenericTypeParam _, .Tuple _ => isFalse (by intro e; cases e)
  | .GenericTypeParam _, .Function _ _ => isFalse (by intro e; cases e)
  | .LValue _, .Nominal _ => isFalse (by intro e; cases e)
  | .LValue _, .Error => isFalse (by intro e; cases e)
  | .LValue _, .Unresolved => isFalse (by intro e; cases e)
  | .LValue _, .GenericTypeParam _ => isFalse (by intro e; cases e)
  | .LValue _, .InOut _ => isFalse (by intro e; cases e)
  | .LValue _, .Tuple _ => isFalse (by intro e; cases e)
  | .LValue _, .Function _ _ => isFalse (by intro e; cases e)
  | .InOut _, .Nominal _ => isFalse (by intro e; cases e)
  | .InOut _, .Error => isFalse (by intro e; cases e)
  | .InOut _, .Unresolved => isFalse (by intro e; cases e)
  | .InOut _, .GenericTypeParam _ => isFalse (by intro e; cases e)
  | .InOut _, .LValue _ => isFalse (by intro e; cases e)
  | .InOut _, .Tuple _ => isFalse (by intro e; cases e)
  | .InOut _, .Function _ _ => isFalse (by intro e; cases e)
  | .Tuple _, .Nominal _ => isFalse (by intro e; cases e)
  | .Tuple _, .Error => isFalse (by intro e; cases e)
  | .Tuple _, .Unresolved => isFalse (by intro e; cases e)
  | .Tuple _, .GenericTypeParam _ => isFalse (by intro e; cases e)
  | .Tuple _, .LValue _ => isFalse (by intro e; cases e)
  | .Tuple _, .InOut _ => isFalse (by intro e; cases e)
  | .Tuple _, .Function _ _ => isFalse (by intro e; cases e)
  | .Function _ _, .Nominal _ => isFalse (by intro e; cases e)
  | .Function _ _, .Error => isFalse (by intro e; cases e)
  | .Function _ _, .Unresolved => isFalse (by intro e; cases e)
  | .Function _ _, .GenericTypeParam _ => isFalse (by intro e; cases e)
  | .Function _ _, .LValue _ => isFalse (by intro e; cases e)
  | .Function _ _, .InOut _ => isFalse (by intro e; cases e)
  | .Function _ _, .Tuple _ => isFalse (by intro e; cases e)
/-- Decide equality of two lists of types. -/
def Ty.decEqList : (a b : List Ty) → Decidable (a = b)
  | [], [] => isTrue rfl
  | x :: xs, y :: ys =>
    match Ty.decEq x y, Ty.decEqList xs ys with
    | isTrue h, isTrue k => isTrue (by rw [h, k])
    | isFalse h, _ => isFalse (by intro e; cases e; exact h rfl)
    | _, isFalse k => isFalse (by intro e; cases e; exact k rfl)
  | [], _ :: _ => isFalse (by intro e; cases e)
  | _ :: _, [] => isFalse (by intro e; cases e)
end

instance : DecidableEq Ty := Ty.decEq

mutual
/-- Recursive property `hasError()`: an `ErrorType` occurs somewhere in the type. -/
def Ty.hasError : Ty → Bool
  | .Error => true
  | .LValue t => t.hasError
  | .InOut t => t.hasError
  | .Tuple ts => Ty.anyHasError ts
  | .Function ps r => Ty.anyHasError ps || r.hasError
  | _ => false
/-- Some type of the list has the recursive property `hasError()`. -/
def Ty.anyHasError : List Ty → Bool
  | [] => false
  | t :: ts => t.hasError || Ty.anyHasError ts
end

mutual
/-- Recursive property `hasUnresolvedType()`. -/
def Ty.hasUnresolvedType : Ty → Bool
  | .Unresolved => true
  | .LValue t => t.hasUnresolvedType
  | .InOut t => t.hasUnresolvedType
  | .Tuple ts => Ty.anyHasUnresolvedType ts
  | .Function ps r => Ty.anyHasUnresolvedType ps || r.hasUnresolvedType
  | _ => false
/-- Some type of the list has the recursive property `hasUnresolvedType()`. -/
def Ty.anyHasUnresolvedType : List Ty → Bool
  | [] => false
  | t :: ts => t.hasUnresolvedType || Ty.anyHasUnresolvedType ts
end

mutual
/-- Recursive property `hasTypeParameter()`. -/
def Ty.hasTypeParameter : Ty → Bool
  | .GenericTypeParam _ => true
  | .LValue t => t.hasTypeParameter
  | .InOut t => t.hasTypeParameter
  | .Tuple ts => Ty.anyHasTypeParameter ts
  | .Function ps r => Ty.anyHasTypeParameter ps || r.hasTypeParameter
  | _ => false
/-- Some type of the list has the recursive property `hasTypeParameter()`. -/
def Ty.anyHasTypeParameter : List Ty → Bool
  | [] => false
  | t :: ts => t.hasTypeParameter || Ty.anyHasTypeParameter ts
end

/-- The test `ty->is<ErrorType>()`: the type itself is the error type. -/
def Ty.isErrorType : Ty → Bool
  | .Error => true
  | _ => false

mutual
/-- Modelled from the spec: `getRValueType()` is declared with the type classes,
outside this file; it gives the r-value form of a type, dropping every
l-value wrapper and leaving a type without one as it is. -/
def Ty.getRValueType : Ty → Ty
  | .LValue t => t.getRValueType
  | .InOut t => .InOut t.getRValueType
  | .Tuple ts => .Tuple (Ty.getRValueTypes ts)
  | .Function ps r => .Function (Ty.getRValueTypes ps) r.getRValueType
  | t => t
/-- The r-value forms of a list of types. -/
def Ty.getRValueTypes : List Ty → List Ty
  | [] => []
  | t :: ts => t.getRValueType :: Ty.getRValueTypes ts
end

/-- The stale markers the reset looks for: the type is erroneous or unresolved. -/
def Ty.isStale (t : Ty) : Bool :=
  t.hasError || t.hasUnresolvedType

/-! ## Source locations -/

/-- A source location, the address of a character of the buffer; `0` is the
invalid location `SourceLoc()`. -/
structure SourceLoc where
  Value : Nat
  deriving DecidableEq, Repr

/-- The default-constructed, invalid location. -/
def SourceLoc.invalid : SourceLoc := ⟨0⟩

/-- The test `isValid()`. -/
def SourceLoc.isValid (l : SourceLoc) : Bool :=
  l.Value != 0

/-- The test `SM.isBeforeInBuffer(First, Second)`: strictly before. -/
def isBeforeInBuffer (First Second : SourceLoc) : Bool :=
  decide (First.Value < Second.Value)

/-- A source range, from the start of its first token to the start of its last. -/
structure SourceRange where
  Start : SourceLoc
  End : SourceLoc
  deriving DecidableEq, Repr

/-! ## Declarations and their contexts -/

/-- A declaration context, as far as the analysis tells contexts apart. -/
structure DeclContext where
  id : Nat
  deriving DecidableEq, Repr

/-- A value declaration: `getInnermostDeclContext()`, `getDeclContext()`, and its
interface type, present when `hasInterfaceType()`. -/
structure ValueDecl where
  innermostDeclContext : DeclContext
  declContext : DeclContext
  interfaceType : Option Ty
  deriving DecidableEq

/-- The test `hasInterfaceType()`. -/
def ValueDecl.hasInterfaceType (d : ValueDecl) : Bool :=
  d.interfaceType.isSome

/-! ## Syntax tree -/

/-- A `TypeLoc`: a written type annotation with the type resolved for it. -/
structure TypeLoc where
  ty : Option Ty
  deriving DecidableEq

/-- The state every expression carries: its type, its range, whether it is implicit. -/
structure ExprInfo where
  ty : Option Ty
  range : SourceRange
  implicit : Bool
  deriving DecidableEq

/-- The subclasses of `ApplyExpr`. -/
inductive ApplyKind where
  | Call | PrefixUnary | PostfixUnary | Binary | DotSyntaxCall | ConstructorRefCall
  deriving DecidableEq, Repr

/-- Expression kinds that carry no payload of their own in this development. -/
inductive OtherExprKind where
  | DeclRef | OverloadedDeclRef | UnresolvedDot | CodeCompletion
  | Literal | TypeExpr | ExplicitCast | ImplicitConversion | Other
  deriving DecidableEq, Repr

/-- The subclasses of `LabeledConditionalStmt`. -/
inductive LabeledConditionalKind where
  | If | While | Guard
  deriving DecidableEq, Repr

/-- Statement kinds. -/
inductive StmtKind where
  | Brace | Return | ForEach | RepeatWhile | If | While | Guard | Other
  deriving DecidableEq, Repr

/-- Pattern kinds. -/
inductive PatternKind where
  | Expr | Typed | Named | Other
  deriving DecidableEq, Repr

/-- Declaration kinds. -/
inductive DeclKind where
  | PatternBinding | Param | Var | Other
  deriving DecidableEq, Repr

mutual
/-- Expressions. The children listed are the ones a walk of the tree visits, in
visiting order. `Other .DeclRef` is a reference whose declaration is absent
(`getDecl()` is null), `DeclRef` one with its declaration. -/
inductive Expr where
  | Paren (info : ExprInfo) (subExpr : Expr)
  | Tuple (info : ExprInfo) (elements : List Expr) (elementNameLocs : List SourceLoc)
  | ArgumentShuffle (info : ExprInfo) (subExpr : Expr) (elementMapping : List Int)
      (variadicArgs : List Nat)
  | Apply (kind : ApplyKind) (info : ExprInfo) (fn : Expr) (arg : Expr)
  | Subscript (info : ExprInfo) (base : Expr) (index : Expr)
  | AutoClosure (info : ExprInfo) (body : Expr)
  | Other (kind : OtherExprKind) (info : ExprInfo) (children : List ASTNode)
  | Assign (info : ExprInfo) (dest : Expr) (src : Expr) (equalLoc : SourceLoc)
  | DeclRef (info : ExprInfo) (decl : ValueDecl)
  | Closure (info : ExprInfo) (params : List ASTNode) (explicitResultTypeLoc : Option TypeLoc)
      (body : ClosureBody)
/-- The body of a closure, a brace statement. `singleExpression` is the body of
a closure with `hasSingleExpressionBody()`: the brace statement holds one
implicit return of the expression, and a walk goes to that expression
directly. `brace` is any other body with its elements, walked as a statement. -/
inductive ClosureBody where
  | singleExpression (range : SourceRange) (e : Expr)
  | brace (range : SourceRange) (elements : List ASTNode)
/-- A child of a node: the four node families and type annotations. -/
inductive ASTNode where
  | expr (e : Expr)
  | stmt (s : Stmt)
  | decl (d : Decl)
  | pattern (p : Pattern)
  | typeLoc (t : TypeLoc)
/-- Statements. `mk` is a statement of the given kind with no condition and no
sequence of its own; the other constructors carry them. -/
inductive Stmt where
  | mk (kind : StmtKind) (range : SourceRange) (children : List ASTNode)
  | ForEach (range : SourceRange) (pattern : Pattern) (sequence : Option Expr) (body : Stmt)
  | RepeatWhile (range : SourceRange) (body : Stmt) (cond : Option Expr)
  | LabeledConditional (kind : LabeledConditionalKind) (range : SourceRange)
      (cond : List StmtConditionElement) (rest : List ASTNode)
/-- An element of a statement condition; `getBooleanOrNull()` is the expression
of `Boolean` and null for the others. -/
inductive StmtConditionElement where
  | Boolean (e : Expr)
  | PatternBinding (pattern : Pattern) (init : Expr)
  | Availability
/-- Declarations. `mk .PatternBinding` is a pattern binding without entries. -/
inductive Decl where
  | mk (kind : DeclKind) (range : SourceRange) (children : List ASTNode)
  | PatternBinding (range : SourceRange) (entries : List PatternBindingEntry)
/-- An entry of a pattern binding: `getPattern(i)` and `getInit(i)`. -/
inductive PatternBindingEntry where
  | mk (pattern : Pattern) (init : Option Expr)
/-- Patterns; `hasType()` is `ty.isSome`. -/
inductive Pattern where
  | mk (kind : PatternKind) (ty : Option Ty) (range : SourceRange) (children : List ASTNode)
end

/-- The common state of an expression. -/
def Expr.info : Expr → ExprInfo
  | .Paren i _ => i
  | .Tuple i _ _ => i
  | .ArgumentShuffle i _ _ _ => i
  | .Apply _ i _ _ => i
  | .Subscript i _ _ => i
  | .AutoClosure i _ => i
  | .Other _ i _ => i
  | .Assign i _ _ _ => i
  | .DeclRef i _ => i
  | .Closure i _ _ _ => i

/-- The accessor `getType()`. -/
def Expr.getType (e : Expr) : Option Ty := e.info.ty

/-- The accessor `getStartLoc()`. -/
def Expr.getStartLoc (e : Expr) : SourceLoc := e.info.range.Start

/-- The accessor `getEndLoc()`. -/
def Expr.getEndLoc (e : Expr) : SourceLoc := e.info.range.End

/-- The accessor `isImplicit()`. -/
def Expr.isImplicit (e : Expr) : Bool := e.info.implicit

/-- An expression state without a type at the given range. -/
def infoAt (s e : Nat) : ExprInfo := ⟨none, ⟨⟨s⟩, ⟨e⟩⟩, false⟩

/-- The accessor `TupleExpr::getElementNameLoc(i)`: the location of the label of
element `i`, the invalid location when the tuple stores no label locations. -/
def getElementNameLoc (elementNameLocs : List SourceLoc) (i : Nat) : SourceLoc :=
  elementNameLocs.getD i SourceLoc.invalid

/-! ## Position of the hole in an argument list -/

/-- The two out-parameters of the position functions with their return value. -/
structure ArgPosition where
  success : Bool
  Position : Nat
  HasName : Bool
  deriving DecidableEq, Repr

/-- The loop of `getPositionInArgs` over the elements from index `i` on. -/
def getPositionInArgs.scan (nameLocs : List SourceLoc) (CCExpr : Expr)
    (Position : Nat) (HasName : Bool) : List Expr → Nat → ArgPosition
  | [], _ => ⟨false, Position, HasName⟩
  | e :: rest, i =>
    if isBeforeInBuffer e.getEndLoc CCExpr.getStartLoc then
      getPositionInArgs.scan nameLocs CCExpr Position HasName rest (i + 1)
    else
      ⟨true, i, (getElementNameLoc nameLocs i).isValid⟩

/-- Get the index of `CCExpr` in `Args`. -/
def getPositionInArgs (Args CCExpr : Expr) (Position : Nat) (HasName : Bool) : ArgPosition :=
  let Args := match Args with
    | .ArgumentShuffle _ sub _ _ => sub
    | a => a
  match Args with
  | .Paren _ _ => ⟨true, 0, false⟩
  | .Tuple _ elements nameLocs =>
    getPositionInArgs.scan nameLocs CCExpr Position HasName elements 0
  | _ => ⟨false, Position, HasName⟩

/-- The cast `(signed)Position` of an `unsigned`: reinterpretation at 32 bits. -/
def toSigned (u : Nat) : Int :=
  if u % 2 ^ 32 < 2 ^ 31 then ((u % 2 ^ 32 : Nat) : Int) else ((u % 2 ^ 32 : Nat) : Int) - 2 ^ 32

/-- Modelled from the spec: the marker of the element mapping for a destination
that is default-initialized (an unsupplied, defaulted parameter); the
enumerator is declared with the expression classes, outside this file. -/
def ArgumentShuffleExpr.DefaultInitializeMarker : Int := -1

/-- Modelled from the spec: the marker of the element mapping for the destination
that collects the variadic run; the enumerator `ArgumentShuffleExpr::Variadic`
is declared with the expression classes, outside this file. -/
def ArgumentShuffleExpr.Variadic : Int := -2

/-- The label presence of the variadic run: `false`, or, when the arguments are
a tuple, whether the first variadic argument has a label location. -/
def variadicRunHasName (subExpr : Expr) (variadicArgs : List Nat) : Bool :=
  match subExpr, variadicArgs with
  | .Tuple _ _ nameLocs, firstVarArgIdx :: _ => (getElementNameLoc nameLocs firstVarArgIdx).isValid
  | _, _ => false

/-- The loop of `translateArgIndexToParamIndex` over the mapping from `destIdx` on. -/
def translateArgIndexToParamIndex.scan (subExpr : Expr) (variadicArgs : List Nat)
    (Position : Nat) (HasName : Bool) : List Int → Nat → ArgPosition
  | [], _ => ⟨false, Position, HasName⟩
  | srcIdx :: rest, destIdx =>
    if srcIdx = toSigned Position then
      ⟨true, destIdx, HasName⟩
    else if srcIdx = ArgumentShuffleExpr.Variadic ∧ Position ∈ variadicArgs then
      ⟨true, destIdx, variadicRunHasName subExpr variadicArgs⟩
    else
      translateArgIndexToParamIndex.scan subExpr variadicArgs Position HasName rest (destIdx + 1)

/-- Translate the argument index in `Args` to the parameter index; does nothing
unless `Args` is an argument shuffle. -/
def translateArgIndexToParamIndex (Args : Expr) (Position : Nat) (HasName : Bool) : ArgPosition :=
  match Args with
  | .ArgumentShuffle _ sub mapping variadicArgs =>
    translateArgIndexToParamIndex.scan sub variadicArgs Position HasName mapping 0
  | _ => ⟨true, Position, HasName⟩

/-- The test `SM.rangeContains(Enclosing, Inner)`. -/
def rangeContains (Enclosing Inner : SourceRange) : Bool :=
  decide (Enclosing.Start.Value ≤ Inner.Start.Value) && decide (Inner.End.Value ≤ Enclosing.End.Value)

/-- A range that does not end before it starts. -/
def SourceRange.isOrdered (r : SourceRange) : Prop :=
  r.Start.Value ≤ r.End.Value

/-- The elements are laid out in source order without overlap: every element has
an ordered range and ends strictly before the next one starts. -/
def inSourceOrder : List Expr → Prop
  | [] => True
  | e :: rest =>
    e.info.range.isOrdered ∧
    (match rest with
      | [] => True
      | e2 :: _ => e.getEndLoc.Value < e2.getStartLoc.Value) ∧
    inSourceOrder rest

/-- The argument tuple of `h(a, <hole>, c)`: three elements at offsets 3, 6 and 9. -/
def sampleTuple : Expr :=
  .Tuple (infoAt 2 10)
    [.Other .DeclRef (infoAt 3 3) [], .Other .CodeCompletion (infoAt 6 6) [],
     .Other .DeclRef (infoAt 9 9) []] []

/-- The hole of `h(a, <hole>, c)`. -/
def sampleTupleHole : Expr := .Other .CodeCompletion (infoAt 6 6) []

/-- The test of the loop of `translateArgIndexToParamIndex` on one mapping entry:
the entry equals the position read as a signed integer, or it is the variadic
marker and the position is one of the variadic arguments. -/
def entryMatches (variadicArgs : List Nat) (Position : Nat) (srcIdx : Int) : Prop :=
  srcIdx = toSigned Position ∨ (srcIdx = ArgumentShuffleExpr.Variadic ∧ Position ∈ variadicArgs)

instance (variadicArgs : List Nat) (Position : Nat) (srcIdx : Int) :
    Decidable (entryMatches variadicArgs Position srcIdx) := by
  unfold entryMatches
  exact inferInstance

/-- The written position is represented in the mapping: some destination entry
is the number `Position`, or the mapping has the variadic marker and
`Position` is in the variadic run it collects. -/
def representedInMapping (mapping : List Int) (variadicArgs : List Nat) (Position : Nat) : Prop :=
  (∃ d, mapping.get? d = some (Position : Int)) ∨
    (ArgumentShuffleExpr.Variadic ∈ mapping ∧ Position ∈ variadicArgs)

/-- The shuffle of `f(1, 2, 3)` against `f(_ xs: Int...)`: three unlabeled
arguments collected into the single variadic parameter. -/
def sampleVariadicShuffle : Expr :=
  .ArgumentShuffle ⟨none, ⟨⟨2⟩, ⟨10⟩⟩, true⟩
    (.Tuple ⟨none, ⟨⟨2⟩, ⟨10⟩⟩, false⟩
      [.Other .Literal ⟨none, ⟨⟨3⟩, ⟨3⟩⟩, false⟩ [],
       .Other .Literal ⟨none, ⟨⟨6⟩, ⟨6⟩⟩, false⟩ [],
       .Other .Literal ⟨none, ⟨⟨9⟩, ⟨9⟩⟩, false⟩ []] [])
    [ArgumentShuffleExpr.Variadic] [0, 1, 2]

/-- The shuffle of `g(a: 1)` against `g(a: Int, b: Int = 0)`: the second
destination is default-initialized. -/
def sampleDefaultedShuffle : Expr :=
  .ArgumentShuffle ⟨none, ⟨⟨2⟩, ⟨7⟩⟩, true⟩
    (.Tuple ⟨none, ⟨⟨2⟩, ⟨7⟩⟩, false⟩
      [.Other .Literal ⟨none, ⟨⟨6⟩, ⟨6⟩⟩, false⟩ []] [⟨3⟩])
    [0, ArgumentShuffleExpr.DefaultInitializeMarker] []

/-! ## Expected types and labels at a call argument -/

/-- A parameter of a function type, `AnyFunctionType::Param`: its label (the
empty identifier when it has none) and the type `getOldType()` gives. -/
structure Param where
  Label : String
  OldType : Ty
  deriving DecidableEq

/-- The test `Param.hasLabel()`. -/
def Param.hasLabel (p : Param) : Bool :=
  !p.Label.isEmpty

/-- A function type: the ordered parameters and the result. -/
structure AnyFunctionType where
  Params : List Param
  Result : Ty
  deriving DecidableEq

/-- A candidate callee: its type and the declaration it comes from, if any. -/
abbrev FunctionTypeAndDecl := AnyFunctionType × Option ValueDecl

/-- The results `Analyze()` populates. -/
structure ExprContextInfo where
  PossibleTypes : List Ty
  PossibleNames : List String
  PossibleCallees : List FunctionTypeAndDecl
  singleExpressionBody : Bool
  deriving DecidableEq

/-- The results before any rule has run. -/
def ExprContextInfo.empty : ExprContextInfo :=
  ⟨[], [], [], false⟩

/-- The services of the type checker and of name lookup the analysis calls.
`calleesForApply E` and `calleesForSubscript E` are the candidates that
`collectPossibleCalleesForApply` and `collectPossibleCalleesForSubscript`
leave in `candidates` for the node `E` (both return `!candidates.empty()`);
`mapTypeIntoContext` is `DeclContext::mapTypeIntoContext`. -/
structure Services where
  calleesForApply : Expr → List FunctionTypeAndDecl
  calleesForSubscript : Expr → List FunctionTypeAndDecl
  mapTypeIntoContext : DeclContext → Ty → Ty

/-- Record a possible expected type, unless it is null or the error type. -/
def recordPossibleType (info : ExprContextInfo) (ty : Option Ty) : ExprContextInfo :=
  match ty with
  | none => info
  | some t =>
    if t.isErrorType then info
    else { info with PossibleTypes := info.PossibleTypes ++ [t.getRValueType] }

/-- Record a possible expected label. -/
def recordPossibleName (info : ExprContextInfo) (name : String) : ExprContextInfo :=
  { info with PossibleNames := info.PossibleNames ++ [name] }

/-- The state of the loop over the candidates: the two sets of seen types and
seen labels, and the results so far. -/
structure CollectState where
  seenTypes : List Ty
  seenNames : List String
  info : ExprContextInfo

/-- The type the loop hands to the recorder for a parameter: its old type,
mapped into the context of the candidate's declaration when it has a type
parameter. -/
def paramTypeInContext (S : Services) (decl : Option ValueDecl) (Param : Param) : Ty :=
  match decl with
  | some d =>
    if Param.OldType.hasTypeParameter then S.mapTypeIntoContext d.innermostDeclContext Param.OldType
    else Param.OldType
  | none => Param.OldType

/-- One iteration of the loop of `analyzeApplyExpr` over the candidates. -/
def analyzeApplyExpr.step (S : Services) (Position : Nat) (MayNeedName : Bool)
    (st : CollectState) (typeAndDecl : FunctionTypeAndDecl) : CollectState :=
  match typeAndDecl.1.Params.get? Position with
  | none => st
  | some Param =>
    if Param.hasLabel && MayNeedName then
      if Param.Label ∈ st.seenNames then st
      else { st with seenNames := Param.Label :: st.seenNames,
                     info := recordPossibleName st.info Param.Label }
    else
      if paramTypeInContext S typeAndDecl.2 Param ∈ st.seenTypes then st
      else { st with seenTypes := paramTypeInContext S typeAndDecl.2 Param :: st.seenTypes,
                     info := recordPossibleType st.info
                       (some (paramTypeInContext S typeAndDecl.2 Param)) }

/-- The test `isa<CallExpr>(E)`. -/
def Expr.isCallExpr : Expr → Bool
  | .Apply .Call _ _ _ => true
  | _ => false

/-- The test `isa<SubscriptExpr>(E)`. -/
def Expr.isSubscriptExpr : Expr → Bool
  | .Subscript _ _ _ => true
  | _ => false

/-- The test `isa<BinaryExpr>(E)`. -/
def Expr.isBinaryExpr : Expr → Bool
  | .Apply .Binary _ _ _ => true
  | _ => false

/-- The test `isa<PrefixUnaryExpr>(E)`. -/
def Expr.isPrefixUnaryExpr : Expr → Bool
  | .Apply .PrefixUnary _ _ _ => true
  | _ => false

/-- The part of `analyzeApplyExpr` after the candidates are known. -/
def analyzeApplyExpr.collect (S : Services) (ParsedExpr : Expr) (info : ExprContextInfo)
    (E : Expr) (Candidates : List FunctionTypeAndDecl) (Arg : Expr) : Bool × ExprContextInfo :=
  let info := { info with PossibleCallees := Candidates }
  let pos := getPositionInArgs Arg ParsedExpr 0 false
  if !pos.success then (false, info)
  else
    let pos := translateArgIndexToParamIndex Arg pos.Position pos.HasName
    if !pos.success then (false, info)
    else
      let MayNeedName := !pos.HasName && !E.isImplicit && (E.isCallExpr || E.isSubscriptExpr)
      let st := Candidates.foldl (analyzeApplyExpr.step S pos.Position MayNeedName) ⟨[], [], info⟩
      (!st.info.PossibleTypes.isEmpty || !st.info.PossibleNames.isEmpty, st.info)

/-- Collect context information at a call argument position. The result is
`none` where the source reaches `llvm_unreachable`. -/
def analyzeApplyExpr (S : Services) (ParsedExpr : Expr) (info : ExprContextInfo)
    (E : Expr) : Option (Bool × ExprContextInfo) :=
  match E with
  | .Apply _ _ _ arg =>
    let Candidates := S.calleesForApply E
    if Candidates.isEmpty then some (false, info)
    else some (analyzeApplyExpr.collect S ParsedExpr info E Candidates arg)
  | .Subscript _ _ index =>
    let Candidates := S.calleesForSubscript E
    if Candidates.isEmpty then some (false, info)
    else some (analyzeApplyExpr.collect S ParsedExpr info E Candidates index)
  | _ => none

/-- The hole's logical position and label flag as `analyzeApplyExpr` computes
them from the argument list, `none` when either position function fails. -/
def holePosition (Arg ParsedExpr : Expr) : Option (Nat × Bool) :=
  let pos := getPositionInArgs Arg ParsedExpr 0 false
  if !pos.success then none
  else
    let pos := translateArgIndexToParamIndex Arg pos.Position pos.HasName
    if !pos.success then none else some (pos.Position, pos.HasName)

/-- The argument list of a call-like node: `getArg()` or `getIndex()`. -/
def Expr.getArgs : Expr → Option Expr
  | .Apply _ _ _ arg => some arg
  | .Subscript _ _ index => some index
  | _ => none

/-- The candidates the resolver gives for a call-like node. -/
def Services.candidates (S : Services) (E : Expr) : List FunctionTypeAndDecl :=
  match E with
  | .Apply _ _ _ _ => S.calleesForApply E
  | .Subscript _ _ _ => S.calleesForSubscript E
  | _ => []

/-! ### Sample inputs -/

/-- The type `Int`. -/
def tyInt : Ty := .Nominal "Int"

/-- The hole of the samples, at offset 3. -/
def sampleHole : Expr := .Other .CodeCompletion (infoAt 3 3) []

/-- The callee reference `f` of the samples. -/
def sampleFn : Expr := .Other .DeclRef (infoAt 1 1) []

/-- The call `f(<hole>)`. -/
def sampleCallUnlabeled : Expr :=
  .Apply .Call (infoAt 1 4) sampleFn (.Paren (infoAt 2 4) sampleHole)

/-- The call `f(x: <hole>)`, whose argument is a one-element tuple with a label
at offset 3 and the hole at offset 6. -/
def sampleCallLabeled : Expr :=
  .Apply .Call (infoAt 1 7) sampleFn
    (.Tuple (infoAt 2 7) [.Other .CodeCompletion (infoAt 6 6) []] [⟨3⟩])

/-- The hole of `f(x: <hole>)`. -/
def sampleHoleLabeled : Expr := .Other .CodeCompletion (infoAt 6 6) []

/-- The operator application `<hole> + y` as a binary node over a two-element
argument tuple. -/
def sampleBinary : Expr :=
  .Apply .Binary (infoAt 3 5) (.Other .DeclRef (infoAt 4 4) [])
    (.Tuple (infoAt 3 5) [sampleHole, .Other .DeclRef (infoAt 5 5) []] [])

/-- The call `f(<hole>)` marked implicit. -/
def sampleCallImplicit : Expr :=
  .Apply .Call ⟨none, ⟨⟨1⟩, ⟨4⟩⟩, true⟩ sampleFn (.Paren (infoAt 2 4) sampleHole)

/-- The candidate `(x: Int) -> Void`. -/
def sampleCandidate : FunctionTypeAndDecl :=
  (⟨[⟨"x", tyInt⟩], .Tuple []⟩, none)

/-- Services that resolve every call to the single candidate `(x: Int) -> Void`. -/
def sampleServices : Services :=
  ⟨fun _ => [sampleCandidate], fun _ => [sampleCandidate], fun _ t => t⟩

/-! ### Invariants of the loop over the candidates -/

/-- Every seen label has been recorded. -/
def SeenNamesRecorded (st : CollectState) : Prop :=
  ∀ n ∈ st.seenNames, n ∈ st.info.PossibleNames

/-- Every seen type that is not the error type has been recorded in r-value form. -/
def SeenTypesRecorded (st : CollectState) : Prop :=
  ∀ t ∈ st.seenTypes, t.isErrorType = false → t.getRValueType ∈ st.info.PossibleTypes

/-- Where a recorded type comes from: a candidate of the list whose parameter at
the position went to the type branch. -/
def TypeOrigin (S : Services) (pos : Nat) (m : Bool) (cs : List FunctionTypeAndDecl)
    (t : Ty) : Prop :=
  ∃ c ∈ cs, ∃ p, c.1.Params.get? pos = some p ∧ (p.hasLabel && m) = false ∧
    (paramTypeInContext S c.2 p).isErrorType = false ∧
    t = (paramTypeInContext S c.2 p).getRValueType

/-! ## prepareForRetypechecking -/

/-- The effect of `setType(Type())` guarded by the test of the eraser: a type
that is erroneous or unresolved becomes null, any other type stays. -/
def eraseStale (ty : Option Ty) : Option Ty :=
  match ty with
  | some t => if t.hasError || t.hasUnresolvedType then none else some t
  | none => none

/-- The state of an expression after the guarded `setType(Type())`. -/
def ExprInfo.erased (i : ExprInfo) : ExprInfo :=
  { i with ty := eraseStale i.ty }

/-- An expression with its common state replaced. -/
def Expr.withInfo (i : ExprInfo) : Expr → Expr
  | .Paren _ sub => .Paren i sub
  | .Tuple _ es locs => .Tuple i es locs
  | .ArgumentShuffle _ sub m va => .ArgumentShuffle i sub m va
  | .Apply k _ fn arg => .Apply k i fn arg
  | .Subscript _ base index => .Subscript i base index
  | .AutoClosure _ body => .AutoClosure i body
  | .Other k _ cs => .Other k i cs
  | .Assign _ dest src l => .Assign i dest src l
  | .DeclRef _ d => .DeclRef i d
  | .Closure _ ps tl body => .Closure i ps tl body

namespace Eraser

/-- The callback `walkToExprPre`: the type of the expression is cleared in place
when stale; the result says to walk the children and names the expression
that takes this one's place, the body for an auto-closure. -/
def walkToExprPre (expr : Expr) : Bool × Expr :=
  match expr.withInfo expr.info.erased with
  | .AutoClosure _ body => (true, body)
  | e => (true, e)

/-- The callback `walkToTypeLocPre`. -/
def walkToTypeLocPre (TL : TypeLoc) : Bool × TypeLoc :=
  (true, ⟨eraseStale TL.ty⟩)

/-- The callback `walkToPatternPre`. -/
def walkToPatternPre : Pattern → Bool × Pattern
  | .mk k ty r cs => (true, .mk k (eraseStale ty) r cs)

/-- The callback `walkToStmtPre`: statements are not entered. -/
def walkToStmtPre (S : Stmt) : Bool × Stmt :=
  (false, S)

/-- The walk of the explicit result type of a closure, when it has one. -/
def doItTypeLoc : Option TypeLoc → Option TypeLoc
  | some t => some (walkToTypeLocPre t).2
  | none => none

mutual
/-- Modelled from the spec: the traversal that drives the callbacks is
`ASTWalker`, outside this file. `visit` walks the children of an expression
and puts what each walk returns in the child's place. -/
def visit : Expr → Expr
  | .Paren i sub => .Paren i (doIt sub)
  | .Tuple i es locs => .Tuple i (doItExprs es) locs
  | .ArgumentShuffle i sub m va => .ArgumentShuffle i (doIt sub) m va
  | .Apply k i fn arg => .Apply k i (doIt fn) (doIt arg)
  | .Subscript i base index => .Subscript i (doIt base) (doIt index)
  | .AutoClosure i body => .AutoClosure i (doIt body)
  | .Other k i cs => .Other k i (doItNodes cs)
  | .Assign i dest src l => .Assign i (doIt dest) (doIt src) l
  | .DeclRef i d => .DeclRef i d
  | .Closure i ps tl body => .Closure i (doItNodes ps) (doItTypeLoc tl) (doItBody body)
/-- Modelled from the spec: the walk of one expression, `walkToExprPre` followed
by `visit` on the expression the callback returned (the callback is not run
again on that expression); the result takes the place of the expression in
its parent. -/
def doIt : Expr → Expr
  | .Paren i sub => .Paren i.erased (doIt sub)
  | .Tuple i es locs => .Tuple i.erased (doItExprs es) locs
  | .ArgumentShuffle i sub m va => .ArgumentShuffle i.erased (doIt sub) m va
  | .Apply k i fn arg => .Apply k i.erased (doIt fn) (doIt arg)
  | .Subscript i base index => .Subscript i.erased (doIt base) (doIt index)
  | .AutoClosure _ body => visit body
  | .Other k i cs => .Other k i.erased (doItNodes cs)
  | .Assign i dest src l => .Assign i.erased (doIt dest) (doIt src) l
  | .DeclRef i d => .DeclRef i.erased d
  | .Closure i ps tl body => .Closure i.erased (doItNodes ps) (doItTypeLoc tl) (doItBody body)
/-- The walk of the elements of a tuple. -/
def doItExprs : List Expr → List Expr
  | [] => []
  | e :: es => doIt e :: doItExprs es
/-- The walk of the body of a closure: the single expression is walked, a brace
statement is not entered. -/
def doItBody : ClosureBody → ClosureBody
  | .singleExpression r e => .singleExpression r (doIt e)
  | .brace r elements => .brace r elements
/-- The walk of a pattern: `walkToPatternPre`, then its children. -/
def doItPattern : Pattern → Pattern
  | .mk k ty r cs => .mk k (eraseStale ty) r (doItNodes cs)
/-- The walk of the entries of a pattern binding: each pattern, then its
initializer. -/
def doItEntries : List PatternBindingEntry → List PatternBindingEntry
  | [] => []
  | .mk p (some e) :: es => .mk (doItPattern p) (some (doIt e)) :: doItEntries es
  | .mk p none :: es => .mk (doItPattern p) none :: doItEntries es
/-- Modelled from the spec: the walk of one child. A statement is returned as it
is, since `walkToStmtPre` answers `false`; a type annotation gets
`walkToTypeLocPre`; declarations are entered. -/
def doItNode : ASTNode → ASTNode
  | .expr e => .expr (doIt e)
  | .stmt s => .stmt (walkToStmtPre s).2
  | .decl (.mk k r cs) => .decl (.mk k r (doItNodes cs))
  | .decl (.PatternBinding r es) => .decl (.PatternBinding r (doItEntries es))
  | .pattern p => .pattern (doItPattern p)
  | .typeLoc t => .typeLoc (walkToTypeLocPre t).2
/-- The walk of a list of children. -/
def doItNodes : List ASTNode → List ASTNode
  | [] => []
  | n :: ns => doItNode n :: doItNodes ns
end

end Eraser

/-- Prepare the given expression for type-checking again. The result is the tree
under `E` after `E->walk(Eraser())`; the value the walk returns is dropped, so
`E` stays the root: for an auto-closure its type is cleared and the children
of its body are walked. -/
def prepareForRetypechecking (E : Expr) : Expr :=
  match E with
  | .AutoClosure i body => .AutoClosure i.erased (Eraser.visit body)
  | e => Eraser.doIt e

/-- The test of the eraser on a type that may be null: erroneous or unresolved. -/
def isStaleType (ty : Option Ty) : Bool :=
  match ty with
  | some t => t.hasError || t.hasUnresolvedType
  | none => false

/-- The explicit result type of a closure, when it has one, is not stale. -/
def typeLocHasNoStaleType : Option TypeLoc → Bool
  | some t => !isStaleType t.ty
  | none => true

mutual
/-- No expression, pattern or type annotation reachable from the expression
without passing through a statement has a type marked erroneous or unresolved. -/
def Expr.hasNoStaleType : Expr → Bool
  | .Paren i sub => !isStaleType i.ty && sub.hasNoStaleType
  | .Tuple i es _ => !isStaleType i.ty && Expr.allNoStaleType es
  | .ArgumentShuffle i sub _ _ => !isStaleType i.ty && sub.hasNoStaleType
  | .Apply _ i fn arg => !isStaleType i.ty && fn.hasNoStaleType && arg.hasNoStaleType
  | .Subscript i base index => !isStaleType i.ty && base.hasNoStaleType && index.hasNoStaleType
  | .AutoClosure i body => !isStaleType i.ty && body.hasNoStaleType
  | .Other _ i cs => !isStaleType i.ty && ASTNode.allNoStaleType cs
  | .Assign i dest src _ => !isStaleType i.ty && dest.hasNoStaleType && src.hasNoStaleType
  | .DeclRef i _ => !isStaleType i.ty
  | .Closure i ps tl body =>
    !isStaleType i.ty && ASTNode.allNoStaleType ps && typeLocHasNoStaleType tl &&
      ClosureBody.hasNoStaleType body
/-- The property for the body of a closure; nothing is asked of a brace statement. -/
def ClosureBody.hasNoStaleType : ClosureBody → Bool
  | .singleExpression _ e => e.hasNoStaleType
  | .brace _ _ => true
/-- The property for a pattern. -/
def Pattern.hasNoStaleType : Pattern → Bool
  | .mk _ ty _ cs => !isStaleType ty && ASTNode.allNoStaleType cs
/-- The property for the entries of a pattern binding. -/
def PatternBindingEntry.allNoStaleType : List PatternBindingEntry → Bool
  | [] => true
  | .mk p (some e) :: es =>
    p.hasNoStaleType && e.hasNoStaleType && PatternBindingEntry.allNoStaleType es
  | .mk p none :: es => p.hasNoStaleType && PatternBindingEntry.allNoStaleType es
/-- The property for every expression of a list. -/
def Expr.allNoStaleType : List Expr → Bool
  | [] => true
  | e :: es => e.hasNoStaleType && Expr.allNoStaleType es
/-- The property for a child; nothing is asked beneath a statement. -/
def ASTNode.hasNoStaleType : ASTNode → Bool
  | .expr e => e.hasNoStaleType
  | .stmt _ => true
  | .decl (.mk _ _ cs) => ASTNode.allNoStaleType cs
  | .decl (.PatternBinding _ es) => PatternBindingEntry.allNoStaleType es
  | .pattern p => p.hasNoStaleType
  | .typeLoc t => !isStaleType t.ty
/-- The property for every child of a list. -/
def ASTNode.allNoStaleType : List ASTNode → Bool
  | [] => true
  | n :: ns => n.hasNoStaleType && ASTNode.allNoStaleType ns
end

mutual
/-- No auto-closure wrapper is reachable from the expression without passing
through a statement. -/
def Expr.hasNoAutoClosure : Expr → Bool
  | .Paren _ sub => sub.hasNoAutoClosure
  | .Tuple _ es _ => Expr.allNoAutoClosure es
  | .ArgumentShuffle _ sub _ _ => sub.hasNoAutoClosure
  | .Apply _ _ fn arg => fn.hasNoAutoClosure && arg.hasNoAutoClosure
  | .Subscript _ base index => base.hasNoAutoClosure && index.hasNoAutoClosure
  | .AutoClosure _ _ => false
  | .Other _ _ cs => ASTNode.allNoAutoClosure cs
  | .Assign _ dest src _ => dest.hasNoAutoClosure && src.hasNoAutoClosure
  | .DeclRef _ _ => true
  | .Closure _ ps _ body => ASTNode.allNoAutoClosure ps && ClosureBody.hasNoAutoClosure body
/-- The property for the body of a closure; nothing is asked of a brace statement. -/
def ClosureBody.hasNoAutoClosure : ClosureBody → Bool
  | .singleExpression _ e => e.hasNoAutoClosure
  | .brace _ _ => true
/-- The property for a pattern. -/
def Pattern.hasNoAutoClosure : Pattern → Bool
  | .mk _ _ _ cs => ASTNode.allNoAutoClosure cs
/-- The property for the entries of a pattern binding. -/
def PatternBindingEntry.allNoAutoClosure : List PatternBindingEntry → Bool
  | [] => true
  | .mk p (some e) :: es =>
    p.hasNoAutoClosure && e.hasNoAutoClosure && PatternBindingEntry.allNoAutoClosure es
  | .mk p none :: es => p.hasNoAutoClosure && PatternBindingEntry.allNoAutoClosure es
/-- The property for every expression of a list. -/
def Expr.allNoAutoClosure : List Expr → Bool
  | [] => true
  | e :: es => e.hasNoAutoClosure && Expr.allNoAutoClosure es
/-- The property for a child; nothing is asked beneath a statement. -/
def ASTNode.hasNoAutoClosure : ASTNode → Bool
  | .expr e => e.hasNoAutoClosure
  | .stmt _ => true
  | .decl (.mk _ _ cs) => ASTNode.allNoAutoClosure cs
  | .decl (.PatternBinding _ es) => PatternBindingEntry.allNoAutoClosure es
  | .pattern p => p.hasNoAutoClosure
  | .typeLoc _ => true
/-- The property for every child of a list. -/
def ASTNode.allNoAutoClosure : List ASTNode → Bool
  | [] => true
  | n :: ns => n.hasNoAutoClosure && ASTNode.allNoAutoClosure ns
end

/-- An operand whose type is the error type, at offset 8. -/
def sampleErrorOperand : Expr :=
  .Other .DeclRef ⟨some .Error, ⟨⟨8⟩, ⟨8⟩⟩, false⟩ []

/-- The argument list `(e)` of a call whose parameter is an auto-closure, after a
failed check: a parenthesis over an auto-closure wrapper whose body `e` has
the error type. -/
def sampleAutoClosureTree : Expr :=
  .Paren (infoAt 1 9) (.AutoClosure ⟨some .Error, ⟨⟨8⟩, ⟨8⟩⟩, true⟩ sampleErrorOperand)

/-! ## typeCheckContextUntil -/

/-- The kinds of declaration context, `DeclContextKind`, with `FileUnit`. -/
inductive DeclContextKind where
  | AbstractClosureExpr | Initializer | TopLevelCodeDecl | SubscriptDecl | EnumElementDecl
  | AbstractFunctionDecl | SerializedLocal | ExtensionDecl | GenericTypeDecl | Module | FileUnit
  deriving DecidableEq, Repr

/-- The test `isModuleScopeContext()`: a module or a file unit. -/
def DeclContextKind.isModuleScopeContext : DeclContextKind → Bool
  | .Module => true
  | .FileUnit => true
  | _ => false

/-- A call into the type checker. Declarations are named by a number. -/
inductive TypeCheckCall where
  | typeCheckCompletionDecl (D : Nat)
  | typeCheckPatternBinding (PBD : Nat) (i : Nat)
  | typeCheckAbstractFunctionBodyUntil (AFD : DeclContext) (Loc : SourceLoc)
  deriving DecidableEq, Repr

/-- A `PatternBindingInitializer`: its binding, the index of its entry, whether
that entry has an initializer, and the variables of the entry's pattern. -/
structure PatternBindingInitializer where
  binding : Nat
  bindingIndex : Nat
  hasInit : Bool
  boundVariables : List Nat
  deriving DecidableEq, Repr

/-- What `typeCheckContextImpl` reads of the declaration contexts and of the type
checker, whose state is `σ`: the kind and the parent of a context (`none` for
a null parent), the pattern-binding initializer a context is, the storage of
the accessor a context is, the declaration an extension, type or subscript
context is, the flag `isInitializerChecked`, and the effect of a call. -/
structure Scopes (σ : Type) where
  getContextKind : DeclContext → DeclContextKind
  getParent : DeclContext → Option DeclContext
  patternInit : DeclContext → Option PatternBindingInitializer
  accessorStorage : DeclContext → Option Nat
  declOf : DeclContext → Nat
  isInitializerChecked : σ → Nat → Nat → Bool
  perform : TypeCheckCall → σ → σ

/-- The type checker's state after a sequence of calls. -/
def Scopes.run {σ : Type} (T : Scopes σ) (calls : List TypeCheckCall) (st : σ) : σ :=
  calls.foldl (fun s c => T.perform c s) st

/-- The `switch` of `typeCheckContextImpl` for one context: the state after it
and the calls it made, `none` where the source reaches `llvm_unreachable`. -/
def typeCheckContextImpl.dispatch {σ : Type} (T : Scopes σ) (Loc : SourceLoc)
    (DC : DeclContext) (st : σ) : Option (σ × List TypeCheckCall) :=
  match T.getContextKind DC with
  | .AbstractClosureExpr => some (st, [])
  | .Module => some (st, [])
  | .SerializedLocal => some (st, [])
  | .TopLevelCodeDecl => some (st, [])
  | .EnumElementDecl => some (st, [])
  | .Initializer =>
    match T.patternInit DC with
    | some patternInit =>
      if patternInit.hasInit then
        let calls := patternInit.boundVariables.map TypeCheckCall.typeCheckCompletionDecl
        let st1 := T.run calls st
        if !T.isInitializerChecked st1 patternInit.binding patternInit.bindingIndex then
          some (T.perform (.typeCheckPatternBinding patternInit.binding patternInit.bindingIndex) st1,
            calls ++ [.typeCheckPatternBinding patternInit.binding patternInit.bindingIndex])
        else some (st1, calls)
      else some (st, [])
    | none => some (st, [])
  | .AbstractFunctionDecl =>
    let calls := (match T.accessorStorage DC with
      | some storage => [TypeCheckCall.typeCheckCompletionDecl storage]
      | none => []) ++ [.typeCheckAbstractFunctionBodyUntil DC Loc]
    some (T.run calls st, calls)
  | .ExtensionDecl => some (T.run [.typeCheckCompletionDecl (T.declOf DC)] st,
      [.typeCheckCompletionDecl (T.declOf DC)])
  | .GenericTypeDecl => some (T.run [.typeCheckCompletionDecl (T.declOf DC)] st,
      [.typeCheckCompletionDecl (T.declOf DC)])
  | .FileUnit => none
  | .SubscriptDecl => some (T.run [.typeCheckCompletionDecl (T.declOf DC)] st,
      [.typeCheckCompletionDecl (T.declOf DC)])

/-- How a run of `typeCheckContextImpl` can fail to return: the recursion is
deeper than the fuel, the parent of a context that is not a module scope is
null, or `llvm_unreachable` is reached. -/
inductive ImplError where
  | outOfFuel | nullParent | unreachable
  deriving DecidableEq, Repr

/-- The recursion of `typeCheckContextImpl` with a bound on its depth: the state
of the type checker after it, and the contexts dispatched, in order, each
with the calls made for it. -/
def typeCheckContextImpl {σ : Type} (T : Scopes σ) (Loc : SourceLoc) :
    Nat → DeclContext → σ → Except ImplError (σ × List (DeclContext × List TypeCheckCall))
  | 0, _, _ => .error .outOfFuel
  | fuel + 1, DC, st =>
    if (T.getContextKind DC).isModuleScopeContext then .ok (st, [])
    else
      match T.getParent DC with
      | none => .error .nullParent
      | some parent =>
        match typeCheckContextImpl T Loc fuel parent st with
        | .error e => .error e
        | .ok (st1, trace) =>
          match typeCheckContextImpl.dispatch T Loc DC st1 with
          | none => .error .unreachable
          | some (st2, calls) => .ok (st2, trace ++ [(DC, calls)])

/-- The parent chain of a context reaches a module-scope context: `chain` lists
the contexts before it, the starting context first and the outermost last. -/
inductive ReachesModuleScope {σ : Type} (T : Scopes σ) : DeclContext → List DeclContext → Prop
  | here (DC : DeclContext) :
      (T.getContextKind DC).isModuleScopeContext = true → ReachesModuleScope T DC []
  | up (DC parent : DeclContext) (chain : List DeclContext) :
      (T.getContextKind DC).isModuleScopeContext = false →
      T.getParent DC = some parent →
      ReachesModuleScope T parent chain → ReachesModuleScope T DC (DC :: chain)

/-- The dispatches of a list of contexts one after the other, in the order of
the list. -/
def dispatchInOrder {σ : Type} (T : Scopes σ) (Loc : SourceLoc) :
    List DeclContext → σ → Option (σ × List (DeclContext × List TypeCheckCall))
  | [], st => some (st, [])
  | DC :: rest, st =>
    match typeCheckContextImpl.dispatch T Loc DC st with
    | none => none
    | some (st1, calls) =>
      match dispatchInOrder T Loc rest st1 with
      | none => none
      | some (st2, trace) => some (st2, (DC, calls) :: trace)

/-- Sample scopes: a closure (3) in a function (2) in an extension (1) of a
module (0); the state of the type checker is the list of calls made so far. -/
def sampleScopes : Scopes (List TypeCheckCall) where
  getContextKind := fun DC =>
    match DC.id with
    | 0 => .Module
    | 1 => .ExtensionDecl
    | 2 => .AbstractFunctionDecl
    | _ => .AbstractClosureExpr
  getParent := fun DC =>
    match DC.id with
    | 0 => none
    | n + 1 => some ⟨n⟩
  patternInit := fun _ => none
  accessorStorage := fun _ => none
  declOf := fun DC => 100 + DC.id
  isInitializerChecked := fun _ _ _ => false
  perform := fun c st => st ++ [c]

/-! ### Samples for the deduplication of the expected types -/

/-- The candidate `(Int) -> Void`, with an unlabeled parameter. -/
def sampleCandidateInt : FunctionTypeAndDecl :=
  (⟨[⟨"", tyInt⟩], .Tuple []⟩, none)

/-- The candidate whose unlabeled parameter has the l-value type of `Int`. -/
def sampleCandidateLValueInt : FunctionTypeAndDecl :=
  (⟨[⟨"", .LValue tyInt⟩], .Tuple []⟩, none)

/-- Services that resolve every call to the two candidates above. -/
def sampleServicesLValue : Services :=
  ⟨fun _ => [sampleCandidateInt, sampleCandidateLValueInt],
   fun _ => [sampleCandidateInt, sampleCandidateLValueInt], fun _ t => t⟩

/-- The recorded labels have no repetition and each of them has been seen. -/
def NamesTracked (st : CollectState) : Prop :=
  st.info.PossibleNames.Nodup ∧ ∀ n ∈ st.info.PossibleNames, n ∈ st.seenNames

/-! ## The rules of the analysis for the ancestor kinds -/

/-- A function declaration as `getReturnTypeFromContext` reads it: the
declaration as a context, its interface type (present when
`hasInterfaceType()`), whether its own context is a type context, and
`getMethodInterfaceType()`. -/
structure AbstractFunctionDecl where
  context : DeclContext
  interfaceType : Option Ty
  inTypeContext : Bool
  methodInterfaceType : Ty
  deriving DecidableEq

/-- A `DeclContext *` as the casts of `getReturnTypeFromContext` tell it apart:
a function declaration, a closure expression (`AbstractClosureExpr`: a
closure or an auto-closure), or any other context. -/
inductive ContextNode where
  | function (FD : AbstractFunctionDecl)
  | closure (ACE : Expr)
  | other (DC : DeclContext)

/-- The result type `ACE->getResultType()` of a closure whose type `T` is present
and has no error, `T->castTo<FunctionType>()->getResult()`; a type that is not
a function type (where `castTo` asserts) gives null. -/
def AbstractClosureExpr.getResultType : Ty → Option Ty
  | .Function _ result => some result
  | _ => none

/-- The type of the explicit result annotation of a closure expression,
`getExplicitResultTypeLoc().getType()` under `hasExplicitResultType()`; null
for a closure without annotation and for an auto-closure. -/
def explicitResultType : Expr → Option Ty
  | .Closure _ _ (some TL) _ => TL.ty
  | _ => none

/-- The return type the context expects, null when there is none. -/
def getReturnTypeFromContext (S : Services) : ContextNode → Option Ty
  | .function FD =>
    match FD.interfaceType with
    | some Ty =>
      match (if FD.inTypeContext then FD.methodInterfaceType else Ty) with
      | .Function _ result => some (S.mapTypeIntoContext FD.context result)
      | _ => none
    | none => none
  | .closure ACE =>
    match ACE.getType with
    | some T => if !T.hasError then AbstractClosureExpr.getResultType T else explicitResultType ACE
    | none => explicitResultType ACE
  | .other _ => none

/-- Modelled from the spec: the standard boolean type,
`Context.getBoolDecl()->getDeclaredInterfaceType()`; the declaration is looked
up outside this file. -/
def boolDeclaredInterfaceType : Ty := .Nominal "Bool"

/-- Modelled from the spec: the standard sequence-like protocol type,
`Context.getSequenceDecl()->getDeclaredInterfaceType()`; the declaration is
looked up outside this file. -/
def sequenceDeclaredInterfaceType : Ty := .Nominal "Sequence"

/-- The test `containsTarget(E)`: the range of `E` contains the range of the hole. -/
def containsTarget (ParsedExpr E : Expr) : Bool :=
  rangeContains E.info.range ParsedExpr.info.range

/-- The test `isSingleExpressionBodyForCodeCompletion(body)`: the brace statement
has one element and that element is an expression. -/
def isSingleExpressionBodyForCodeCompletion : ClosureBody → Bool
  | .brace _ [.expr _] => true
  | _ => false

/-- The rule of `analyzeExpr` for an assignment. -/
def analyzeExpr.assign (S : Services) (ParsedExpr : Expr) (info : ExprContextInfo)
    (destExpr : Expr) (equalLoc : SourceLoc) : ExprContextInfo :=
  if isBeforeInBuffer equalLoc ParsedExpr.getStartLoc then
    match destExpr.getType with
    | some type => recordPossibleType info (some type)
    | none =>
      match destExpr with
      | .DeclRef _ decl =>
        match decl.interfaceType with
        | some interfaceType =>
          recordPossibleType info (some (S.mapTypeIntoContext decl.declContext interfaceType))
        | none => info
      | _ => info
  else info

/-- The rule of `analyzeExpr` for a tuple, `none` where `getElementType` is asked
for an element the tuple type does not have. -/
def analyzeExpr.tuple (ParsedExpr : Expr) (info : ExprContextInfo) (Parent : Expr) :
    Option ExprContextInfo :=
  match Parent.getType with
  | some (.Tuple elementTypes) =>
    let pos := getPositionInArgs Parent ParsedExpr 0 false
    if pos.success then
      match elementTypes.get? pos.Position with
      | some elementType => some (recordPossibleType info (some elementType))
      | none => none
    else some info
  | _ => some info

/-- The rules of `analyzeExpr` by the kind of the ancestor, `none` where the
source reaches `llvm_unreachable` or an assertion fails. -/
def analyzeExpr (S : Services) (ParsedExpr : Expr) (info : ExprContextInfo)
    (Parent : Expr) : Option ExprContextInfo :=
  match Parent with
  | .Apply .Call _ _ _ => (analyzeApplyExpr S ParsedExpr info Parent).map Prod.snd
  | .Subscript _ _ _ => (analyzeApplyExpr S ParsedExpr info Parent).map Prod.snd
  | .Apply .Binary _ _ _ => (analyzeApplyExpr S ParsedExpr info Parent).map Prod.snd
  | .Apply .PrefixUnary _ _ _ => (analyzeApplyExpr S ParsedExpr info Parent).map Prod.snd
  | .Assign _ destExpr _ equalLoc => some (analyzeExpr.assign S ParsedExpr info destExpr equalLoc)
  | .Tuple _ _ _ => analyzeExpr.tuple ParsedExpr info Parent
  | .Closure _ _ _ body =>
    if isSingleExpressionBodyForCodeCompletion body then
      some (recordPossibleType { info with singleExpressionBody := true }
        (getReturnTypeFromContext S (.closure Parent)))
    else none
  | _ => none

/-- The accessor `getKind()` of a statement. -/
def Stmt.getKind : Stmt → StmtKind
  | .mk kind _ _ => kind
  | .ForEach _ _ _ _ => .ForEach
  | .RepeatWhile _ _ _ => .RepeatWhile
  | .LabeledConditional .If _ _ _ => .If
  | .LabeledConditional .While _ _ _ => .While
  | .LabeledConditional .Guard _ _ _ => .Guard

/-- Some boolean element of the condition contains the hole. -/
def isBoolConditionOf.any (ParsedExpr : Expr) : List StmtConditionElement → Bool
  | [] => false
  | .Boolean E :: rest =>
    if containsTarget ParsedExpr E then true else isBoolConditionOf.any ParsedExpr rest
  | _ :: rest => isBoolConditionOf.any ParsedExpr rest

/-- The test `isBoolConditionOf(parent)`. -/
def isBoolConditionOf (ParsedExpr : Expr) : Stmt → Bool
  | .RepeatWhile _ _ (some cond) => containsTarget ParsedExpr cond
  | .LabeledConditional _ _ cond _ => isBoolConditionOf.any ParsedExpr cond
  | _ => false

/-- The rules of `analyzeStmt` by the kind of the ancestor, `none` where the
source reaches `llvm_unreachable`. `DC` is the context of the analysis. -/
def analyzeStmt (S : Services) (DC : ContextNode) (ParsedExpr : Expr) (info : ExprContextInfo)
    (Parent : Stmt) : Option ExprContextInfo :=
  match Parent.getKind with
  | .Return => some (recordPossibleType info (getReturnTypeFromContext S DC))
  | .ForEach =>
    match Parent with
    | .ForEach _ _ (some SEQ) _ =>
      if containsTarget ParsedExpr SEQ then
        some (recordPossibleType info (some sequenceDeclaredInterfaceType))
      else some info
    | _ => some info
  | .RepeatWhile =>
    if isBoolConditionOf ParsedExpr Parent then
      some (recordPossibleType info (some boolDeclaredInterfaceType))
    else some info
  | .If =>
    if isBoolConditionOf ParsedExpr Parent then
      some (recordPossibleType info (some boolDeclaredInterfaceType))
    else some info
  | .While =>
    if isBoolConditionOf ParsedExpr Parent then
      some (recordPossibleType info (some boolDeclaredInterfaceType))
    else some info
  | .Guard =>
    if isBoolConditionOf ParsedExpr Parent then
      some (recordPossibleType info (some boolDeclaredInterfaceType))
    else some info
  | _ => none

/-- The loop of `analyzeDecl` over the entries of a pattern binding. -/
def analyzeDecl.scan (ParsedExpr : Expr) (info : ExprContextInfo) :
    List PatternBindingEntry → ExprContextInfo
  | [] => info
  | .mk (.mk _ patternType _ _) (some Init) :: rest =>
    if containsTarget ParsedExpr Init then
      match patternType with
      | some T => recordPossibleType info (some T)
      | none => analyzeDecl.scan ParsedExpr info rest
    else analyzeDecl.scan ParsedExpr info rest
  | .mk _ none :: rest => analyzeDecl.scan ParsedExpr info rest

/-- The rules of `analyzeDecl` by the kind of the ancestor, `none` where the
source reaches `llvm_unreachable`. -/
def analyzeDecl (ParsedExpr : Expr) (info : ExprContextInfo) : Decl → Option ExprContextInfo
  | .PatternBinding _ entries => some (analyzeDecl.scan ParsedExpr info entries)
  | .mk .PatternBinding _ _ => some info
  | .mk _ _ _ => none

/-! ### Statements of the rules and samples -/

/-- The type `String`. -/
def tyString : Ty := .Nominal "String"

/-- The closure `{ () -> String in <hole> }` whose own type has been resolved to
`() -> Int`: the annotation and the inferred result differ. -/
def sampleClosureAnnotated : Expr :=
  .Closure ⟨some (.Function [] tyInt), ⟨⟨1⟩, ⟨9⟩⟩, false⟩ [] (some ⟨some tyString⟩)
    (.brace ⟨⟨1⟩, ⟨9⟩⟩ [.expr sampleHole])

/-- The closure `{ () -> String in <hole> }` without a resolved type. -/
def sampleClosureUntyped : Expr :=
  .Closure ⟨none, ⟨⟨1⟩, ⟨9⟩⟩, false⟩ [] (some ⟨some tyString⟩)
    (.brace ⟨⟨1⟩, ⟨9⟩⟩ [.expr sampleHole])

/-- The closure `{ <hole> }` without annotation, its type resolved to `() -> Int`. -/
def sampleClosureInferred : Expr :=
  .Closure ⟨some (.Function [] tyInt), ⟨⟨1⟩, ⟨9⟩⟩, false⟩ [] none
    (.brace ⟨⟨1⟩, ⟨9⟩⟩ [.expr sampleHole])

/-- The hole's source range is contained in a boolean condition expression of
the statement: the condition of a repeat-while, or some boolean element of
the condition list of an if, while or guard. -/
def holeInBooleanCondition (ParsedExpr : Expr) : Stmt → Prop
  | .RepeatWhile _ _ (some cond) => rangeContains cond.info.range ParsedExpr.info.range = true
  | .LabeledConditional _ _ cond _ =>
    ∃ E, StmtConditionElement.Boolean E ∈ cond ∧
      rangeContains E.info.range ParsedExpr.info.range = true
  | _ => False

/-- The statement `if <hole> { }` with the hole at offset 3. -/
def sampleIf : Stmt :=
  .LabeledConditional .If ⟨⟨1⟩, ⟨6⟩⟩ [.Boolean sampleHole] [.stmt (.mk .Brace ⟨⟨5⟩, ⟨6⟩⟩ [])]

/-- The statement `if let x = <hole> { }`: the hole is the initializer of a
pattern condition, not a boolean condition. -/
def sampleIfLet : Stmt :=
  .LabeledConditional .If ⟨⟨1⟩, ⟨9⟩⟩
    [.PatternBinding (.mk .Named none ⟨⟨2⟩, ⟨2⟩⟩ []) sampleHole]
    [.stmt (.mk .Brace ⟨⟨5⟩, ⟨6⟩⟩ [])]

/-- The tuple `(a, <hole>)` of resolved type `(Int, String)`, the hole at offset 6. -/
def sampleTypedTuple : Expr :=
  .Tuple ⟨some (.Tuple [tyInt, tyString]), ⟨⟨2⟩, ⟨7⟩⟩, false⟩
    [.Other .DeclRef (infoAt 3 3) [], .Other .CodeCompletion (infoAt 6 6) []] []

/-- The tuple `(a, <hole>)` on the left of an assignment, its resolved type the
tuple of the l-value types of `Int` and `String`. -/
def sampleLValueTuple : Expr :=
  .Tuple ⟨some (.Tuple [.LValue tyInt, .LValue tyString]), ⟨⟨2⟩, ⟨7⟩⟩, false⟩
    [.Other .DeclRef (infoAt 3 3) [], .Other .CodeCompletion (infoAt 6 6) []] []

/-- The entry of a pattern binding is the one the scan of `analyzeDecl` looks
for: it has an initializer that contains the hole and its pattern has a
resolved type. -/
def PatternBindingEntry.selects (ParsedExpr : Expr) : PatternBindingEntry → Bool
  | .mk (.mk _ (some _) _ _) (some Init) => containsTarget ParsedExpr Init
  | _ => false

/-- The declaration `var v: Int = <hole>, w: String = b`, the hole at offset 3. -/
def samplePatternBinding : Decl :=
  .PatternBinding ⟨⟨1⟩, ⟨9⟩⟩
    [.mk (.mk .Typed (some tyInt) ⟨⟨1⟩, ⟨2⟩⟩ []) (some sampleHole),
     .mk (.mk .Typed (some tyString) ⟨⟨5⟩, ⟨6⟩⟩ []) (some (.Other .DeclRef (infoAt 9 9) []))]

/-- A declaration `var v = <hole>` whose pattern has the l-value type of `Int`. -/
def samplePatternBindingLValue : Decl :=
  .PatternBinding ⟨⟨1⟩, ⟨9⟩⟩
    [.mk (.mk .Named (some (.LValue tyInt)) ⟨⟨1⟩, ⟨2⟩⟩ []) (some sampleHole)]

/-- A declaration `x` whose interface type is `Int`, in the context 1. -/
def sampleVarDecl : ValueDecl := ⟨⟨1⟩, ⟨1⟩, some tyInt⟩

/-- The assignment `x = <hole>`: the destination is a reference to `x` that has
been given the error type, the operator is at offset 2 and the hole at 3. -/
def sampleAssignErrorDest : Expr :=
  .Assign (infoAt 1 3) (.DeclRef ⟨some .Error, ⟨⟨1⟩, ⟨1⟩⟩, false⟩ sampleVarDecl) sampleHole ⟨2⟩

/-- The assignment `x = <hole>` with a destination of l-value type `Int`. -/
def sampleAssign : Expr :=
  .Assign (infoAt 1 3) (.DeclRef ⟨some (.LValue tyInt), ⟨⟨1⟩, ⟨1⟩⟩, false⟩ sampleVarDecl)
    sampleHole ⟨2⟩

/-- The assignment `<hole> = y`: the hole is the destination, before the operator. -/
def sampleAssignHoleLeft : Expr :=
  .Assign (infoAt 3 7) sampleHole (.DeclRef ⟨some tyInt, ⟨⟨7⟩, ⟨7⟩⟩, false⟩ sampleVarDecl) ⟨5⟩

/-! ## Walks of a context -/

/-- The accessor `getSourceRange()` of an expression. -/
def Expr.getSourceRange (e : Expr) : SourceRange := e.info.range

/-- The accessor `getSourceRange()` of a statement. -/
def Stmt.getSourceRange : Stmt → SourceRange
  | .mk _ range _ => range
  | .ForEach range _ _ _ => range
  | .RepeatWhile range _ _ => range
  | .LabeledConditional _ range _ _ => range

/-- The accessor `getSourceRange()` of a declaration. -/
def Decl.getSourceRange : Decl → SourceRange
  | .mk _ range _ => range
  | .PatternBinding range _ => range

/-- The accessor `getKind()` of a declaration. -/
def Decl.getKind : Decl → DeclKind
  | .mk kind _ _ => kind
  | .PatternBinding _ _ => .PatternBinding

/-- The accessor `getSourceRange()` of a pattern. -/
def Pattern.getSourceRange : Pattern → SourceRange
  | .mk _ _ range _ => range

/-- The accessor `getKind()` of a pattern. -/
def Pattern.getKind : Pattern → PatternKind
  | .mk kind _ _ _ => kind

/-- The node is a type annotation. -/
def ASTNode.isTypeLoc : ASTNode → Bool
  | .typeLoc _ => true
  | _ => false

/-- The range of a node of one of the four families; a type annotation carries
no range in this development. -/
def ASTNode.getSourceRange : ASTNode → Option SourceRange
  | .expr e => some e.getSourceRange
  | .stmt s => some s.getSourceRange
  | .decl d => some d.getSourceRange
  | .pattern p => some p.getSourceRange
  | .typeLoc _ => none

/-- A node together with the nodes a walk visits below it, in visiting order. -/
inductive WalkNode where
  | mk (node : ASTNode) (children : List WalkNode)

/-- The node at the top of a walk tree. -/
def WalkNode.node : WalkNode → ASTNode
  | .mk n _ => n

/-- The nodes visited directly below the top of a walk tree. -/
def WalkNode.children : WalkNode → List WalkNode
  | .mk _ cs => cs

mutual
/-- Modelled from the spec: which children a walk visits and in which order is
fixed by `ASTWalker`, outside this file. An expression is visited with its
sub-expressions in source order; a closure with its parameters, its explicit
result type and its body, the single expression of a single-expression body
directly and any other body as a brace statement. -/
def Expr.toWalk : Expr → WalkNode
  | .Paren i sub => .mk (.expr (.Paren i sub)) [sub.toWalk]
  | .Tuple i es locs => .mk (.expr (.Tuple i es locs)) (Expr.toWalks es)
  | .ArgumentShuffle i sub m va => .mk (.expr (.ArgumentShuffle i sub m va)) [sub.toWalk]
  | .Apply k i fn arg => .mk (.expr (.Apply k i fn arg)) [fn.toWalk, arg.toWalk]
  | .Subscript i base index => .mk (.expr (.Subscript i base index)) [base.toWalk, index.toWalk]
  | .AutoClosure i body => .mk (.expr (.AutoClosure i body)) [body.toWalk]
  | .Other k i cs => .mk (.expr (.Other k i cs)) (ASTNode.toWalks cs)
  | .Assign i dest src l => .mk (.expr (.Assign i dest src l)) [dest.toWalk, src.toWalk]
  | .DeclRef i d => .mk (.expr (.DeclRef i d)) []
  | .Closure i ps (some tl) body =>
    .mk (.expr (.Closure i ps (some tl) body))
      (ASTNode.toWalks ps ++ (.mk (.typeLoc tl) [] :: body.toWalks))
  | .Closure i ps none body =>
    .mk (.expr (.Closure i ps none body)) (ASTNode.toWalks ps ++ body.toWalks)
/-- The walk trees of the elements of a tuple. -/
def Expr.toWalks : List Expr → List WalkNode
  | [] => []
  | e :: es => e.toWalk :: Expr.toWalks es
/-- The walk tree of the body of a closure. -/
def ClosureBody.toWalks : ClosureBody → List WalkNode
  | .singleExpression _ e => [e.toWalk]
  | .brace r elements => [.mk (.stmt (.mk .Brace r elements)) (ASTNode.toWalks elements)]
/-- Modelled from the spec: the order is the one of `ASTWalker`. A for-each
statement is visited with its pattern, its sequence and its body; a
repeat-while with its body and then its condition; an if, while or guard with
the elements of its condition and then its other children. -/
def Stmt.toWalk : Stmt → WalkNode
  | .mk k r cs => .mk (.stmt (.mk k r cs)) (ASTNode.toWalks cs)
  | .ForEach r p (some sequence) body =>
    .mk (.stmt (.ForEach r p (some sequence) body)) [p.toWalk, sequence.toWalk, body.toWalk]
  | .ForEach r p none body => .mk (.stmt (.ForEach r p none body)) [p.toWalk, body.toWalk]
  | .RepeatWhile r body (some cond) =>
    .mk (.stmt (.RepeatWhile r body (some cond))) [body.toWalk, cond.toWalk]
  | .RepeatWhile r body none => .mk (.stmt (.RepeatWhile r body none)) [body.toWalk]
  | .LabeledConditional k r cond rest =>
    .mk (.stmt (.LabeledConditional k r cond rest))
      (StmtConditionElement.toWalks cond ++ ASTNode.toWalks rest)
/-- The walk trees of a statement condition: the expression of a boolean
element; the pattern and then the initializer of a pattern binding element. -/
def StmtConditionElement.toWalks : List StmtConditionElement → List WalkNode
  | [] => []
  | .Boolean e :: rest => e.toWalk :: StmtConditionElement.toWalks rest
  | .PatternBinding p init :: rest =>
    p.toWalk :: init.toWalk :: StmtConditionElement.toWalks rest
  | .Availability :: rest => StmtConditionElement.toWalks rest
/-- The walk tree of a declaration; a pattern binding is visited entry by entry. -/
def Decl.toWalk : Decl → WalkNode
  | .mk k r cs => .mk (.decl (.mk k r cs)) (ASTNode.toWalks cs)
  | .PatternBinding r es => .mk (.decl (.PatternBinding r es)) (PatternBindingEntry.toWalks es)
/-- The walk trees of the entries of a pattern binding: each pattern, then its
initializer when it has one. -/
def PatternBindingEntry.toWalks : List PatternBindingEntry → List WalkNode
  | [] => []
  | .mk p (some init) :: es => p.toWalk :: init.toWalk :: PatternBindingEntry.toWalks es
  | .mk p none :: es => p.toWalk :: PatternBindingEntry.toWalks es
/-- The walk tree of a pattern. -/
def Pattern.toWalk : Pattern → WalkNode
  | .mk k ty r cs => .mk (.pattern (.mk k ty r cs)) (ASTNode.toWalks cs)
/-- The walk tree of a child; a type annotation is a leaf. -/
def ASTNode.toWalk : ASTNode → WalkNode
  | .expr e => e.toWalk
  | .stmt s => s.toWalk
  | .decl d => d.toWalk
  | .pattern p => p.toWalk
  | .typeLoc t => .mk (.typeLoc t) []
/-- The walk trees of a list of children. -/
def ASTNode.toWalks : List ASTNode → List WalkNode
  | [] => []
  | n :: ns => n.toWalk :: ASTNode.toWalks ns
end

/-- A failure that stops the program during a walk. -/
inductive WalkError where
  | foundExprAlreadySet
  | popOfEmptyStack
  deriving DecidableEq, Repr

/-- The callbacks of a walker with state `σ`. `Parent` is the member of the
same name, the node whose children are being visited, absent at the top. A
pre-callback of an expression, statement or pattern gives the pair the source
returns: whether to visit the children, and the node, null to stop the walk. -/
structure Walker (σ : Type) where
  walkToExprPre : Option ASTNode → σ → Expr → Except WalkError (σ × Bool × Option Expr)
  walkToExprPost : Option ASTNode → σ → Expr → Except WalkError (σ × Option Expr)
  walkToStmtPre : Option ASTNode → σ → Stmt → Except WalkError (σ × Bool × Option Stmt)
  walkToStmtPost : Option ASTNode → σ → Stmt → Except WalkError (σ × Option Stmt)
  walkToDeclPre : Option ASTNode → σ → Decl → Except WalkError (σ × Bool)
  walkToDeclPost : Option ASTNode → σ → Decl → Except WalkError (σ × Bool)
  walkToPatternPre : Option ASTNode → σ → Pattern → Except WalkError (σ × Bool × Option Pattern)
  walkToPatternPost : Option ASTNode → σ → Pattern → Except WalkError (σ × Option Pattern)
  walkToTypeLocPre : σ → TypeLoc → Except WalkError (σ × Bool)

/-- What the traversal does after a pre-callback. -/
inductive PreResult where
  | enter | skip | stop
  deriving DecidableEq, Repr

namespace Traversal

/-- The reading of the pair a pre-callback returns: a null node stops the walk,
otherwise `false` skips the children and the post-callback. -/
def next {α : Type} (first : Bool) (second : Option α) : PreResult :=
  match second with
  | none => .stop
  | some _ => if first then .enter else .skip

/-- Modelled from the spec: the dispatch of the pre-callbacks is `ASTWalker`,
outside this file. The pre-callback of the node family is run; for a
declaration and a type annotation `false` skips the node, it does not stop
the walk. -/
def pre {σ : Type} (W : Walker σ) (Parent : Option ASTNode) (st : σ) :
    ASTNode → Except WalkError (σ × PreResult)
  | .expr E => (W.walkToExprPre Parent st E).map fun r => (r.1, next r.2.1 r.2.2)
  | .stmt S => (W.walkToStmtPre Parent st S).map fun r => (r.1, next r.2.1 r.2.2)
  | .decl D => (W.walkToDeclPre Parent st D).map fun r => (r.1, if r.2 then .enter else .skip)
  | .pattern P => (W.walkToPatternPre Parent st P).map fun r => (r.1, next r.2.1 r.2.2)
  | .typeLoc TL => (W.walkToTypeLocPre st TL).map fun r => (r.1, if r.2 then .enter else .skip)

/-- Modelled from the spec: the dispatch of the post-callbacks is `ASTWalker`,
outside this file. The flag of the result says that the walk stops: the
callback returned null, or `false` for a declaration. -/
def post {σ : Type} (W : Walker σ) (Parent : Option ASTNode) (st : σ) :
    ASTNode → Except WalkError (σ × Bool)
  | .expr E => (W.walkToExprPost Parent st E).map fun r => (r.1, r.2.isNone)
  | .stmt S => (W.walkToStmtPost Parent st S).map fun r => (r.1, r.2.isNone)
  | .decl D => (W.walkToDeclPost Parent st D).map fun r => (r.1, !r.2)
  | .pattern P => (W.walkToPatternPost Parent st P).map fun r => (r.1, r.2.isNone)
  | .typeLoc _ => .ok (st, false)

mutual
/-- Modelled from the spec: the traversal is `ASTWalker`, outside this file. The
pre-callback is run on the node; unless it says to skip or to stop, the
children are walked with the node as `Parent`, and unless a child stopped the
walk the post-callback is run. The flag of the result says that the walk was
stopped. -/
def doIt {σ : Type} (W : Walker σ) (Parent : Option ASTNode) :
    WalkNode → σ → Except WalkError (σ × Bool)
  | .mk node children, st =>
    match pre W Parent st node with
    | .error e => .error e
    | .ok (st1, .stop) => .ok (st1, true)
    | .ok (st1, .skip) => .ok (st1, false)
    | .ok (st1, .enter) =>
      match doItAll W (some node) children st1 with
      | .error e => .error e
      | .ok (st2, true) => .ok (st2, true)
      | .ok (st2, false) => post W Parent st2 node
/-- The walk of the children of a node in order, up to the first that stops it. -/
def doItAll {σ : Type} (W : Walker σ) (Parent : Option ASTNode) :
    List WalkNode → σ → Except WalkError (σ × Bool)
  | [], st => .ok (st, false)
  | n :: ns, st =>
    match doIt W Parent n st with
    | .error e => .error e
    | .ok (st1, true) => .ok (st1, true)
    | .ok (st1, false) => doItAll W Parent ns st1
end

end Traversal

/-- Modelled from the spec: `walkContext` is declared with the contexts, outside
this file. The nodes of the context are walked in order, without a parent. -/
def walkContext {σ : Type} (W : Walker σ) (DC : List ASTNode) (st : σ) :
    Except WalkError (σ × Bool) :=
  Traversal.doItAll W none (ASTNode.toWalks DC) st

/-! ## findParsedExpr -/

namespace ExprFinder

/-- The test `isInterstingRange(Node)` on the range of a node. -/
def isInterstingRange (TargetRange : SourceRange) (range : SourceRange) : Bool :=
  rangeContains range TargetRange

/-- The three kinds of expression the finder never returns: an implicit
conversion, an auto-closure, a constructor reference call. The class of an
argument shuffle is declared outside this file; it is an implicit conversion
there, with the `getSubExpr()` of one. -/
def isWrapper : Expr → Bool
  | .Other .ImplicitConversion _ _ => true
  | .ArgumentShuffle _ _ _ _ => true
  | .AutoClosure _ _ => true
  | .Apply .ConstructorRefCall _ _ _ => true
  | _ => false

/-- The callback `walkToExprPre`; the state is the member `FoundExpr`. An
expression of the target range that is not a wrapper is stored and the walk
stops; storing over an expression already found fails the assertion. -/
def walkToExprPre (TargetRange : SourceRange) (FoundExpr : Option Expr) (E : Expr) :
    Except WalkError (Option Expr × Bool × Option Expr) :=
  if TargetRange = E.getSourceRange ∧ isWrapper E = false then
    match FoundExpr with
    | some _ => .error .foundExprAlreadySet
    | none => .ok (some E, false, none)
  else .ok (FoundExpr, isInterstingRange TargetRange E.getSourceRange, some E)

/-- The callback `walkToPatternPre`. -/
def walkToPatternPre (TargetRange : SourceRange) (P : Pattern) : Bool × Option Pattern :=
  (isInterstingRange TargetRange P.getSourceRange, some P)

/-- The callback `walkToStmtPre`. -/
def walkToStmtPre (TargetRange : SourceRange) (S : Stmt) : Bool × Option Stmt :=
  (isInterstingRange TargetRange S.getSourceRange, some S)

/-- The callback `walkToDeclPre`. -/
def walkToDeclPre (TargetRange : SourceRange) (D : Decl) : Bool :=
  isInterstingRange TargetRange D.getSourceRange

/-- The callback `walkToTypeLocPre`: type annotations are not entered. -/
def walkToTypeLocPre (_TL : TypeLoc) : Bool := false

/-- The finder as a walker; the post-callbacks are the ones of `ASTWalker`, which
return the node as it is. -/
def walker (TargetRange : SourceRange) : Walker (Option Expr) where
  walkToExprPre := fun _ st E => walkToExprPre TargetRange st E
  walkToExprPost := fun _ st E => .ok (st, some E)
  walkToStmtPre := fun _ st S => .ok (st, walkToStmtPre TargetRange S)
  walkToStmtPost := fun _ st S => .ok (st, some S)
  walkToDeclPre := fun _ st D => .ok (st, walkToDeclPre TargetRange D)
  walkToDeclPost := fun _ st _ => .ok (st, true)
  walkToPatternPre := fun _ st P => .ok (st, walkToPatternPre TargetRange P)
  walkToPatternPost := fun _ st P => .ok (st, some P)
  walkToTypeLocPre := fun st TL => .ok (st, walkToTypeLocPre TL)

end ExprFinder

/-- The function `findParsedExpr`: the context is walked with a fresh finder and
the expression the finder holds at the end is returned, null when it holds
none. `DC` is the list of the nodes `walkContext` walks for the context. -/
def findParsedExpr (DC : List ASTNode) (TargetRange : SourceRange) :
    Except WalkError (Option Expr) :=
  (walkContext (ExprFinder.walker TargetRange) DC none).map fun r => r.1

/-- The walk tree `n` lies in one of the trees `roots`, below the nodes `path`,
listed from the top down to the parent of `n`. -/
inductive Reaches (roots : List WalkNode) : List ASTNode → WalkNode → Prop where
  | root (n : WalkNode) : n ∈ roots → Reaches roots [] n
  | child (path : List ASTNode) (a : ASTNode) (cs : List WalkNode) (n : WalkNode) :
    Reaches roots path (.mk a cs) → n ∈ cs → Reaches roots (path ++ [a]) n

/-- The range of the node contains the target range; false for a type annotation. -/
def ASTNode.rangeContainsTarget (TargetRange : SourceRange) (n : ASTNode) : Bool :=
  match n.getSourceRange with
  | some range => rangeContains range TargetRange
  | none => false

/-- The binary expression `a + b` at the range 1 to 5: its argument list is an
implicit tuple of the two operands with the same range 1 to 5. -/
def sampleBinarySameRange : Expr :=
  .Apply .Binary (infoAt 1 5) (.Other .DeclRef (infoAt 3 3) [])
    (.Tuple ⟨none, ⟨⟨1⟩, ⟨5⟩⟩, true⟩
      [.Other .DeclRef (infoAt 1 1) [], .Other .DeclRef (infoAt 5 5) []] [])

/-- What a finished walk of the finder found: nothing, with the walk not
stopped, or an expression `E` of the target range that is not a wrapper, met
below nodes whose ranges all contain the target range, with the walk stopped. -/
def FinderOutcome (T : SourceRange) (roots : List WalkNode)
    (r : Except WalkError (Option Expr × Bool)) : Prop :=
  r = .ok (none, false) ∨
  ∃ E path cs, r = .ok (some E, true) ∧ T = E.getSourceRange ∧ ExprFinder.isWrapper E = false ∧
    Reaches roots path (.mk (.expr E) cs) ∧ ∀ a ∈ path, a.rangeContainsTarget T = true

/-! ## The ancestors of the hole -/

namespace ExprParentFinder

/-- The test `arePositionsSame(E1, E2)`. -/
def arePositionsSame (E1 E2 : Expr) : Bool :=
  decide (E1.getSourceRange.Start = E2.getSourceRange.Start) &&
    decide (E1.getSourceRange.End = E2.getSourceRange.End)

/-- The effect of `Ancestors.pop_back()`; the program stops on an empty stack. -/
def popBack (Ancestors : List ASTNode) : Except WalkError (List ASTNode) :=
  match Ancestors with
  | [] => .error .popOfEmptyStack
  | _ => .ok Ancestors.dropLast

/-- The callback `walkToExprPre`; the state is the member `Ancestors`. The walk
stops at the hole or at an expression with the positions of the hole. Nodes
have no identity of their own here: `E == ChildExpr` implies the same
positions, so the first test is the one on the positions, and after it
`E != ChildExpr` holds. -/
def walkToExprPre (ChildExpr : Expr) (Predicate : ASTNode → Option ASTNode → Bool)
    (Parent : Option ASTNode) (Ancestors : List ASTNode) (E : Expr) :
    Except WalkError (List ASTNode × Bool × Option Expr) :=
  if arePositionsSame E ChildExpr then .ok (Ancestors, false, none)
  else if Predicate (.expr E) Parent then .ok (Ancestors ++ [.expr E], true, some E)
  else .ok (Ancestors, true, some E)

/-- The callback `walkToExprPost`. -/
def walkToExprPost (Predicate : ASTNode → Option ASTNode → Bool)
    (Parent : Option ASTNode) (Ancestors : List ASTNode) (E : Expr) :
    Except WalkError (List ASTNode × Option Expr) :=
  if Predicate (.expr E) Parent then (popBack Ancestors).map fun st => (st, some E)
  else .ok (Ancestors, some E)

/-- The callback `walkToStmtPre`. -/
def walkToStmtPre (Predicate : ASTNode → Option ASTNode → Bool)
    (Parent : Option ASTNode) (Ancestors : List ASTNode) (S : Stmt) :
    Except WalkError (List ASTNode × Bool × Option Stmt) :=
  if Predicate (.stmt S) Parent then .ok (Ancestors ++ [.stmt S], true, some S)
  else .ok (Ancestors, true, some S)

/-- The callback `walkToStmtPost`. -/
def walkToStmtPost (Predicate : ASTNode → Option ASTNode → Bool)
    (Parent : Option ASTNode) (Ancestors : List ASTNode) (S : Stmt) :
    Except WalkError (List ASTNode × Option Stmt) :=
  if Predicate (.stmt S) Parent then (popBack Ancestors).map fun st => (st, some S)
  else .ok (Ancestors, some S)

/-- The callback `walkToDeclPre`. -/
def walkToDeclPre (Predicate : ASTNode → Option ASTNode → Bool)
    (Parent : Option ASTNode) (Ancestors : List ASTNode) (D : Decl) :
    Except WalkError (List ASTNode × Bool) :=
  if Predicate (.decl D) Parent then .ok (Ancestors ++ [.decl D], true)
  else .ok (Ancestors, true)

/-- The callback `walkToDeclPost`. -/
def walkToDeclPost (Predicate : ASTNode → Option ASTNode → Bool)
    (Parent : Option ASTNode) (Ancestors : List ASTNode) (D : Decl) :
    Except WalkError (List ASTNode × Bool) :=
  if Predicate (.decl D) Parent then (popBack Ancestors).map fun st => (st, true)
  else .ok (Ancestors, true)

/-- The callback `walkToPatternPre`. -/
def walkToPatternPre (Predicate : ASTNode → Option ASTNode → Bool)
    (Parent : Option ASTNode) (Ancestors : List ASTNode) (P : Pattern) :
    Except WalkError (List ASTNode × Bool × Option Pattern) :=
  if Predicate (.pattern P) Parent then .ok (Ancestors ++ [.pattern P], true, some P)
  else .ok (Ancestors, true, some P)

/-- The callback `walkToPatternPost`. -/
def walkToPatternPost (Predicate : ASTNode → Option ASTNode → Bool)
    (Parent : Option ASTNode) (Ancestors : List ASTNode) (P : Pattern) :
    Except WalkError (List ASTNode × Option Pattern) :=
  if Predicate (.pattern P) Parent then (popBack Ancestors).map fun st => (st, some P)
  else .ok (Ancestors, some P)

/-- The finder of the ancestors as a walker; the callback for type annotations
is the one of `ASTWalker`, which enters them. -/
def walker (ChildExpr : Expr) (Predicate : ASTNode → Option ASTNode → Bool) :
    Walker (List ASTNode) where
  walkToExprPre := walkToExprPre ChildExpr Predicate
  walkToExprPost := walkToExprPost Predicate
  walkToStmtPre := walkToStmtPre Predicate
  walkToStmtPost := walkToStmtPost Predicate
  walkToDeclPre := walkToDeclPre Predicate
  walkToDeclPost := walkToDeclPost Predicate
  walkToPatternPre := walkToPatternPre Predicate
  walkToPatternPost := walkToPatternPost Predicate
  walkToTypeLocPre := fun st _ => .ok (st, true)

/-- The node is pushed when the walk enters it: the predicate holds for it under
its parent; the predicate is not asked about a type annotation. -/
def pushes (Predicate : ASTNode → Option ASTNode → Bool) (Parent : Option ASTNode)
    (node : ASTNode) : Bool :=
  match node with
  | .typeLoc _ => false
  | n => Predicate n Parent

/-- The nodes of a path, listed from the top down with `Parent` above the first,
that satisfy the predicate under their parent, in the order of the path. -/
def interestingOf (Predicate : ASTNode → Option ASTNode → Bool) :
    Option ASTNode → List ASTNode → List ASTNode
  | _, [] => []
  | Parent, a :: rest =>
    if pushes Predicate Parent a then a :: interestingOf Predicate (some a) rest
    else interestingOf Predicate (some a) rest

end ExprParentFinder

/-- The predicate `Analyze` gives to the finder of the ancestors. -/
def Analyze.predicate (Node : ASTNode) (Parent : Option ASTNode) : Bool :=
  match Node with
  | .expr E =>
    match E with
    | .Apply .Call _ _ _ => true
    | .Apply .Binary _ _ _ => true
    | .Apply .PrefixUnary _ _ _ => true
    | .Assign _ _ _ _ => true
    | .Subscript _ _ _ => true
    | .Tuple _ _ _ =>
      match Parent with
      | some (.expr ParentE) =>
        !ParentE.isCallExpr && !ParentE.isSubscriptExpr && !ParentE.isBinaryExpr &&
          !(match ParentE with
            | .ArgumentShuffle _ _ _ _ => true
            | _ => false)
      | _ => true
    | .Closure _ _ _ body => isSingleExpressionBodyForCodeCompletion body
    | _ => false
  | .stmt S =>
    match S.getKind with
    | .Return => true
    | .ForEach => true
    | .RepeatWhile => true
    | .If => true
    | .While => true
    | .Guard => true
    | _ => false
  | .decl D =>
    match D.getKind with
    | .PatternBinding => true
    | _ => false
  | .pattern P =>
    match P.getKind with
    | .Expr => true
    | _ => false
  | .typeLoc _ => false

/-- What a finished walk of the finder of the ancestors leaves, started with the
stack `st` under the parent `Parent`: the stack as it was, the walk not
stopped and no expression of the trees at the positions of the hole; or the
walk stopped at an expression at the positions of the hole, the stack
extended by the interesting nodes of the path down to it, none of the
expressions of the path at the positions of the hole. -/
def ParentFinderOutcome (ChildExpr : Expr) (Predicate : ASTNode → Option ASTNode → Bool)
    (Parent : Option ASTNode) (roots : List WalkNode) (st : List ASTNode)
    (r : Except WalkError (List ASTNode × Bool)) : Prop :=
  (r = .ok (st, false) ∧
    ∀ path E cs, Reaches roots path (.mk (.expr E) cs) →
      ExprParentFinder.arePositionsSame E ChildExpr = false) ∨
  ∃ path E cs, r = .ok (st ++ ExprParentFinder.interestingOf Predicate Parent path, true) ∧
    Reaches roots path (.mk (.expr E) cs) ∧
    ExprParentFinder.arePositionsSame E ChildExpr = true ∧
    ∀ e, ASTNode.expr e ∈ path → ExprParentFinder.arePositionsSame e ChildExpr = false

/-- The hole of `return f(a, <hole>)`, at offset 11. -/
def sampleArgHole : Expr := .Other .CodeCompletion (infoAt 11 11) []

/-- The call `f(a, <hole>)`: the hole is the second element of the argument tuple. -/
def sampleCallTwoArgs : Expr :=
  .Apply .Call (infoAt 8 12) (.Other .DeclRef (infoAt 8 8) [])
    (.Tuple (infoAt 9 12) [.Other .DeclRef (infoAt 10 10) [], sampleArgHole] [])

/-- The statement `return f(a, <hole>)`. -/
def sampleReturn : Stmt := .mk .Return ⟨⟨1⟩, ⟨12⟩⟩ [.expr sampleCallTwoArgs]

/-- The statement `return f(a, <hole>)` in a brace statement. -/
def sampleReturnCall : ASTNode := .stmt (.mk .Brace ⟨⟨0⟩, ⟨20⟩⟩ [.stmt sampleReturn])

/-! ## The entry point of the analysis -/

/-- A hole placed after the argument of `f(x: <hole>)`, at offset 9: no element
of the argument tuple reaches it. -/
def sampleHoleAfterArgs : Expr := .Other .CodeCompletion (infoAt 9 9) []

/-- The rules of `analyzePattern` by the kind of the pattern, `none` where the
source reaches `llvm_unreachable`. The variable of an expression pattern is
not carried by the patterns of this development: `getMatchVar` is its
accessor, null when the pattern has none. -/
def analyzePattern (S : Services) (getMatchVar : Pattern → Option ValueDecl)
    (info : ExprContextInfo) (P : Pattern) : Option ExprContextInfo :=
  match P.getKind with
  | .Expr =>
    match getMatchVar P with
    | some D =>
      match D.interfaceType with
      | some interfaceType =>
        some (recordPossibleType info (some (S.mapTypeIntoContext D.declContext interfaceType)))
      | none => some info
    | none => some info
  | _ => none

/-- The context the analyzer is built with: the context `DC` as
`getReturnTypeFromContext` reads it, whether it is an `Initializer`, the nodes
`walkContext` walks for it and for its parent, and the accessor of the
variable of an expression pattern. -/
structure AnalyzerContext where
  DC : ContextNode
  isInitializer : Bool
  nodes : List ASTNode
  parentNodes : List ASTNode
  getMatchVar : Pattern → Option ValueDecl

/-- The nodes of `analyzeDC`: those of the parent for an `Initializer` context. -/
def AnalyzerContext.analyzeDC (C : AnalyzerContext) : List ASTNode :=
  if C.isInitializer then C.parentNodes else C.nodes

/-- The dispatch at the end of `Analyze` on the family of the closest ancestor;
`none` where the rule stops the program. -/
def Analyze.dispatch (S : Services) (C : AnalyzerContext) (ParsedExpr : Expr)
    (info : ExprContextInfo) : ASTNode → Option ExprContextInfo
  | .expr Parent => analyzeExpr S ParsedExpr info Parent
  | .stmt Parent => analyzeStmt S C.DC ParsedExpr info Parent
  | .decl Parent => analyzeDecl ParsedExpr info Parent
  | .pattern Parent => analyzePattern S C.getMatchVar info Parent
  | .typeLoc _ => some info

/-- The method `Analyze`, started on empty results: `none` where the program
stops at an assertion, at `llvm_unreachable` or at a pop of an empty stack. -/
def Analyze (S : Services) (C : AnalyzerContext) (ParsedExpr : Option Expr) :
    Option ExprContextInfo :=
  match ParsedExpr with
  | none => some .empty
  | some ParsedExpr =>
    match walkContext (ExprParentFinder.walker ParsedExpr Analyze.predicate) C.analyzeDC [] with
    | .error _ => none
    | .ok (Ancestors, _) =>
      match Ancestors.getLast? with
      | none => some .empty
      | some P => Analyze.dispatch S C ParsedExpr .empty P

/-- A context that is a function `() -> Int` whose body is `return f(a, <hole>)`. -/
def sampleAnalyzerContext : AnalyzerContext where
  DC := .function ⟨⟨2⟩, some (.Function [] tyInt), false, .Function [] tyInt⟩
  isInitializer := false
  nodes := [sampleReturnCall]
  parentNodes := []
  getMatchVar := fun _ => none

/-- The assignment `x = <hole>` whose destination has the l-value type of the
error type. -/
def sampleAssignLValueError : Expr :=
  .Assign (infoAt 1 3) (.DeclRef ⟨some (.LValue .Error), ⟨⟨1⟩, ⟨1⟩⟩, false⟩ sampleVarDecl)
    sampleHole ⟨2⟩

/-- A context that is no function and no closure, with the given node as its
only node. -/
def sampleContextOf (n : ASTNode) : AnalyzerContext where
  DC := .other ⟨0⟩
  isInitializer := false
  nodes := [n]
  parentNodes := []
  getMatchVar := fun _ => none

/-- A context whose only node is the assignment above. -/
def sampleAssignContext : AnalyzerContext := sampleContextOf (.expr sampleAssignLValueError)

/-! ## What the reset may change -/

/-- One type annotation before and after the reset: the type is the one it was,
or it was erroneous or unresolved and is now null. -/
def typeSameButStale (before after : Option Ty) : Prop :=
  after = before ∨ (isStaleType before = true ∧ after = none)

/-- The state of an expression before and after the reset: nothing but the type
may differ. -/
def ExprInfo.sameButStale (before after : ExprInfo) : Prop :=
  typeSameButStale before.ty after.ty ∧ after.range = before.range ∧
    after.implicit = before.implicit

/-- The explicit result type of a closure before and after the reset. -/
def typeLocSameButStale : Option TypeLoc → Option TypeLoc → Prop
  | some t, after => ∃ t2 : TypeLoc, after = some t2 ∧ typeSameButStale t.ty t2.ty
  | none, after => after = none

mutual
/-- The tree `after` is the tree `before` except for stale markers: the same
nodes in the same places, every type annotation outside a statement the one
it was or a stale one made null, and everything beneath a statement as it
was. -/
def Expr.sameButStale : Expr → Expr → Prop
  | .Paren i sub, after =>
    ∃ j sub2, after = .Paren j sub2 ∧ i.sameButStale j ∧ sub.sameButStale sub2
  | .Tuple i es locs, after =>
    ∃ j es2, after = .Tuple j es2 locs ∧ i.sameButStale j ∧ Expr.allSameButStale es es2
  | .ArgumentShuffle i sub m va, after =>
    ∃ j sub2, after = .ArgumentShuffle j sub2 m va ∧ i.sameButStale j ∧ sub.sameButStale sub2
  | .Apply k i fn arg, after =>
    ∃ j fn2 arg2, after = .Apply k j fn2 arg2 ∧ i.sameButStale j ∧ fn.sameButStale fn2 ∧
      arg.sameButStale arg2
  | .Subscript i base index, after =>
    ∃ j base2 index2, after = .Subscript j base2 index2 ∧ i.sameButStale j ∧
      base.sameButStale base2 ∧ index.sameButStale index2
  | .AutoClosure i body, after =>
    ∃ j body2, after = .AutoClosure j body2 ∧ i.sameButStale j ∧ body.sameButStale body2
  | .Other k i cs, after =>
    ∃ j cs2, after = .Other k j cs2 ∧ i.sameButStale j ∧ ASTNode.allSameButStale cs cs2
  | .Assign i dest src l, after =>
    ∃ j dest2 src2, after = .Assign j dest2 src2 l ∧ i.sameButStale j ∧
      dest.sameButStale dest2 ∧ src.sameButStale src2
  | .DeclRef i d, after => ∃ j, after = .DeclRef j d ∧ i.sameButStale j
  | .Closure i ps tl body, after =>
    ∃ j ps2 tl2 body2, after = .Closure j ps2 tl2 body2 ∧ i.sameButStale j ∧
      ASTNode.allSameButStale ps ps2 ∧ typeLocSameButStale tl tl2 ∧ body.sameButStale body2
/-- The relation for the body of a closure; a brace statement is as it was. -/
def ClosureBody.sameButStale : ClosureBody → ClosureBody → Prop
  | .singleExpression r e, after => ∃ e2, after = .singleExpression r e2 ∧ e.sameButStale e2
  | .brace r elements, after => after = .brace r elements
/-- The relation for a pattern. -/
def Pattern.sameButStale : Pattern → Pattern → Prop
  | .mk k ty r cs, after =>
    ∃ ty2 cs2, after = .mk k ty2 r cs2 ∧ typeSameButStale ty ty2 ∧
      ASTNode.allSameButStale cs cs2
/-- The relation for the entries of a pattern binding. -/
def PatternBindingEntry.allSameButStale :
    List PatternBindingEntry → List PatternBindingEntry → Prop
  | [], after => after = []
  | .mk p (some e) :: es, after =>
    ∃ p2 e2 es2, after = .mk p2 (some e2) :: es2 ∧ p.sameButStale p2 ∧ e.sameButStale e2 ∧
      PatternBindingEntry.allSameButStale es es2
  | .mk p none :: es, after =>
    ∃ p2 es2, after = .mk p2 none :: es2 ∧ p.sameButStale p2 ∧
      PatternBindingEntry.allSameButStale es es2
/-- The relation for the expressions of a list, one by one. -/
def Expr.allSameButStale : List Expr → List Expr → Prop
  | [], after => after = []
  | e :: es, after =>
    ∃ e2 es2, after = e2 :: es2 ∧ e.sameButStale e2 ∧ Expr.allSameButStale es es2
/-- The relation for a child; a statement is as it was. -/
def ASTNode.sameButStale : ASTNode → ASTNode → Prop
  | .expr e, after => ∃ e2, after = .expr e2 ∧ e.sameButStale e2
  | .stmt s, after => after = .stmt s
  | .decl (.mk k r cs), after =>
    ∃ cs2, after = .decl (.mk k r cs2) ∧ ASTNode.allSameButStale cs cs2
  | .decl (.PatternBinding r es), after =>
    ∃ es2, after = .decl (.PatternBinding r es2) ∧ PatternBindingEntry.allSameButStale es es2
  | .pattern p, after => ∃ p2, after = .pattern p2 ∧ p.sameButStale p2
  | .typeLoc t, after => ∃ t2 : TypeLoc, after = .typeLoc t2 ∧ typeSameButStale t.ty t2.ty
/-- The relation for the children of a list, one by one. -/
def ASTNode.allSameButStale : List ASTNode → List ASTNode → Prop
  | [], after => after = []
  | n :: ns, after =>
    ∃ n2 ns2, after = n2 :: ns2 ∧ n.sameButStale n2 ∧ ASTNode.allSameButStale ns ns2
end

/-- The call `g(x, { s })` after a failed check: the call and the reference `x`
carry the error type, the reference `g` has the type `Int`, and the closure
has a block body whose statement holds an expression of the error type. -/
def sampleStaleCall : Expr :=
  .Apply .Call ⟨some .Error, ⟨⟨1⟩, ⟨20⟩⟩, false⟩
    (.DeclRef ⟨some tyInt, ⟨⟨1⟩, ⟨1⟩⟩, false⟩ sampleVarDecl)
    (.Tuple (infoAt 2 20)
      [.Other .DeclRef ⟨some .Error, ⟨⟨3⟩, ⟨3⟩⟩, false⟩ [],
       .Closure (infoAt 6 19) [] none
        (.brace ⟨⟨6⟩, ⟨19⟩⟩
          [.stmt (.mk .Return ⟨⟨8⟩, ⟨17⟩⟩ [.expr sampleErrorOperand]),
           .stmt (.mk .Other ⟨⟨18⟩, ⟨18⟩⟩ [])])] [])

/-! ## The types the rules hand to the recorder -/

/-- What `recordPossibleType` adds for the type it is given: nothing for a null
type and for the error type, the r-value form of any other type. -/
def recordPossibleType.added : Option Ty → Option Ty
  | none => none
  | some t => if t.isErrorType then none else some t.getRValueType

/-- The types `analyzeApplyExpr` hands to `recordPossibleType`, in the order of
the calls: each insertion into `seenTypes` that finds the type new is followed
by one call with that type, so they are the seen types in insertion order. -/
def analyzeApplyExpr.handed (S : Services) (ParsedExpr E : Expr) : List (Option Ty) :=
  match E.getArgs with
  | none => []
  | some Arg =>
    match holePosition Arg ParsedExpr with
    | none => []
    | some (Position, HasName) =>
      (((S.candidates E).foldl
        (analyzeApplyExpr.step S Position
          (!HasName && !E.isImplicit && (E.isCallExpr || E.isSubscriptExpr)))
        ⟨[], [], .empty⟩).seenTypes.reverse).map some

/-- The types `analyzeExpr` hands to `recordPossibleType` for the ancestor: the
argument of each call of the recorder the rule of its kind makes. -/
def analyzeExpr.handed (S : Services) (ParsedExpr Parent : Expr) : List (Option Ty) :=
  match Parent with
  | .Apply .Call _ _ _ => analyzeApplyExpr.handed S ParsedExpr Parent
  | .Subscript _ _ _ => analyzeApplyExpr.handed S ParsedExpr Parent
  | .Apply .Binary _ _ _ => analyzeApplyExpr.handed S ParsedExpr Parent
  | .Apply .PrefixUnary _ _ _ => analyzeApplyExpr.handed S ParsedExpr Parent
  | .Assign _ destExpr _ equalLoc =>
    if isBeforeInBuffer equalLoc ParsedExpr.getStartLoc then
      match destExpr.getType with
      | some type => [some type]
      | none =>
        match destExpr with
        | .DeclRef _ decl =>
          match decl.interfaceType with
          | some interfaceType => [some (S.mapTypeIntoContext decl.declContext interfaceType)]
          | none => []
        | _ => []
    else []
  | .Tuple _ _ _ =>
    match Parent.getType with
    | some (.Tuple elementTypes) =>
      if (getPositionInArgs Parent ParsedExpr 0 false).success then
        [elementTypes.get? (getPositionInArgs Parent ParsedExpr 0 false).Position]
      else []
    | _ => []
  | .Closure _ _ _ _ => [getReturnTypeFromContext S (.closure Parent)]
  | _ => []

/-- The types `analyzeStmt` hands to `recordPossibleType` for the ancestor. -/
def analyzeStmt.handed (S : Services) (DC : ContextNode) (ParsedExpr : Expr)
    (Parent : Stmt) : List (Option Ty) :=
  match Parent.getKind with
  | .Return => [getReturnTypeFromContext S DC]
  | .ForEach =>
    match Parent with
    | .ForEach _ _ (some SEQ) _ =>
      if containsTarget ParsedExpr SEQ then [some sequenceDeclaredInterfaceType] else []
    | _ => []
  | .RepeatWhile =>
    if isBoolConditionOf ParsedExpr Parent then [some boolDeclaredInterfaceType] else []
  | .If => if isBoolConditionOf ParsedExpr Parent then [some boolDeclaredInterfaceType] else []
  | .While => if isBoolConditionOf ParsedExpr Parent then [some boolDeclaredInterfaceType] else []
  | .Guard => if isBoolConditionOf ParsedExpr Parent then [some boolDeclaredInterfaceType] else []
  | _ => []

/-- The type `analyzeDecl` hands to `recordPossibleType`: the pattern type of the
first entry whose initializer contains the hole and whose pattern has a type. -/
def analyzeDecl.handed (ParsedExpr : Expr) : List PatternBindingEntry → List (Option Ty)
  | [] => []
  | .mk (.mk _ patternType _ _) (some Init) :: rest =>
    if containsTarget ParsedExpr Init then
      match patternType with
      | some T => [some T]
      | none => analyzeDecl.handed ParsedExpr rest
    else analyzeDecl.handed ParsedExpr rest
  | .mk _ none :: rest => analyzeDecl.handed ParsedExpr rest

/-- The type `analyzePattern` hands to `recordPossibleType`. -/
def analyzePattern.handed (S : Services) (getMatchVar : Pattern → Option ValueDecl)
    (P : Pattern) : List (Option Ty) :=
  match P.getKind with
  | .Expr =>
    match getMatchVar P with
    | some D =>
      match D.interfaceType with
      | some interfaceType => [some (S.mapTypeIntoContext D.declContext interfaceType)]
      | none => []
    | none => []
  | _ => []

/-- The types the rule for the closest ancestor hands to `recordPossibleType`. -/
def Analyze.dispatch.handed (S : Services) (C : AnalyzerContext) (ParsedExpr : Expr) :
    ASTNode → List (Option Ty)
  | .expr Parent => analyzeExpr.handed S ParsedExpr Parent
  | .stmt Parent => analyzeStmt.handed S C.DC ParsedExpr Parent
  | .decl (.PatternBinding _ entries) => analyzeDecl.handed ParsedExpr entries
  | .decl (.mk _ _ _) => []
  | .pattern Parent => analyzePattern.handed S C.getMatchVar Parent
  | .typeLoc _ => []

/-- The types `Analyze` hands to `recordPossibleType`: those of the rule for the
last node of the stack of ancestors, none when there is no hole, no ancestor
or no completed walk. -/
def Analyze.handed (S : Services) (C : AnalyzerContext) (ParsedExpr : Option Expr) :
    List (Option Ty) :=
  match ParsedExpr with
  | none => []
  | some ParsedExpr =>
    match walkContext (ExprParentFinder.walker ParsedExpr Analyze.predicate) C.analyzeDC [] with
    | .error _ => []
    | .ok (Ancestors, _) =>
      match Ancestors.getLast? with
      | none => []
      | some P => Analyze.dispatch.handed S C ParsedExpr P

/-! ### Samples for parameter types with and without a wrapper -/

/-- The candidate `(inout Int) -> Void`: a by-reference parameter has the in-out
type of its underlying type. -/
def sampleCandidateInOutInt : FunctionTypeAndDecl :=
  (⟨[⟨"", .InOut tyInt⟩], .Tuple []⟩, none)

/-- Services that resolve every call to `(Int) -> Void` and `(inout Int) -> Void`. -/
def sampleServicesInOut : Services :=
  ⟨fun _ => [sampleCandidateInt, sampleCandidateInOutInt],
   fun _ => [sampleCandidateInt, sampleCandidateInOutInt], fun _ t => t⟩

/-! ### Sample for a hole in a labelled variadic run -/

/-- The hole of `f(x: 1, <hole>)`, at offset 10. -/
def sampleVariadicHole : Expr := .Other .CodeCompletion (infoAt 10 10) []

/-- The argument list of `f(x: 1, <hole>)` against `f(x: Int...)`: both written
arguments are collected into the variadic parameter; the first has a label, at
offset 3, the slot of the hole has none. -/
def sampleVariadicLabeledArgs : Expr :=
  .ArgumentShuffle ⟨none, ⟨⟨2⟩, ⟨11⟩⟩, true⟩
    (.Tuple (infoAt 2 11) [.Other .Literal (infoAt 6 6) [], sampleVariadicHole]
      [⟨3⟩, SourceLoc.invalid])
    [ArgumentShuffleExpr.Variadic] [0, 1]

/-- The call `f(x: 1, <hole>)` against `f(x: Int...)`. -/
def sampleCallVariadicLabeled : Expr :=
  .Apply .Call (infoAt 1 11) sampleFn sampleVariadicLabeledArgs

/-! ## Lemmas on the loop over the candidates -/

theorem recordPossibleType_names (info : ExprContextInfo) (ty : Option Ty) :
    (recordPossibleType info ty).PossibleNames = info.PossibleNames := by
  unfold recordPossibleType
  split
  · rfl
  · split <;> rfl

theorem recordPossibleType_types_mono (info : ExprContextInfo) (ty : Option Ty) (t : Ty)
    (h : t ∈ info.PossibleTypes) : t ∈ (recordPossibleType info ty).PossibleTypes := by
  unfold recordPossibleType
  split
  · exact h
  · split
    · exact h
    · exact List.mem_append_left _ h

theorem recordPossibleType_mem (info : ExprContextInfo) (ty t : Ty)
    (h : t ∈ (recordPossibleType info (some ty)).PossibleTypes) :
    t ∈ info.PossibleTypes ∨ (ty.isErrorType = false ∧ t = ty.getRValueType) := by
  unfold recordPossibleType at h
  by_cases he : ty.isErrorType = true
  · simp [he] at h
    exact Or.inl h
  · simp [he] at h
    rcases h with h | h
    · exact Or.inl h
    · exact Or.inr ⟨by simpa using he, h⟩

theorem recordPossibleType_new (info : ExprContextInfo) (ty : Ty)
    (h : ty.isErrorType = false) :
    ty.getRValueType ∈ (recordPossibleType info (some ty)).PossibleTypes := by
  simp [recordPossibleType, h]

/-- Without a need for names the loop never touches the recorded names. -/
theorem step_names_of_not_needed (S : Services) (pos : Nat) (st : CollectState)
    (c : FunctionTypeAndDecl) :
    (analyzeApplyExpr.step S pos false st c).info.PossibleNames = st.info.PossibleNames := by
  unfold analyzeApplyExpr.step
  split
  · rfl
  · simp only [Bool.and_false, Bool.false_eq_true, if_false]
    split
    · rfl
    · exact recordPossibleType_names _ _

theorem foldl_names_of_not_needed (S : Services) (pos : Nat) (cs : List FunctionTypeAndDecl)
    (st : CollectState) :
    (cs.foldl (analyzeApplyExpr.step S pos false) st).info.PossibleNames
      = st.info.PossibleNames := by
  induction cs generalizing st with
  | nil => rfl
  | cons c cs ih =>
    rw [List.foldl_cons, ih, step_names_of_not_needed]

/-- The loop keeps every name already recorded. -/
theorem step_names_mono (S : Services) (pos : Nat) (m : Bool) (st : CollectState)
    (c : FunctionTypeAndDecl) (n : String) (h : n ∈ st.info.PossibleNames) :
    n ∈ (analyzeApplyExpr.step S pos m st c).info.PossibleNames := by
  unfold analyzeApplyExpr.step
  split
  · exact h
  · split
    · split
      · exact h
      · exact List.mem_append_left _ h
    · split
      · exact h
      · rw [recordPossibleType_names]; exact h

theorem foldl_names_mono (S : Services) (pos : Nat) (m : Bool) (cs : List FunctionTypeAndDecl)
    (st : CollectState) (n : String) (h : n ∈ st.info.PossibleNames) :
    n ∈ (cs.foldl (analyzeApplyExpr.step S pos m) st).info.PossibleNames := by
  induction cs generalizing st with
  | nil => exact h
  | cons c cs ih => exact ih _ (step_names_mono S pos m st c n h)

/-- The loop keeps every type already recorded. -/
theorem step_types_mono (S : Services) (pos : Nat) (m : Bool) (st : CollectState)
    (c : FunctionTypeAndDecl) (t : Ty) (h : t ∈ st.info.PossibleTypes) :
    t ∈ (analyzeApplyExpr.step S pos m st c).info.PossibleTypes := by
  unfold analyzeApplyExpr.step
  split
  · exact h
  · split
    · split
      · exact h
      · exact h
    · split
      · exact h
      · exact recordPossibleType_types_mono _ _ _ h

theorem foldl_types_mono (S : Services) (pos : Nat) (m : Bool) (cs : List FunctionTypeAndDecl)
    (st : CollectState) (t : Ty) (h : t ∈ st.info.PossibleTypes) :
    t ∈ (cs.foldl (analyzeApplyExpr.step S pos m) st).info.PossibleTypes := by
  induction cs generalizing st with
  | nil => exact h
  | cons c cs ih => exact ih _ (step_types_mono S pos m st c t h)

theorem step_seenNames (S : Services) (pos : Nat) (m : Bool) (st : CollectState)
    (c : FunctionTypeAndDecl) (h : SeenNamesRecorded st) :
    SeenNamesRecorded (analyzeApplyExpr.step S pos m st c) := by
  unfold analyzeApplyExpr.step
  split
  · exact h
  · split
    · split
      · exact h
      · intro n hn
        simp only [List.mem_cons] at hn
        simp only [recordPossibleName, List.mem_append, List.mem_singleton]
        rcases hn with hn | hn
        · exact Or.inr hn
        · exact Or.inl (h n hn)
    · split
      · exact h
      · intro n hn
        rw [recordPossibleType_names]
        exact h n hn

theorem step_seenTypes (S : Services) (pos : Nat) (m : Bool) (st : CollectState)
    (c : FunctionTypeAndDecl) (h : SeenTypesRecorded st) :
    SeenTypesRecorded (analyzeApplyExpr.step S pos m st c) := by
  unfold analyzeApplyExpr.step
  split
  · exact h
  · split
    · split
      · exact h
      · intro t ht he
        exact h t ht he
    · split
      · exact h
      · intro t ht he
        simp only [List.mem_cons] at ht
        rcases ht with ht | ht
        · subst ht
          exact recordPossibleType_new _ _ he
        · exact recordPossibleType_types_mono _ _ _ (h t ht he)

/-- A labelled parameter at the position has its label recorded by the step
when names may be needed. -/
theorem step_records_label (S : Services) (pos : Nat) (st : CollectState)
    (c : FunctionTypeAndDecl) (p : Param) (h : SeenNamesRecorded st)
    (hp : c.1.Params.get? pos = some p) (hl : p.hasLabel = true) :
    p.Label ∈ (analyzeApplyExpr.step S pos true st c).info.PossibleNames := by
  unfold analyzeApplyExpr.step
  rw [hp]
  simp only [hl, Bool.and_self, if_true]
  split
  · rename_i hs
    exact h _ hs
  · simp [recordPossibleName]

/-- A parameter at the position whose type goes to the recorder has the r-value
form of that type recorded, unless it is the error type. -/
theorem step_records_type (S : Services) (pos : Nat) (m : Bool) (st : CollectState)
    (c : FunctionTypeAndDecl) (p : Param) (h : SeenTypesRecorded st)
    (hp : c.1.Params.get? pos = some p) (hm : (p.hasLabel && m) = false)
    (he : (paramTypeInContext S c.2 p).isErrorType = false) :
    (paramTypeInContext S c.2 p).getRValueType
      ∈ (analyzeApplyExpr.step S pos m st c).info.PossibleTypes := by
  unfold analyzeApplyExpr.step
  rw [hp]
  simp only [hm, Bool.false_eq_true, if_false]
  split
  · rename_i hs
    exact h _ hs he
  · exact recordPossibleType_new _ _ he

theorem foldl_seenNames (S : Services) (pos : Nat) (m : Bool) (cs : List FunctionTypeAndDecl)
    (st : CollectState) (h : SeenNamesRecorded st) :
    SeenNamesRecorded (cs.foldl (analyzeApplyExpr.step S pos m) st) := by
  induction cs generalizing st with
  | nil => exact h
  | cons c cs ih => exact ih _ (step_seenNames S pos m st c h)

theorem foldl_seenTypes (S : Services) (pos : Nat) (m : Bool) (cs : List FunctionTypeAndDecl)
    (st : CollectState) (h : SeenTypesRecorded st) :
    SeenTypesRecorded (cs.foldl (analyzeApplyExpr.step S pos m) st) := by
  induction cs generalizing st with
  | nil => exact h
  | cons c cs ih => exact ih _ (step_seenTypes S pos m st c h)

theorem foldl_records_label (S : Services) (pos : Nat) (cs : List FunctionTypeAndDecl)
    (st : CollectState) (h : SeenNamesRecorded st) (c : FunctionTypeAndDecl) (hc : c ∈ cs)
    (p : Param) (hp : c.1.Params.get? pos = some p) (hl : p.hasLabel = true) :
    p.Label ∈ (cs.foldl (analyzeApplyExpr.step S pos true) st).info.PossibleNames := by
  induction cs generalizing st with
  | nil => cases hc
  | cons d cs ih =>
    rw [List.foldl_cons]
    rcases List.mem_cons.mp hc with hc | hc
    · subst hc
      exact foldl_names_mono S pos true cs _ _ (step_records_label S pos st c p h hp hl)
    · exact ih _ (step_seenNames S pos true st d h) hc

theorem foldl_records_type (S : Services) (pos : Nat) (m : Bool)
    (cs : List FunctionTypeAndDecl) (st : CollectState) (h : SeenTypesRecorded st)
    (c : FunctionTypeAndDecl) (hc : c ∈ cs) (p : Param)
    (hp : c.1.Params.get? pos = some p) (hm : (p.hasLabel && m) = false)
    (he : (paramTypeInContext S c.2 p).isErrorType = false) :
    (paramTypeInContext S c.2 p).getRValueType
      ∈ (cs.foldl (analyzeApplyExpr.step S pos m) st).info.PossibleTypes := by
  induction cs generalizing st with
  | nil => cases hc
  | cons d cs ih =>
    rw [List.foldl_cons]
    rcases List.mem_cons.mp hc with hc | hc
    · subst hc
      exact foldl_types_mono S pos m cs _ _ (step_records_type S pos m st c p h hp hm he)
    · exact ih _ (step_seenTypes S pos m st d h) hc

theorem step_type_origin (S : Services) (pos : Nat) (m : Bool) (st : CollectState)
    (c : FunctionTypeAndDecl) (t : Ty)
    (h : t ∈ (analyzeApplyExpr.step S pos m st c).info.PossibleTypes) :
    t ∈ st.info.PossibleTypes ∨ TypeOrigin S pos m [c] t := by
  unfold analyzeApplyExpr.step at h
  split at h
  · exact Or.inl h
  · rename_i p hp
    split at h
    · split at h
      · exact Or.inl h
      · exact Or.inl h
    · rename_i hm
      split at h
      · exact Or.inl h
      · rcases recordPossibleType_mem _ _ _ h with h | ⟨he, ht⟩
        · exact Or.inl h
        · exact Or.inr ⟨c, List.mem_singleton.mpr rfl, p, hp, by simpa using hm, he, ht⟩

theorem foldl_type_origin (S : Services) (pos : Nat) (m : Bool)
    (cs : List FunctionTypeAndDecl) (st : CollectState) (t : Ty)
    (h : t ∈ (cs.foldl (analyzeApplyExpr.step S pos m) st).info.PossibleTypes) :
    t ∈ st.info.PossibleTypes ∨ TypeOrigin S pos m cs t := by
  induction cs generalizing st with
  | nil => exact Or.inl h
  | cons d cs ih =>
    rw [List.foldl_cons] at h
    rcases ih _ h with h | ⟨c, hc, p, hp, hm, he, ht⟩
    · rcases step_type_origin S pos m st d t h with h | ⟨c, hc, p, hp, hm, he, ht⟩
      · exact Or.inl h
      · rw [List.mem_singleton] at hc
        subst hc
        exact Or.inr ⟨c, List.mem_cons_self _ _, p, hp, hm, he, ht⟩
    · exact Or.inr ⟨c, List.mem_cons_of_mem _ hc, p, hp, hm, he, ht⟩

/-! ## Labels and types at a call argument -/

/-- What a known hole position says about the two position functions. -/
theorem holePosition_some (Arg hole : Expr) (pos : Nat) (hasName : Bool)
    (h : holePosition Arg hole = some (pos, hasName)) :
    (getPositionInArgs Arg hole 0 false).success = true ∧
    (translateArgIndexToParamIndex Arg (getPositionInArgs Arg hole 0 false).Position
      (getPositionInArgs Arg hole 0 false).HasName) = ⟨true, pos, hasName⟩ := by
  unfold holePosition at h
  by_cases h1 : (getPositionInArgs Arg hole 0 false).success = true
  · refine ⟨h1, ?_⟩
    simp only [h1, Bool.not_true, Bool.false_eq_true, if_false] at h
    by_cases h2 : (translateArgIndexToParamIndex Arg (getPositionInArgs Arg hole 0 false).Position
        (getPositionInArgs Arg hole 0 false).HasName).success = true
    · simp only [h2, Bool.not_true, Bool.false_eq_true, if_false, Option.some.injEq,
        Prod.mk.injEq] at h
      generalize translateArgIndexToParamIndex Arg _ _ = r at h h2
      cases r
      simp_all
    · simp [h2] at h
  · simp [h1] at h

/-- With the hole's position known, the names and types `analyzeApplyExpr`
returns for a call-like node are those the loop over the candidates leaves. -/
theorem analyzeApplyExpr_of_position (S : Services) (hole E arg : Expr) (pos : Nat)
    (hasName : Bool) (harg : E.getArgs = some arg)
    (hpos : holePosition arg hole = some (pos, hasName)) :
    ∃ r, analyzeApplyExpr S hole .empty E = some r ∧
      r.2.PossibleNames = ((S.candidates E).foldl
        (analyzeApplyExpr.step S pos
          (!hasName && !E.isImplicit && (E.isCallExpr || E.isSubscriptExpr)))
        ⟨[], [], { ExprContextInfo.empty with PossibleCallees := S.candidates E }⟩).info.PossibleNames ∧
      r.2.PossibleTypes = ((S.candidates E).foldl
        (analyzeApplyExpr.step S pos
          (!hasName && !E.isImplicit && (E.isCallExpr || E.isSubscriptExpr)))
        ⟨[], [], { ExprContextInfo.empty with PossibleCallees := S.candidates E }⟩).info.PossibleTypes := by
  obtain ⟨h1, h2⟩ := holePosition_some arg hole pos hasName hpos
  cases E with
  | Apply k i fn a =>
    simp only [Expr.getArgs, Option.some.injEq] at harg
    subst harg
    by_cases hc : (S.calleesForApply (.Apply k i fn a)).isEmpty = true
    · have hc2 : S.calleesForApply (.Apply k i fn a) = [] := List.isEmpty_iff.mp hc
      refine ⟨(false, .empty), ?_, ?_, ?_⟩
      · simp [analyzeApplyExpr, hc]
      · simp [Services.candidates, hc2, ExprContextInfo.empty]
      · simp [Services.candidates, hc2, ExprContextInfo.empty]
    · refine ⟨analyzeApplyExpr.collect S hole .empty (.Apply k i fn a)
        (S.calleesForApply (.Apply k i fn a)) a, ?_, ?_, ?_⟩
      · simp only [analyzeApplyExpr, hc, Bool.false_eq_true, if_false]
      · simp [analyzeApplyExpr.collect, h1, h2, Services.candidates]
      · simp [analyzeApplyExpr.collect, h1, h2, Services.candidates]
  | Subscript i b a =>
    simp only [Expr.getArgs, Option.some.injEq] at harg
    subst harg
    by_cases hc : (S.calleesForSubscript (.Subscript i b a)).isEmpty = true
    · have hc2 : S.calleesForSubscript (.Subscript i b a) = [] := List.isEmpty_iff.mp hc
      refine ⟨(false, .empty), ?_, ?_, ?_⟩
      · simp [analyzeApplyExpr, hc]
      · simp [Services.candidates, hc2, ExprContextInfo.empty]
      · simp [Services.candidates, hc2, ExprContextInfo.empty]
    · refine ⟨analyzeApplyExpr.collect S hole .empty (.Subscript i b a)
        (S.calleesForSubscript (.Subscript i b a)) a, ?_, ?_, ?_⟩
      · simp only [analyzeApplyExpr, hc, Bool.false_eq_true, if_false]
      · simp [analyzeApplyExpr.collect, h1, h2, Services.candidates]
      · simp [analyzeApplyExpr.collect, h1, h2, Services.candidates]
  | Paren _ _ => simp [Expr.getArgs] at harg
  | Tuple _ _ _ => simp [Expr.getArgs] at harg
  | ArgumentShuffle _ _ _ _ => simp [Expr.getArgs] at harg
  | AutoClosure _ _ => simp [Expr.getArgs] at harg
  | Other _ _ _ => simp [Expr.getArgs] at harg
  | Assign _ _ _ _ => simp [Expr.getArgs] at harg
  | DeclRef _ _ => simp [Expr.getArgs] at harg
  | Closure _ _ _ _ => simp [Expr.getArgs] at harg

/-- C2: in `analyzeApplyExpr`, when the slot holding the hole already has a label
(the label flag the position functions compute is set), no possible expected
name is recorded, and every candidate whose parameter list covers the logical
position hands that parameter's type to the recorder, so what recording it
yields is among the possible expected types; for `f(x: <hole>)` with the
single candidate `(x: Int) -> Void` the types are exactly `[Int]` and the
names are empty. -/
theorem analyzeApplyExpr_labeled_slot (S : Services) (hole E arg : Expr) (pos : Nat)
    (harg : E.getArgs = some arg)
    (hpos : holePosition arg hole = some (pos, true)) :
    (∃ r, analyzeApplyExpr S hole .empty E = some r ∧
      r.2.PossibleNames = [] ∧
      (∀ c ∈ S.candidates E, ∀ p, c.1.Params.get? pos = some p →
        ∀ t ∈ (recordPossibleType .empty (some (paramTypeInContext S c.2 p))).PossibleTypes,
          t ∈ r.2.PossibleTypes)) ∧
    analyzeApplyExpr sampleServices sampleHoleLabeled .empty sampleCallLabeled
      = some (true, ⟨[tyInt], [], [sampleCandidate], false⟩) := by
  refine ⟨?_, by rfl⟩
  obtain ⟨r, hr, hn, ht⟩ := analyzeApplyExpr_of_position S hole E arg pos true harg hpos
  simp only [Bool.not_true, Bool.false_and] at hn ht
  refine ⟨r, hr, ?_, ?_⟩
  · rw [hn, foldl_names_of_not_needed]
    rfl
  · intro c hc p hp t h
    rcases recordPossibleType_mem _ _ _ h with h | ⟨he, hteq⟩
    · simp [ExprContextInfo.empty] at h
    · rw [ht, hteq]
      exact foldl_records_type S pos false _ _ (by intro n h; cases h) c hc p hp (by simp) he

/-- C2 at the call `f(x: <hole>)` with the candidate `(x: Int) -> Void`. -/
theorem analyzeApplyExpr_labeled_slot_witness :
    (∃ r, analyzeApplyExpr sampleServices sampleHoleLabeled .empty sampleCallLabeled = some r ∧
      r.2.PossibleNames = [] ∧
      (∀ c ∈ sampleServices.candidates sampleCallLabeled, ∀ p, c.1.Params.get? 0 = some p →
        ∀ t ∈ (recordPossibleType .empty
            (some (paramTypeInContext sampleServices c.2 p))).PossibleTypes,
          t ∈ r.2.PossibleTypes)) ∧
    analyzeApplyExpr sampleServices sampleHoleLabeled .empty sampleCallLabeled
      = some (true, ⟨[tyInt], [], [sampleCandidate], false⟩) :=
  analyzeApplyExpr_labeled_slot sampleServices sampleHoleLabeled sampleCallLabeled
    (.Tuple (infoAt 2 7) [.Other .CodeCompletion (infoAt 6 6) []] [⟨3⟩]) 0 rfl rfl

/-- Without a position for the hole, `analyzeApplyExpr` returns the candidates
and neither names nor types. -/
theorem analyzeApplyExpr_of_no_position (S : Services) (hole E arg : Expr)
    (harg : E.getArgs = some arg) (hpos : holePosition arg hole = none) :
    ∃ r, analyzeApplyExpr S hole .empty E = some r ∧ r.1 = false ∧
      r.2.PossibleNames = [] ∧ r.2.PossibleTypes = [] ∧
      r.2.PossibleCallees = S.candidates E := by
  have hcol : ∀ cs : List FunctionTypeAndDecl,
      analyzeApplyExpr.collect S hole .empty E cs arg
        = (false, { ExprContextInfo.empty with PossibleCallees := cs }) := by
    intro cs
    unfold holePosition at hpos
    unfold analyzeApplyExpr.collect
    by_cases h1 : (getPositionInArgs arg hole 0 false).success = true
    · simp only [h1, Bool.not_true, Bool.false_eq_true, if_false] at hpos ⊢
      by_cases h2 : (translateArgIndexToParamIndex arg
          (getPositionInArgs arg hole 0 false).Position
          (getPositionInArgs arg hole 0 false).HasName).success = true
      · simp [h2] at hpos
      · simp [h2]
    · simp [h1]
  cases E with
  | Apply k i fn a =>
    simp only [Expr.getArgs, Option.some.injEq] at harg
    subst harg
    by_cases hc : (S.calleesForApply (.Apply k i fn a)).isEmpty = true
    · have hc2 : S.calleesForApply (.Apply k i fn a) = [] := List.isEmpty_iff.mp hc
      exact ⟨(false, .empty), by simp [analyzeApplyExpr, hc], rfl, rfl, rfl,
        by simp [Services.candidates, hc2, ExprContextInfo.empty]⟩
    · exact ⟨(false, { ExprContextInfo.empty with
          PossibleCallees := S.calleesForApply (.Apply k i fn a) }),
        by simp only [analyzeApplyExpr, hc, Bool.false_eq_true, if_false, hcol],
        rfl, rfl, rfl, rfl⟩
  | Subscript i b a =>
    simp only [Expr.getArgs, Option.some.injEq] at harg
    subst harg
    by_cases hc : (S.calleesForSubscript (.Subscript i b a)).isEmpty = true
    · have hc2 : S.calleesForSubscript (.Subscript i b a) = [] := List.isEmpty_iff.mp hc
      exact ⟨(false, .empty), by simp [analyzeApplyExpr, hc], rfl, rfl, rfl,
        by simp [Services.candidates, hc2, ExprContextInfo.empty]⟩
    · exact ⟨(false, { ExprContextInfo.empty with
          PossibleCallees := S.calleesForSubscript (.Subscript i b a) }),
        by simp only [analyzeApplyExpr, hc, Bool.false_eq_true, if_false, hcol],
        rfl, rfl, rfl, rfl⟩
  | Paren _ _ => simp [Expr.getArgs] at harg
  | Tuple _ _ _ => simp [Expr.getArgs] at harg
  | ArgumentShuffle _ _ _ _ => simp [Expr.getArgs] at harg
  | AutoClosure _ _ => simp [Expr.getArgs] at harg
  | Other _ _ _ => simp [Expr.getArgs] at harg
  | Assign _ _ _ _ => simp [Expr.getArgs] at harg
  | DeclRef _ _ => simp [Expr.getArgs] at harg
  | Closure _ _ _ _ => simp [Expr.getArgs] at harg

/-- C3: for every call-like node `analyzeApplyExpr` analyses, a possible expected
name is recorded only if the node is a plain call or a subscript, is not
implicit, and the hole's slot has no label; for a binary-operator or
prefix-unary-operator node and for an implicit node the possible expected
names are empty, whatever labels the candidates' parameters have, as for
`<hole> + y` and for an implicit `f(<hole>)` against `(x: Int) -> Void`,
which give the type `Int` and no name. -/
theorem analyzeApplyExpr_names_only_for_explicit_call (S : Services) (hole E arg : Expr)
    (harg : E.getArgs = some arg) :
    (∃ r, analyzeApplyExpr S hole .empty E = some r ∧
      (r.2.PossibleNames ≠ [] →
        (E.isCallExpr = true ∨ E.isSubscriptExpr = true) ∧ E.isImplicit = false ∧
        ∃ pos, holePosition arg hole = some (pos, false)) ∧
      (E.isBinaryExpr = true ∨ E.isPrefixUnaryExpr = true ∨ E.isImplicit = true →
        r.2.PossibleNames = [])) ∧
    analyzeApplyExpr sampleServices sampleHole .empty sampleBinary
      = some (true, ⟨[tyInt], [], [sampleCandidate], false⟩) ∧
    analyzeApplyExpr sampleServices sampleHole .empty sampleCallImplicit
      = some (true, ⟨[tyInt], [], [sampleCandidate], false⟩) := by
  refine ⟨?_, by rfl, by rfl⟩
  have key : ∃ r, analyzeApplyExpr S hole .empty E = some r ∧
      (r.2.PossibleNames ≠ [] →
        (E.isCallExpr = true ∨ E.isSubscriptExpr = true) ∧ E.isImplicit = false ∧
        ∃ pos, holePosition arg hole = some (pos, false)) := by
    cases hpos : holePosition arg hole with
    | none =>
      obtain ⟨r, hr, _, hn, _, _⟩ := analyzeApplyExpr_of_no_position S hole E arg harg hpos
      exact ⟨r, hr, fun h => absurd hn h⟩
    | some ph =>
      obtain ⟨pos, hasName⟩ := ph
      obtain ⟨r, hr, hn, _⟩ := analyzeApplyExpr_of_position S hole E arg pos hasName harg hpos
      refine ⟨r, hr, ?_⟩
      intro hne
      by_cases hm : (!hasName && !E.isImplicit && (E.isCallExpr || E.isSubscriptExpr)) = true
      · simp only [Bool.and_eq_true, Bool.not_eq_true', Bool.or_eq_true] at hm
        obtain ⟨⟨h1, h2⟩, h3⟩ := hm
        subst h1
        exact ⟨h3, h2, pos, rfl⟩
      · rw [Bool.not_eq_true] at hm
        rw [hm, foldl_names_of_not_needed] at hn
        exact absurd hn hne
  obtain ⟨r, hr, h1⟩ := key
  refine ⟨r, hr, h1, ?_⟩
  intro hk
  by_contra hne
  obtain ⟨hcs, himp, _⟩ := h1 hne
  rcases hk with hk | hk | hk
  · cases E with
    | Apply k _ _ _ => cases k <;> simp [Expr.isBinaryExpr, Expr.isCallExpr, Expr.isSubscriptExpr] at hk hcs
    | _ => simp [Expr.isBinaryExpr] at hk
  · cases E with
    | Apply k _ _ _ => cases k <;> simp [Expr.isPrefixUnaryExpr, Expr.isCallExpr, Expr.isSubscriptExpr] at hk hcs
    | _ => simp [Expr.isPrefixUnaryExpr] at hk
  · rw [hk] at himp
    cases himp

/-- C3 at the binary node `<hole> + y` with a candidate whose parameter has a label. -/
theorem analyzeApplyExpr_names_only_for_explicit_call_witness :
    (∃ r, analyzeApplyExpr sampleServices sampleHole .empty sampleBinary = some r ∧
      (r.2.PossibleNames ≠ [] →
        (sampleBinary.isCallExpr = true ∨ sampleBinary.isSubscriptExpr = true) ∧
        sampleBinary.isImplicit = false ∧
        ∃ pos, holePosition (.Tuple (infoAt 3 5)
          [sampleHole, .Other .DeclRef (infoAt 5 5) []] []) sampleHole = some (pos, false)) ∧
      (sampleBinary.isBinaryExpr = true ∨ sampleBinary.isPrefixUnaryExpr = true ∨
        sampleBinary.isImplicit = true → r.2.PossibleNames = [])) ∧
    analyzeApplyExpr sampleServices sampleHole .empty sampleBinary
      = some (true, ⟨[tyInt], [], [sampleCandidate], false⟩) ∧
    analyzeApplyExpr sampleServices sampleHole .empty sampleCallImplicit
      = some (true, ⟨[tyInt], [], [sampleCandidate], false⟩) :=
  analyzeApplyExpr_names_only_for_explicit_call sampleServices sampleHole sampleBinary
    (.Tuple (infoAt 3 5) [sampleHole, .Other .DeclRef (infoAt 5 5) []] []) rfl

/-! ## Translation of the written position to the parameter position -/

/-- What the loop over the mapping returns: failure with the outputs untouched
when no entry matches, and otherwise the index of the first matching entry. -/
theorem translate_scan_spec (sub : Expr) (va : List Nat) (p : Nat) (hn : Bool)
    (m : List Int) (k : Nat) :
    ((translateArgIndexToParamIndex.scan sub va p hn m k) = ⟨false, p, hn⟩ ∧
      ∀ s ∈ m, ¬ entryMatches va p s) ∨
    (∃ d s, m.get? d = some s ∧ entryMatches va p s ∧
      (∀ j s2, j < d → m.get? j = some s2 → ¬ entryMatches va p s2) ∧
      (translateArgIndexToParamIndex.scan sub va p hn m k)
        = ⟨true, k + d, if s = toSigned p then hn else variadicRunHasName sub va⟩) := by
  induction m generalizing k with
  | nil =>
    left
    exact ⟨rfl, by intro s hs; cases hs⟩
  | cons s rest ih =>
    by_cases h1 : s = toSigned p
    · right
      refine ⟨0, s, rfl, Or.inl h1, ?_, ?_⟩
      · intro j s2 hj; omega
      · simp [translateArgIndexToParamIndex.scan, h1]
    · by_cases h2 : s = ArgumentShuffleExpr.Variadic ∧ p ∈ va
      · right
        refine ⟨0, s, rfl, Or.inr h2, ?_, ?_⟩
        · intro j s2 hj; omega
        · rw [translateArgIndexToParamIndex.scan, if_neg h1, if_pos h2, if_neg h1]
          rfl
      · have hno : ¬ entryMatches va p s := by
          intro h
          rcases h with h | h
          · exact h1 h
          · exact h2 h
        have hstep : translateArgIndexToParamIndex.scan sub va p hn (s :: rest) k
            = translateArgIndexToParamIndex.scan sub va p hn rest (k + 1) := by
          simp only [translateArgIndexToParamIndex.scan, h1, h2, if_false]
        rcases ih (k + 1) with ⟨hf, hall⟩ | ⟨d, s2, hd, hm, hleast, hr⟩
        · left
          refine ⟨by rw [hstep, hf], ?_⟩
          intro x hx
          rcases List.mem_cons.mp hx with hx | hx
          · subst hx; exact hno
          · exact hall x hx
        · right
          refine ⟨d + 1, s2, by simpa using hd, hm, ?_, ?_⟩
          · intro j s3 hj hget
            cases j with
            | zero =>
              simp only [List.get?_cons_zero, Option.some.injEq] at hget
              subst hget
              exact hno
            | succ j =>
              simp only [List.get?_cons_succ] at hget
              exact hleast j s3 (by omega) hget
          · rw [hstep, hr]
            simp only [ArgPosition.mk.injEq, true_and, and_true]
            omega

/-- Below `2 ^ 31` the cast to `signed` keeps the number. -/
theorem toSigned_of_lt (p : Nat) (h : p < 2 ^ 31) : toSigned p = (p : Int) := by
  unfold toSigned
  have h2 : p % 2 ^ 32 = p := Nat.mod_eq_of_lt (by omega)
  rw [h2, if_pos h]

/-- On an argument shuffle `translateArgIndexToParamIndex` is the loop over its mapping. -/
theorem translate_shuffle (i : ExprInfo) (sub : Expr) (mapping : List Int) (va : List Nat)
    (p : Nat) (hn : Bool) :
    translateArgIndexToParamIndex (.ArgumentShuffle i sub mapping va) p hn
      = translateArgIndexToParamIndex.scan sub va p hn mapping 0 := rfl

/-- C4, amended: for an argument shuffle whose first variadic entry is at
destination index `d`, and a written position `p` below `2 ^ 31` of the
variadic run that is not a direct source in the mapping before `d`,
`translateArgIndexToParamIndex` succeeds and sets the position to `d`; the
label flag becomes that of the run, which is `false` when the arguments are a
tuple whose first variadic element has no label location; for `f(1, 2, 3)`
against `f(_ xs: Int...)` each of the three positions gives position `0`
without a label. -/
theorem translate_variadic_run (i : ExprInfo) (sub : Expr) (mapping : List Int)
    (va : List Nat) (d p : Nat) (hn : Bool)
    (hd : mapping.get? d = some ArgumentShuffleExpr.Variadic)
    (hfirst : ∀ j, j < d → mapping.get? j ≠ some ArgumentShuffleExpr.Variadic)
    (hsrc : ∀ j, j < d → mapping.get? j ≠ some (p : Int))
    (hp : p ∈ va) (hlt : p < 2 ^ 31) :
    (translateArgIndexToParamIndex (.ArgumentShuffle i sub mapping va) p hn
        = ⟨true, d, variadicRunHasName sub va⟩ ∧
      (∀ info elements nameLocs first rest, sub = .Tuple info elements nameLocs →
        va = first :: rest → (getElementNameLoc nameLocs first).isValid = false →
        (translateArgIndexToParamIndex (.ArgumentShuffle i sub mapping va) p hn).HasName
          = false)) ∧
    (∀ q ∈ [0, 1, 2], ∀ b : Bool,
      translateArgIndexToParamIndex sampleVariadicShuffle q b = ⟨true, 0, false⟩) := by
  have hs : toSigned p = (p : Int) := toSigned_of_lt p hlt
  have hne : ArgumentShuffleExpr.Variadic ≠ toSigned p := by
    rw [hs]
    unfold ArgumentShuffleExpr.Variadic
    omega
  have hmatch : entryMatches va p ArgumentShuffleExpr.Variadic := Or.inr ⟨rfl, hp⟩
  have hnomatch : ∀ j s, j < d → mapping.get? j = some s → ¬ entryMatches va p s := by
    intro j s hj hget hm
    rcases hm with hm | ⟨hm, _⟩
    · rw [hm, hs] at hget
      exact hsrc j hj hget
    · rw [hm] at hget
      exact hfirst j hj hget
  have hres : translateArgIndexToParamIndex (.ArgumentShuffle i sub mapping va) p hn
      = ⟨true, d, variadicRunHasName sub va⟩ := by
    rw [translate_shuffle]
    rcases translate_scan_spec sub va p hn mapping 0 with ⟨_, hall⟩ | ⟨e, s, he, hm, hleast, hr⟩
    · exact absurd hmatch (hall _ (List.get?_mem hd))
    · have hed : e = d := by
        rcases Nat.lt_trichotomy e d with h | h | h
        · exact absurd hm (hnomatch e s h he)
        · exact h
        · exact absurd hmatch (hleast d _ h hd)
      subst hed
      rw [hd] at he
      cases he
      rw [hr, if_neg hne, Nat.zero_add]
  refine ⟨⟨hres, ?_⟩, ?_⟩
  · intro info elements nameLocs first rest hsub hva hlab
    rw [hres, hsub, hva]
    simpa [variadicRunHasName] using hlab
  · intro q hq b
    simp only [List.mem_cons, List.mem_singleton, List.not_mem_nil, or_false] at hq
    rcases hq with rfl | rfl | rfl <;> cases b <;> decide

/-- C4, amended, at `f(1, 2, 3)` against `f(_ xs: Int...)` and the second argument. -/
theorem translate_variadic_run_witness :
    (translateArgIndexToParamIndex sampleVariadicShuffle 1 true
        = ⟨true, 0, variadicRunHasName (.Tuple ⟨none, ⟨⟨2⟩, ⟨10⟩⟩, false⟩
            [.Other .Literal ⟨none, ⟨⟨3⟩, ⟨3⟩⟩, false⟩ [],
             .Other .Literal ⟨none, ⟨⟨6⟩, ⟨6⟩⟩, false⟩ [],
             .Other .Literal ⟨none, ⟨⟨9⟩, ⟨9⟩⟩, false⟩ []] []) [0, 1, 2]⟩ ∧
      (∀ info elements nameLocs first rest,
        Expr.Tuple ⟨none, ⟨⟨2⟩, ⟨10⟩⟩, false⟩
            [.Other .Literal ⟨none, ⟨⟨3⟩, ⟨3⟩⟩, false⟩ [],
             .Other .Literal ⟨none, ⟨⟨6⟩, ⟨6⟩⟩, false⟩ [],
             .Other .Literal ⟨none, ⟨⟨9⟩, ⟨9⟩⟩, false⟩ []] []
          = .Tuple info elements nameLocs →
        [0, 1, 2] = first :: rest → (getElementNameLoc nameLocs first).isValid = false →
        (translateArgIndexToParamIndex sampleVariadicShuffle 1 true).HasName = false)) ∧
    (∀ q ∈ [0, 1, 2], ∀ b : Bool,
      translateArgIndexToParamIndex sampleVariadicShuffle q b = ⟨true, 0, false⟩) :=
  translate_variadic_run ⟨none, ⟨⟨2⟩, ⟨10⟩⟩, true⟩ _ [ArgumentShuffleExpr.Variadic] [0, 1, 2]
    0 1 true rfl (by intro j hj; omega) (by intro j hj; omega) (by decide) (by decide)

/-- C4 as stated fails at two inputs. With the mapping `[-1, -2]`, the variadic
run `[4294967295]` and the written position `4294967295`, the variadic entry
is at index `1` and no entry before it is the number `4294967295`, yet the
position becomes `0`: the cast to `signed` makes the position equal to the
marker `-1`. With the mapping `[-2, -2]`, the run `[0]` and the position `0`,
the variadic entry at index `1` is not the first one and the position
becomes `0`. -/
theorem translate_variadic_run_counterexample :
    (([-1, -2] : List Int).get? 1 = some ArgumentShuffleExpr.Variadic ∧
      4294967295 ∈ [4294967295] ∧
      (∀ j, j < 1 → ([-1, -2] : List Int).get? j ≠ some ((4294967295 : Nat) : Int)) ∧
      translateArgIndexToParamIndex
        (.ArgumentShuffle ⟨none, ⟨⟨2⟩, ⟨10⟩⟩, true⟩ (.Paren (infoAt 2 10) sampleHole)
          [-1, -2] [4294967295]) 4294967295 false = ⟨true, 0, false⟩) ∧
    (([-2, -2] : List Int).get? 1 = some ArgumentShuffleExpr.Variadic ∧
      0 ∈ [0] ∧
      (∀ j, j < 1 → ([-2, -2] : List Int).get? j ≠ some ((0 : Nat) : Int)) ∧
      translateArgIndexToParamIndex
        (.ArgumentShuffle ⟨none, ⟨⟨2⟩, ⟨10⟩⟩, true⟩ (.Paren (infoAt 2 10) sampleHole)
          [-2, -2] [0]) 0 false = ⟨true, 0, false⟩) := by
  refine ⟨⟨rfl, by decide, ?_, by decide⟩, ⟨rfl, by decide, ?_, by decide⟩⟩
  · intro j hj
    have : j = 0 := by omega
    subst this
    decide
  · intro j hj
    have : j = 0 := by omega
    subst this
    decide

/-- C5, amended: when `translateArgIndexToParamIndex` succeeds on an argument
shuffle and a written position `p`, the output position `d` is below the size
of the element mapping, and `d` is the least destination index whose entry
equals `p` read as a signed 32-bit integer or is the variadic marker with `p`
in the variadic run; for `p` below `2 ^ 31` that is the least index with
`mapping[d] = p` or the variadic marker with `p` in the run. -/
theorem translate_position_valid (i : ExprInfo) (sub : Expr) (mapping : List Int)
    (va : List Nat) (p : Nat) (hn : Bool)
    (h : (translateArgIndexToParamIndex (.ArgumentShuffle i sub mapping va) p hn).success
      = true) :
    (translateArgIndexToParamIndex (.ArgumentShuffle i sub mapping va) p hn).Position
      < mapping.length ∧
    (∃ s, mapping.get?
        (translateArgIndexToParamIndex (.ArgumentShuffle i sub mapping va) p hn).Position
          = some s ∧ entryMatches va p s) ∧
    (∀ j s, j < (translateArgIndexToParamIndex (.ArgumentShuffle i sub mapping va) p hn).Position →
      mapping.get? j = some s → ¬ entryMatches va p s) ∧
    (p < 2 ^ 31 →
      (∃ s, mapping.get?
          (translateArgIndexToParamIndex (.ArgumentShuffle i sub mapping va) p hn).Position
            = some s ∧ (s = (p : Int) ∨ (s = ArgumentShuffleExpr.Variadic ∧ p ∈ va))) ∧
      (∀ j s, j < (translateArgIndexToParamIndex (.ArgumentShuffle i sub mapping va) p hn).Position →
        mapping.get? j = some s →
        ¬ (s = (p : Int) ∨ (s = ArgumentShuffleExpr.Variadic ∧ p ∈ va)))) := by
  rw [translate_shuffle] at h ⊢
  rcases translate_scan_spec sub va p hn mapping 0 with ⟨hf, _⟩ | ⟨d, s, hd, hm, hleast, hr⟩
  · rw [hf] at h
    cases h
  · rw [hr]
    simp only [Nat.zero_add]
    have hlen : d < mapping.length := by
      rcases Nat.lt_or_ge d mapping.length with hl | hl
      · exact hl
      · rw [List.get?_eq_none.mpr hl] at hd
        cases hd
    refine ⟨hlen, ⟨s, hd, hm⟩, hleast, ?_⟩
    intro hlt
    have hs : toSigned p = (p : Int) := toSigned_of_lt p hlt
    unfold entryMatches at hm hleast
    rw [hs] at hm hleast
    exact ⟨⟨s, hd, hm⟩, hleast⟩

/-- C5, amended, at `g(a: 1)` against `g(a: Int, b: Int = 0)` and the first argument. -/
theorem translate_position_valid_witness :
    (translateArgIndexToParamIndex sampleDefaultedShuffle 0 true).success = true ∧
    (translateArgIndexToParamIndex sampleDefaultedShuffle 0 true).Position
      < [0, ArgumentShuffleExpr.DefaultInitializeMarker].length ∧
    (∃ s, [0, ArgumentShuffleExpr.DefaultInitializeMarker].get?
        (translateArgIndexToParamIndex sampleDefaultedShuffle 0 true).Position
          = some s ∧ entryMatches [] 0 s) ∧
    (∀ j s, j < (translateArgIndexToParamIndex sampleDefaultedShuffle 0 true).Position →
      [0, ArgumentShuffleExpr.DefaultInitializeMarker].get? j = some s →
      ¬ entryMatches [] 0 s) ∧
    (0 < 2 ^ 31 →
      (∃ s, [0, ArgumentShuffleExpr.DefaultInitializeMarker].get?
          (translateArgIndexToParamIndex sampleDefaultedShuffle 0 true).Position
            = some s ∧ (s = ((0 : Nat) : Int) ∨ (s = ArgumentShuffleExpr.Variadic ∧ 0 ∈ []))) ∧
      (∀ j s, j < (translateArgIndexToParamIndex sampleDefaultedShuffle 0 true).Position →
        [0, ArgumentShuffleExpr.DefaultInitializeMarker].get? j = some s →
        ¬ (s = ((0 : Nat) : Int) ∨ (s = ArgumentShuffleExpr.Variadic ∧ 0 ∈ [])))) :=
  ⟨by decide, translate_position_valid ⟨none, ⟨⟨2⟩, ⟨7⟩⟩, true⟩ _
    [0, ArgumentShuffleExpr.DefaultInitializeMarker] [] 0 true (by decide)⟩

/-- C5 as stated fails for the mapping `[-2]` with an empty variadic run and the
written position `4294967294`: the function succeeds with position `0`,
because the cast to `signed` makes the position equal to the variadic marker,
but the entry at index `0` is not the number `4294967294` and the position
is not in the variadic run. -/
theorem translate_position_valid_counterexample :
    translateArgIndexToParamIndex
      (.ArgumentShuffle ⟨none, ⟨⟨2⟩, ⟨10⟩⟩, true⟩ (.Paren (infoAt 2 10) sampleHole)
        [ArgumentShuffleExpr.Variadic] []) 4294967294 false = ⟨true, 0, false⟩ ∧
    ¬ (([ArgumentShuffleExpr.Variadic] : List Int).get? 0 = some ((4294967294 : Nat) : Int) ∨
      (([ArgumentShuffleExpr.Variadic] : List Int).get? 0 = some ArgumentShuffleExpr.Variadic ∧
        4294967294 ∈ ([] : List Nat))) := by
  refine ⟨by decide, ?_⟩
  decide

/-- C6, amended: on an argument shuffle `translateArgIndexToParamIndex` returns
failure if and only if no destination entry equals the written position `p`
read as a signed 32-bit integer and `p` is not in a collected variadic run;
on failure the position and the label flag are unchanged; for `p` below
`2 ^ 31` failure is exactly that `p` is not represented in the mapping, as
for the position of the defaulted parameter of `g(a: 1)` against
`g(a: Int, b: Int = 0)`. -/
theorem translate_failure_iff (i : ExprInfo) (sub : Expr) (mapping : List Int)
    (va : List Nat) (p : Nat) (hn : Bool) :
    ((translateArgIndexToParamIndex (.ArgumentShuffle i sub mapping va) p hn).success = false ↔
      ∀ s ∈ mapping, ¬ entryMatches va p s) ∧
    ((translateArgIndexToParamIndex (.ArgumentShuffle i sub mapping va) p hn).success = false →
      translateArgIndexToParamIndex (.ArgumentShuffle i sub mapping va) p hn = ⟨false, p, hn⟩) ∧
    (p < 2 ^ 31 →
      ((translateArgIndexToParamIndex (.ArgumentShuffle i sub mapping va) p hn).success = false ↔
        ¬ representedInMapping mapping va p)) ∧
    translateArgIndexToParamIndex sampleDefaultedShuffle 1 hn = ⟨false, 1, hn⟩ := by
  have hiff : (translateArgIndexToParamIndex (.ArgumentShuffle i sub mapping va) p hn).success
      = false ↔ ∀ s ∈ mapping, ¬ entryMatches va p s := by
    rw [translate_shuffle]
    rcases translate_scan_spec sub va p hn mapping 0 with ⟨hf, hall⟩ | ⟨d, s, hd, hm, _, hr⟩
    · rw [hf]
      exact ⟨fun _ => hall, fun _ => rfl⟩
    · rw [hr]
      constructor
      · intro h
        cases h
      · intro hall
        exact absurd hm (hall s (List.get?_mem hd))
  refine ⟨hiff, ?_, ?_, ?_⟩
  · intro h
    rw [translate_shuffle] at h ⊢
    rcases translate_scan_spec sub va p hn mapping 0 with ⟨hf, _⟩ | ⟨d, s, _, _, _, hr⟩
    · exact hf
    · rw [hr] at h
      cases h
  · intro hlt
    have hs : toSigned p = (p : Int) := toSigned_of_lt p hlt
    rw [hiff]
    unfold representedInMapping entryMatches
    rw [hs]
    constructor
    · intro hall hrep
      rcases hrep with ⟨d, hd⟩ | ⟨hv, hp⟩
      · exact hall _ (List.get?_mem hd) (Or.inl rfl)
      · exact hall _ hv (Or.inr ⟨rfl, hp⟩)
    · intro hnot s hs2 hm
      apply hnot
      rcases hm with hm | ⟨hm, hp⟩
      · subst hm
        obtain ⟨n, hget⟩ := List.get?_of_mem hs2
        exact Or.inl ⟨n, hget⟩
      · subst hm
        exact Or.inr ⟨hs2, hp⟩
  · cases hn <;> decide

/-- C6 as stated fails for `g(a: 1)` against `g(a: Int, b: Int = 0)` and the
written position `4294967295`: no entry of the mapping `[0, -1]` is the
number `4294967295` and there is no variadic run, yet the function succeeds
and sets the position to `1`, the index of the defaulted parameter, because
the cast to `signed` makes the position equal to the marker `-1`. -/
theorem translate_failure_iff_counterexample :
    ¬ representedInMapping [0, ArgumentShuffleExpr.DefaultInitializeMarker] [] 4294967295 ∧
    translateArgIndexToParamIndex sampleDefaultedShuffle 4294967295 false = ⟨true, 1, false⟩ := by
  refine ⟨?_, by decide⟩
  intro h
  rcases h with ⟨d, hd⟩ | ⟨_, hp⟩
  · match d, hd with
    | 0, hd => simp at hd
    | 1, hd => simp [ArgumentShuffleExpr.DefaultInitializeMarker] at hd
    | n + 2, hd => simp at hd
  · cases hp

/-! ## Position of the hole in a tuple -/

/-- What the loop over the tuple elements returns: failure with the outputs
untouched when every element ends before the hole starts, and otherwise the
index of the first element that does not. -/
theorem getPositionInArgs_scan_spec (nameLocs : List SourceLoc) (hole : Expr) (P0 : Nat)
    (H0 : Bool) (elements : List Expr) (k : Nat) :
    (getPositionInArgs.scan nameLocs hole P0 H0 elements k = ⟨false, P0, H0⟩ ∧
      ∀ e ∈ elements, isBeforeInBuffer e.getEndLoc hole.getStartLoc = true) ∨
    (∃ d e, elements.get? d = some e ∧
      isBeforeInBuffer e.getEndLoc hole.getStartLoc = false ∧
      (∀ j e2, j < d → elements.get? j = some e2 →
        isBeforeInBuffer e2.getEndLoc hole.getStartLoc = true) ∧
      getPositionInArgs.scan nameLocs hole P0 H0 elements k
        = ⟨true, k + d, (getElementNameLoc nameLocs (k + d)).isValid⟩) := by
  induction elements generalizing k with
  | nil =>
    left
    exact ⟨rfl, by intro e he; cases he⟩
  | cons e rest ih =>
    by_cases hb : isBeforeInBuffer e.getEndLoc hole.getStartLoc = true
    · have hstep : getPositionInArgs.scan nameLocs hole P0 H0 (e :: rest) k
          = getPositionInArgs.scan nameLocs hole P0 H0 rest (k + 1) := by
        rw [getPositionInArgs.scan, if_pos hb]
      rcases ih (k + 1) with ⟨hf, hall⟩ | ⟨d, e2, hd, hnb, hleast, hr⟩
      · left
        refine ⟨by rw [hstep, hf], ?_⟩
        intro x hx
        rcases List.mem_cons.mp hx with hx | hx
        · subst hx; exact hb
        · exact hall x hx
      · right
        refine ⟨d + 1, e2, by simpa using hd, hnb, ?_, ?_⟩
        · intro j e3 hj hget
          cases j with
          | zero =>
            simp only [List.get?_cons_zero, Option.some.injEq] at hget
            subst hget
            exact hb
          | succ j =>
            simp only [List.get?_cons_succ] at hget
            exact hleast j e3 (by omega) hget
        · rw [hstep, hr]
          have : k + 1 + d = k + (d + 1) := by omega
          rw [this]
    · right
      refine ⟨0, e, rfl, by simpa using hb, ?_, ?_⟩
      · intro j e2 hj; omega
      · rw [getPositionInArgs.scan, if_neg hb]
        rfl

/-- On a tuple, directly or under an argument shuffle, `getPositionInArgs` is the
loop over the elements. -/
theorem getPositionInArgs_tuple_eq (Args : Expr) (i : ExprInfo) (elements : List Expr)
    (nameLocs : List SourceLoc) (hole : Expr) (P0 : Nat) (H0 : Bool)
    (hargs : Args = .Tuple i elements nameLocs ∨
      ∃ j m va, Args = .ArgumentShuffle j (.Tuple i elements nameLocs) m va) :
    getPositionInArgs Args hole P0 H0
      = getPositionInArgs.scan nameLocs hole P0 H0 elements 0 := by
  rcases hargs with h | ⟨j, m, va, h⟩ <;> subst h <;> rfl

/-- C7: for every tuple argument list, directly or under an argument shuffle, and
every hole, `getPositionInArgs` succeeds if and only if some element's end
location is not strictly before the hole's start; on success the position is
the least such element index and the label flag is whether that element has a
valid label location; when no such element exists it returns failure and
leaves the outputs as they were. -/
theorem getPositionInArgs_tuple (Args : Expr) (i : ExprInfo) (elements : List Expr)
    (nameLocs : List SourceLoc) (hole : Expr) (P0 : Nat) (H0 : Bool)
    (hargs : Args = .Tuple i elements nameLocs ∨
      ∃ j m va, Args = .ArgumentShuffle j (.Tuple i elements nameLocs) m va) :
    ((getPositionInArgs Args hole P0 H0).success = true ↔
      ∃ e ∈ elements, isBeforeInBuffer e.getEndLoc hole.getStartLoc = false) ∧
    ((getPositionInArgs Args hole P0 H0).success = true →
      (∃ e, elements.get? (getPositionInArgs Args hole P0 H0).Position = some e ∧
        isBeforeInBuffer e.getEndLoc hole.getStartLoc = false) ∧
      (∀ j e, j < (getPositionInArgs Args hole P0 H0).Position → elements.get? j = some e →
        isBeforeInBuffer e.getEndLoc hole.getStartLoc = true) ∧
      (getPositionInArgs Args hole P0 H0).HasName
        = (getElementNameLoc nameLocs (getPositionInArgs Args hole P0 H0).Position).isValid) ∧
    ((getPositionInArgs Args hole P0 H0).success = false →
      getPositionInArgs Args hole P0 H0 = ⟨false, P0, H0⟩) := by
  rw [getPositionInArgs_tuple_eq Args i elements nameLocs hole P0 H0 hargs]
  rcases getPositionInArgs_scan_spec nameLocs hole P0 H0 elements 0 with
    ⟨hf, hall⟩ | ⟨d, e, hd, hnb, hleast, hr⟩
  · rw [hf]
    refine ⟨⟨fun h => (by cases h), ?_⟩, fun h => (by cases h), fun _ => rfl⟩
    rintro ⟨e, he, hnb⟩
    rw [hall e he] at hnb
    cases hnb
  · rw [Nat.zero_add] at hr
    rw [hr]
    refine ⟨⟨fun _ => ⟨e, List.get?_mem hd, hnb⟩, fun _ => rfl⟩, ?_, fun h => (by cases h)⟩
    intro _
    exact ⟨⟨e, hd, hnb⟩, hleast, rfl⟩

/-- C7 at the tuple of `f(x: <hole>)`: the only element holds the hole and has a label. -/
theorem getPositionInArgs_tuple_witness :
    getPositionInArgs (.Tuple (infoAt 2 7) [.Other .CodeCompletion (infoAt 6 6) []] [⟨3⟩])
        sampleHoleLabeled 5 false = ⟨true, 0, true⟩ ∧
    (((getPositionInArgs (.Tuple (infoAt 2 7) [.Other .CodeCompletion (infoAt 6 6) []] [⟨3⟩])
        sampleHoleLabeled 5 false).success = true ↔
      ∃ e ∈ [Expr.Other .CodeCompletion (infoAt 6 6) []],
        isBeforeInBuffer e.getEndLoc sampleHoleLabeled.getStartLoc = false) ∧
    ((getPositionInArgs (.Tuple (infoAt 2 7) [.Other .CodeCompletion (infoAt 6 6) []] [⟨3⟩])
        sampleHoleLabeled 5 false).success = true →
      (∃ e, [Expr.Other .CodeCompletion (infoAt 6 6) []].get?
          (getPositionInArgs (.Tuple (infoAt 2 7) [.Other .CodeCompletion (infoAt 6 6) []] [⟨3⟩])
            sampleHoleLabeled 5 false).Position = some e ∧
        isBeforeInBuffer e.getEndLoc sampleHoleLabeled.getStartLoc = false) ∧
      (∀ j e, j < (getPositionInArgs
            (.Tuple (infoAt 2 7) [.Other .CodeCompletion (infoAt 6 6) []] [⟨3⟩])
            sampleHoleLabeled 5 false).Position →
        [Expr.Other .CodeCompletion (infoAt 6 6) []].get? j = some e →
        isBeforeInBuffer e.getEndLoc sampleHoleLabeled.getStartLoc = true) ∧
      (getPositionInArgs (.Tuple (infoAt 2 7) [.Other .CodeCompletion (infoAt 6 6) []] [⟨3⟩])
          sampleHoleLabeled 5 false).HasName
        = (getElementNameLoc [⟨3⟩] (getPositionInArgs
            (.Tuple (infoAt 2 7) [.Other .CodeCompletion (infoAt 6 6) []] [⟨3⟩])
            sampleHoleLabeled 5 false).Position).isValid) ∧
    ((getPositionInArgs (.Tuple (infoAt 2 7) [.Other .CodeCompletion (infoAt 6 6) []] [⟨3⟩])
        sampleHoleLabeled 5 false).success = false →
      getPositionInArgs (.Tuple (infoAt 2 7) [.Other .CodeCompletion (infoAt 6 6) []] [⟨3⟩])
        sampleHoleLabeled 5 false = ⟨false, 5, false⟩)) :=
  ⟨by decide, getPositionInArgs_tuple _ (infoAt 2 7) [.Other .CodeCompletion (infoAt 6 6) []]
    [⟨3⟩] sampleHoleLabeled 5 false (Or.inl rfl)⟩

/-- In a tuple laid out in source order the first element ends before every later
element starts. -/
theorem inSourceOrder_head_before (e : Expr) (rest : List Expr)
    (h : inSourceOrder (e :: rest)) :
    ∀ e2 ∈ rest, e.getEndLoc.Value < e2.getStartLoc.Value := by
  induction rest generalizing e with
  | nil => intro e2 h2; cases h2
  | cons x rest ih =>
    intro e2 h2
    obtain ⟨_, hlt, hrest⟩ := h
    simp only at hlt
    rcases List.mem_cons.mp h2 with h2 | h2
    · subst h2; exact hlt
    · have hx := ih x hrest e2 h2
      have hord : x.getStartLoc.Value ≤ x.getEndLoc.Value := hrest.1
      omega

/-- In a tuple laid out in source order every element before index `n` ends
before the element at index `n` starts. -/
theorem inSourceOrder_before (elements : List Expr) (h : inSourceOrder elements)
    (j n : Nat) (ej en : Expr) (hj : j < n) (hgj : elements.get? j = some ej)
    (hgn : elements.get? n = some en) : ej.getEndLoc.Value < en.getStartLoc.Value := by
  induction elements generalizing j n with
  | nil => simp at hgj
  | cons e rest ih =>
    cases n with
    | zero => omega
    | succ n =>
      simp only [List.get?_cons_succ] at hgn
      cases j with
      | zero =>
        simp only [List.get?_cons_zero, Option.some.injEq] at hgj
        subst hgj
        exact inSourceOrder_head_before _ rest h en (List.get?_mem hgn)
      | succ j =>
        simp only [List.get?_cons_succ] at hgj
        exact ih h.2.2 j n (by omega) hgj hgn

/-- C8: for every tuple argument list whose elements are laid out in source order
without overlap, if the hole is the i-th element or lies within it, then
`getPositionInArgs` succeeds with position `i`: it returns the index of the
hole in the arguments. -/
theorem getPositionInArgs_index_of_hole (Args : Expr) (info : ExprInfo)
    (elements : List Expr) (nameLocs : List SourceLoc) (hole : Expr) (P0 : Nat) (H0 : Bool)
    (i : Nat) (e : Expr)
    (hargs : Args = .Tuple info elements nameLocs ∨
      ∃ j m va, Args = .ArgumentShuffle j (.Tuple info elements nameLocs) m va)
    (horder : inSourceOrder elements)
    (hi : elements.get? i = some e)
    (hin : hole = e ∨
      (rangeContains e.info.range hole.info.range = true ∧ hole.info.range.isOrdered)) :
    (getPositionInArgs Args hole P0 H0).success = true ∧
    (getPositionInArgs Args hole P0 H0).Position = i := by
  have hordE : e.getStartLoc.Value ≤ e.getEndLoc.Value := by
    have : ∀ (l : List Expr) (n : Nat) (x : Expr), inSourceOrder l → l.get? n = some x →
        x.info.range.isOrdered := by
      intro l
      induction l with
      | nil => intro n x _ hx; simp at hx
      | cons y l ih =>
        intro n x hl hx
        cases n with
        | zero =>
          simp only [List.get?_cons_zero, Option.some.injEq] at hx
          subst hx
          exact hl.1
        | succ n =>
          simp only [List.get?_cons_succ] at hx
          exact ih n x hl.2.2 hx
    exact this elements i e horder hi
  have hstart : e.getStartLoc.Value ≤ hole.getStartLoc.Value ∧
      hole.getStartLoc.Value ≤ e.getEndLoc.Value := by
    rcases hin with h | ⟨hc, ho⟩
    · subst h
      exact ⟨Nat.le_refl _, hordE⟩
    · unfold rangeContains at hc
      simp only [Bool.and_eq_true, decide_eq_true_eq] at hc
      have ho2 : hole.getStartLoc.Value ≤ hole.getEndLoc.Value := ho
      have h1 : e.getStartLoc.Value ≤ hole.getStartLoc.Value := hc.1
      have h2 : hole.getEndLoc.Value ≤ e.getEndLoc.Value := hc.2
      exact ⟨h1, by omega⟩
  have hnb : isBeforeInBuffer e.getEndLoc hole.getStartLoc = false := by
    unfold isBeforeInBuffer
    simp only [decide_eq_false_iff_not]
    omega
  have hbefore : ∀ j ej, j < i → elements.get? j = some ej →
      isBeforeInBuffer ej.getEndLoc hole.getStartLoc = true := by
    intro j ej hj hgj
    have := inSourceOrder_before elements horder j i ej e hj hgj hi
    unfold isBeforeInBuffer
    simp only [decide_eq_true_eq]
    omega
  rw [getPositionInArgs_tuple_eq Args info elements nameLocs hole P0 H0 hargs]
  rcases getPositionInArgs_scan_spec nameLocs hole P0 H0 elements 0 with
    ⟨_, hall⟩ | ⟨d, e2, hd, hnb2, hleast, hr⟩
  · rw [hall e (List.get?_mem hi)] at hnb
    cases hnb
  · rw [Nat.zero_add] at hr
    rw [hr]
    refine ⟨rfl, ?_⟩
    show d = i
    rcases Nat.lt_trichotomy d i with h | h | h
    · rw [hbefore d e2 h hd] at hnb2
      cases hnb2
    · exact h
    · rw [hleast i e h hi] at hnb
      cases hnb

/-- C8 at `h(a, <hole>, c)`: the hole is the second element and gets position `1`. -/
theorem getPositionInArgs_index_of_hole_witness :
    (getPositionInArgs sampleTuple sampleTupleHole 0 false).success = true ∧
    (getPositionInArgs sampleTuple sampleTupleHole 0 false).Position = 1 :=
  getPositionInArgs_index_of_hole sampleTuple (infoAt 2 10)
    [.Other .DeclRef (infoAt 3 3) [], .Other .CodeCompletion (infoAt 6 6) [],
     .Other .DeclRef (infoAt 9 9) []] [] sampleTupleHole 0 false 1
    (.Other .CodeCompletion (infoAt 6 6) []) (Or.inl (by rfl))
    (by simp [inSourceOrder, SourceRange.isOrdered, Expr.info, infoAt, Expr.getEndLoc,
      Expr.getStartLoc])
    rfl (Or.inl (by rfl))

/-! ## The reset before another type-checking pass -/

theorem isStaleType_eraseStale (ty : Option Ty) : isStaleType (eraseStale ty) = false := by
  cases ty with
  | none => rfl
  | some t =>
    unfold eraseStale
    by_cases h : (t.hasError || t.hasUnresolvedType) = true
    · simp [h, isStaleType]
    · simp [h, isStaleType]

theorem eraseStale_eraseStale (ty : Option Ty) : eraseStale (eraseStale ty) = eraseStale ty := by
  cases ty with
  | none => rfl
  | some t =>
    by_cases h : (t.hasError || t.hasUnresolvedType) = true
    · simp [eraseStale, h]
    · simp [eraseStale, h]

theorem ExprInfo.erased_erased (i : ExprInfo) : i.erased.erased = i.erased := by
  simp [ExprInfo.erased, eraseStale_eraseStale]

theorem ExprInfo.erased_not_stale (i : ExprInfo) : isStaleType i.erased.ty = false := by
  simp [ExprInfo.erased, isStaleType_eraseStale]

theorem typeLocHasNoStaleType_doItTypeLoc (tl : Option TypeLoc) :
    typeLocHasNoStaleType (Eraser.doItTypeLoc tl) = true := by
  cases tl with
  | none => rfl
  | some t => simp [Eraser.doItTypeLoc, Eraser.walkToTypeLocPre, typeLocHasNoStaleType,
      isStaleType_eraseStale]

theorem doItTypeLoc_doItTypeLoc (tl : Option TypeLoc) :
    Eraser.doItTypeLoc (Eraser.doItTypeLoc tl) = Eraser.doItTypeLoc tl := by
  cases tl with
  | none => rfl
  | some t => simp [Eraser.doItTypeLoc, Eraser.walkToTypeLocPre, eraseStale_eraseStale]

mutual
/-- Away from auto-closure wrappers the walk leaves no stale type. -/
theorem doIt_hasNoStaleType : ∀ e : Expr, e.hasNoAutoClosure = true →
    (Eraser.doIt e).hasNoStaleType = true
  | .Paren i sub, h => by
    simp only [Expr.hasNoAutoClosure] at h
    simp [Eraser.doIt, Expr.hasNoStaleType, ExprInfo.erased_not_stale, doIt_hasNoStaleType sub h]
  | .Tuple i es locs, h => by
    simp only [Expr.hasNoAutoClosure] at h
    simp [Eraser.doIt, Expr.hasNoStaleType, ExprInfo.erased_not_stale,
      doItExprs_hasNoStaleType es h]
  | .ArgumentShuffle i sub m va, h => by
    simp only [Expr.hasNoAutoClosure] at h
    simp [Eraser.doIt, Expr.hasNoStaleType, ExprInfo.erased_not_stale, doIt_hasNoStaleType sub h]
  | .Apply k i fn arg, h => by
    simp only [Expr.hasNoAutoClosure, Bool.and_eq_true] at h
    simp [Eraser.doIt, Expr.hasNoStaleType, ExprInfo.erased_not_stale,
      doIt_hasNoStaleType fn h.1, doIt_hasNoStaleType arg h.2]
  | .Subscript i base index, h => by
    simp only [Expr.hasNoAutoClosure, Bool.and_eq_true] at h
    simp [Eraser.doIt, Expr.hasNoStaleType, ExprInfo.erased_not_stale,
      doIt_hasNoStaleType base h.1, doIt_hasNoStaleType index h.2]
  | .AutoClosure _ _, h => by
    simp [Expr.hasNoAutoClosure] at h
  | .Other k i cs, h => by
    simp only [Expr.hasNoAutoClosure] at h
    simp [Eraser.doIt, Expr.hasNoStaleType, ExprInfo.erased_not_stale,
      doItNodes_hasNoStaleType cs h]
  | .Assign i dest src l, h => by
    simp only [Expr.hasNoAutoClosure, Bool.and_eq_true] at h
    simp [Eraser.doIt, Expr.hasNoStaleType, ExprInfo.erased_not_stale,
      doIt_hasNoStaleType dest h.1, doIt_hasNoStaleType src h.2]
  | .DeclRef i d, _ => by
    simp [Eraser.doIt, Expr.hasNoStaleType, ExprInfo.erased_not_stale]
  | .Closure i ps tl body, h => by
    simp only [Expr.hasNoAutoClosure, Bool.and_eq_true] at h
    simp [Eraser.doIt, Expr.hasNoStaleType, ExprInfo.erased_not_stale,
      doItNodes_hasNoStaleType ps h.1, typeLocHasNoStaleType_doItTypeLoc,
      doItBody_hasNoStaleType body h.2]
theorem doItBody_hasNoStaleType : ∀ b : ClosureBody, b.hasNoAutoClosure = true →
    (Eraser.doItBody b).hasNoStaleType = true
  | .singleExpression r e, h => by
    simp only [ClosureBody.hasNoAutoClosure] at h
    simp [Eraser.doItBody, ClosureBody.hasNoStaleType, doIt_hasNoStaleType e h]
  | .brace _ _, _ => rfl
theorem doItExprs_hasNoStaleType : ∀ es : List Expr, Expr.allNoAutoClosure es = true →
    Expr.allNoStaleType (Eraser.doItExprs es) = true
  | [], _ => rfl
  | e :: es, h => by
    simp only [Expr.allNoAutoClosure, Bool.and_eq_true] at h
    simp [Eraser.doItExprs, Expr.allNoStaleType, doIt_hasNoStaleType e h.1,
      doItExprs_hasNoStaleType es h.2]
theorem doItPattern_hasNoStaleType : ∀ p : Pattern, p.hasNoAutoClosure = true →
    (Eraser.doItPattern p).hasNoStaleType = true
  | .mk k ty r cs, h => by
    simp only [Pattern.hasNoAutoClosure] at h
    simp [Eraser.doItPattern, Pattern.hasNoStaleType, isStaleType_eraseStale,
      doItNodes_hasNoStaleType cs h]
theorem doItEntries_hasNoStaleType : ∀ es : List PatternBindingEntry,
    PatternBindingEntry.allNoAutoClosure es = true →
    PatternBindingEntry.allNoStaleType (Eraser.doItEntries es) = true
  | [], _ => rfl
  | .mk p (some e) :: es, h => by
    simp only [PatternBindingEntry.allNoAutoClosure, Bool.and_eq_true] at h
    simp [Eraser.doItEntries, PatternBindingEntry.allNoStaleType,
      doItPattern_hasNoStaleType p h.1.1, doIt_hasNoStaleType e h.1.2,
      doItEntries_hasNoStaleType es h.2]
  | .mk p none :: es, h => by
    simp only [PatternBindingEntry.allNoAutoClosure, Bool.and_eq_true] at h
    simp [Eraser.doItEntries, PatternBindingEntry.allNoStaleType,
      doItPattern_hasNoStaleType p h.1, doItEntries_hasNoStaleType es h.2]
theorem doItNode_hasNoStaleType : ∀ n : ASTNode, n.hasNoAutoClosure = true →
    (Eraser.doItNode n).hasNoStaleType = true
  | .expr e, h => by
    simp only [ASTNode.hasNoAutoClosure] at h
    simp [Eraser.doItNode, ASTNode.hasNoStaleType, doIt_hasNoStaleType e h]
  | .stmt _, _ => rfl
  | .decl (.mk k r cs), h => by
    simp only [ASTNode.hasNoAutoClosure] at h
    simp [Eraser.doItNode, ASTNode.hasNoStaleType, doItNodes_hasNoStaleType cs h]
  | .decl (.PatternBinding r es), h => by
    simp only [ASTNode.hasNoAutoClosure] at h
    simp [Eraser.doItNode, ASTNode.hasNoStaleType, doItEntries_hasNoStaleType es h]
  | .pattern p, h => by
    simp only [ASTNode.hasNoAutoClosure] at h
    simp [Eraser.doItNode, ASTNode.hasNoStaleType, doItPattern_hasNoStaleType p h]
  | .typeLoc t, _ => by
    simp [Eraser.doItNode, ASTNode.hasNoStaleType, Eraser.walkToTypeLocPre,
      isStaleType_eraseStale]
theorem doItNodes_hasNoStaleType : ∀ ns : List ASTNode, ASTNode.allNoAutoClosure ns = true →
    ASTNode.allNoStaleType (Eraser.doItNodes ns) = true
  | [], _ => rfl
  | n :: ns, h => by
    simp only [ASTNode.allNoAutoClosure, Bool.and_eq_true] at h
    simp [Eraser.doItNodes, ASTNode.allNoStaleType, doItNode_hasNoStaleType n h.1,
      doItNodes_hasNoStaleType ns h.2]
end

mutual
/-- Away from auto-closure wrappers a second walk changes nothing. -/
theorem doIt_doIt : ∀ e : Expr, e.hasNoAutoClosure = true →
    Eraser.doIt (Eraser.doIt e) = Eraser.doIt e
  | .Paren i sub, h => by
    simp only [Expr.hasNoAutoClosure] at h
    simp [Eraser.doIt, ExprInfo.erased_erased, doIt_doIt sub h]
  | .Tuple i es locs, h => by
    simp only [Expr.hasNoAutoClosure] at h
    simp [Eraser.doIt, ExprInfo.erased_erased, doItExprs_doItExprs es h]
  | .ArgumentShuffle i sub m va, h => by
    simp only [Expr.hasNoAutoClosure] at h
    simp [Eraser.doIt, ExprInfo.erased_erased, doIt_doIt sub h]
  | .Apply k i fn arg, h => by
    simp only [Expr.hasNoAutoClosure, Bool.and_eq_true] at h
    simp [Eraser.doIt, ExprInfo.erased_erased, doIt_doIt fn h.1, doIt_doIt arg h.2]
  | .Subscript i base index, h => by
    simp only [Expr.hasNoAutoClosure, Bool.and_eq_true] at h
    simp [Eraser.doIt, ExprInfo.erased_erased, doIt_doIt base h.1, doIt_doIt index h.2]
  | .AutoClosure _ _, h => by
    simp [Expr.hasNoAutoClosure] at h
  | .Other k i cs, h => by
    simp only [Expr.hasNoAutoClosure] at h
    simp [Eraser.doIt, ExprInfo.erased_erased, doItNodes_doItNodes cs h]
  | .Assign i dest src l, h => by
    simp only [Expr.hasNoAutoClosure, Bool.and_eq_true] at h
    simp [Eraser.doIt, ExprInfo.erased_erased, doIt_doIt dest h.1, doIt_doIt src h.2]
  | .DeclRef i d, _ => by
    simp [Eraser.doIt, ExprInfo.erased_erased]
  | .Closure i ps tl body, h => by
    simp only [Expr.hasNoAutoClosure, Bool.and_eq_true] at h
    simp [Eraser.doIt, ExprInfo.erased_erased, doItNodes_doItNodes ps h.1,
      doItTypeLoc_doItTypeLoc, doItBody_doItBody body h.2]
theorem doItBody_doItBody : ∀ b : ClosureBody, b.hasNoAutoClosure = true →
    Eraser.doItBody (Eraser.doItBody b) = Eraser.doItBody b
  | .singleExpression r e, h => by
    simp only [ClosureBody.hasNoAutoClosure] at h
    simp [Eraser.doItBody, doIt_doIt e h]
  | .brace _ _, _ => rfl
theorem doItExprs_doItExprs : ∀ es : List Expr, Expr.allNoAutoClosure es = true →
    Eraser.doItExprs (Eraser.doItExprs es) = Eraser.doItExprs es
  | [], _ => rfl
  | e :: es, h => by
    simp only [Expr.allNoAutoClosure, Bool.and_eq_true] at h
    simp [Eraser.doItExprs, doIt_doIt e h.1, doItExprs_doItExprs es h.2]
theorem doItPattern_doItPattern : ∀ p : Pattern, p.hasNoAutoClosure = true →
    Eraser.doItPattern (Eraser.doItPattern p) = Eraser.doItPattern p
  | .mk k ty r cs, h => by
    simp only [Pattern.hasNoAutoClosure] at h
    simp [Eraser.doItPattern, eraseStale_eraseStale, doItNodes_doItNodes cs h]
theorem doItEntries_doItEntries : ∀ es : List PatternBindingEntry,
    PatternBindingEntry.allNoAutoClosure es = true →
    Eraser.doItEntries (Eraser.doItEntries es) = Eraser.doItEntries es
  | [], _ => rfl
  | .mk p (some e) :: es, h => by
    simp only [PatternBindingEntry.allNoAutoClosure, Bool.and_eq_true] at h
    simp [Eraser.doItEntries, doItPattern_doItPattern p h.1.1, doIt_doIt e h.1.2,
      doItEntries_doItEntries es h.2]
  | .mk p none :: es, h => by
    simp only [PatternBindingEntry.allNoAutoClosure, Bool.and_eq_true] at h
    simp [Eraser.doItEntries, doItPattern_doItPattern p h.1, doItEntries_doItEntries es h.2]
theorem doItNode_doItNode : ∀ n : ASTNode, n.hasNoAutoClosure = true →
    Eraser.doItNode (Eraser.doItNode n) = Eraser.doItNode n
  | .expr e, h => by
    simp only [ASTNode.hasNoAutoClosure] at h
    simp [Eraser.doItNode, doIt_doIt e h]
  | .stmt _, _ => rfl
  | .decl (.mk k r cs), h => by
    simp only [ASTNode.hasNoAutoClosure] at h
    simp [Eraser.doItNode, doItNodes_doItNodes cs h]
  | .decl (.PatternBinding r es), h => by
    simp only [ASTNode.hasNoAutoClosure] at h
    simp [Eraser.doItNode, doItEntries_doItEntries es h]
  | .pattern p, h => by
    simp only [ASTNode.hasNoAutoClosure] at h
    simp [Eraser.doItNode, doItPattern_doItPattern p h]
  | .typeLoc t, _ => by
    simp [Eraser.doItNode, Eraser.walkToTypeLocPre, eraseStale_eraseStale]
theorem doItNodes_doItNodes : ∀ ns : List ASTNode, ASTNode.allNoAutoClosure ns = true →
    Eraser.doItNodes (Eraser.doItNodes ns) = Eraser.doItNodes ns
  | [], _ => rfl
  | n :: ns, h => by
    simp only [ASTNode.allNoAutoClosure, Bool.and_eq_true] at h
    simp [Eraser.doItNodes, doItNode_doItNode n h.1, doItNodes_doItNodes ns h.2]
end

/-- The walk of an expression is the callback `walkToExprPre` followed by the
walk of the children of the expression the callback returned. -/
theorem doIt_eq_visit_pre (e : Expr) :
    Eraser.doIt e = Eraser.visit (Eraser.walkToExprPre e).2 := by
  cases e <;> rfl

/-- The walk of a pattern is the callback `walkToPatternPre` followed by the walk
of the children of the pattern. -/
theorem doItNode_pattern (p : Pattern) :
    Eraser.doItNode (.pattern p) =
      match (Eraser.walkToPatternPre p).2 with
      | .mk k ty r cs => .pattern (.mk k ty r (Eraser.doItNodes cs)) := by
  cases p
  simp [Eraser.doItNode, Eraser.doItPattern, Eraser.walkToPatternPre]

/-- On a tree without auto-closure wrappers the reset leaves no stale type and
is idempotent. -/
theorem prepareForRetypechecking_without_autoClosure (E : Expr)
    (h : E.hasNoAutoClosure = true) :
    (prepareForRetypechecking E).hasNoStaleType = true ∧
    prepareForRetypechecking (prepareForRetypechecking E) = prepareForRetypechecking E := by
  have h1 : prepareForRetypechecking E = Eraser.doIt E := by
    cases E <;> first | rfl | simp [Expr.hasNoAutoClosure] at h
  have h2 : prepareForRetypechecking (Eraser.doIt E) = Eraser.doIt (Eraser.doIt E) := by
    cases E <;> first | rfl | simp [Expr.hasNoAutoClosure] at h
  rw [h1, h2]
  exact ⟨doIt_hasNoStaleType E h, doIt_doIt E h⟩

/-- C9: the reset is not idempotent on the argument list `(e)` of a call with an
auto-closure parameter, a parenthesis over an auto-closure wrapper whose body
has the error type. The first run puts the
body in the wrapper's place with its error type still on it; the second run
clears that type, so running the reset twice differs from running it once. -/
theorem prepareForRetypechecking_twice_differs :
    prepareForRetypechecking sampleAutoClosureTree
      = .Paren (infoAt 1 9) sampleErrorOperand ∧
    prepareForRetypechecking (prepareForRetypechecking sampleAutoClosureTree)
      = .Paren (infoAt 1 9) (.Other .DeclRef ⟨none, ⟨⟨8⟩, ⟨8⟩⟩, false⟩ []) ∧
    prepareForRetypechecking (prepareForRetypechecking sampleAutoClosureTree)
      ≠ prepareForRetypechecking sampleAutoClosureTree := by
  refine ⟨rfl, rfl, ?_⟩
  intro h
  have h2 := congrArg Expr.hasNoStaleType h
  revert h2
  decide

/-- C10: after the reset of a call `g(<wrapper>)` whose argument is an
auto-closure wrapper around a body with an unresolved type, the body stands
in the wrapper's place and still carries the unresolved type, although it is
reachable from the root without passing through a statement. -/
theorem prepareForRetypechecking_leaves_stale_body :
    prepareForRetypechecking
        (.Apply .Call (infoAt 1 9) sampleFn
          (.Paren (infoAt 2 9)
            (.AutoClosure ⟨none, ⟨⟨5⟩, ⟨5⟩⟩, true⟩
              (.Other .DeclRef ⟨some .Unresolved, ⟨⟨5⟩, ⟨5⟩⟩, false⟩ []))))
      = .Apply .Call (infoAt 1 9) sampleFn
          (.Paren (infoAt 2 9) (.Other .DeclRef ⟨some .Unresolved, ⟨⟨5⟩, ⟨5⟩⟩, false⟩ [])) ∧
    (prepareForRetypechecking
        (.Apply .Call (infoAt 1 9) sampleFn
          (.Paren (infoAt 2 9)
            (.AutoClosure ⟨none, ⟨⟨5⟩, ⟨5⟩⟩, true⟩
              (.Other .DeclRef ⟨some .Unresolved, ⟨⟨5⟩, ⟨5⟩⟩, false⟩ []))))).hasNoStaleType
      = false := by
  exact ⟨rfl, rfl⟩

/-! ## The order of the type-checking of the enclosing contexts -/

/-- The `switch` has a case for every context that is not a module scope. -/
theorem dispatch_isSome {σ : Type} (T : Scopes σ) (Loc : SourceLoc) (DC : DeclContext) (st : σ)
    (h : (T.getContextKind DC).isModuleScopeContext = false) :
    ∃ r, typeCheckContextImpl.dispatch T Loc DC st = some r := by
  unfold typeCheckContextImpl.dispatch
  cases hk : T.getContextKind DC with
  | FileUnit => rw [hk] at h; cases h
  | Initializer =>
    simp only
    cases T.patternInit DC with
    | none => exact ⟨_, rfl⟩
    | some patternInit =>
      simp only
      split
      · split
        · exact ⟨_, rfl⟩
        · exact ⟨_, rfl⟩
      · exact ⟨_, rfl⟩
  | _ => exact ⟨_, rfl⟩

/-- Dispatching a list of contexts and then one more. -/
theorem dispatchInOrder_append {σ : Type} (T : Scopes σ) (Loc : SourceLoc)
    (l : List DeclContext) (DC : DeclContext) (st st1 st2 : σ)
    (trace : List (DeclContext × List TypeCheckCall)) (calls : List TypeCheckCall)
    (h1 : dispatchInOrder T Loc l st = some (st1, trace))
    (h2 : typeCheckContextImpl.dispatch T Loc DC st1 = some (st2, calls)) :
    dispatchInOrder T Loc (l ++ [DC]) st = some (st2, trace ++ [(DC, calls)]) := by
  induction l generalizing st trace with
  | nil =>
    simp only [dispatchInOrder, Option.some.injEq, Prod.mk.injEq] at h1
    obtain ⟨rfl, rfl⟩ := h1
    simp [dispatchInOrder, h2]
  | cons c l ih =>
    simp only [List.cons_append, dispatchInOrder]
    simp only [dispatchInOrder] at h1
    cases hc : typeCheckContextImpl.dispatch T Loc c st with
    | none => simp [hc] at h1
    | some r =>
      obtain ⟨sc, cc⟩ := r
      simp only [hc] at h1 ⊢
      cases hl : dispatchInOrder T Loc l sc with
      | none => simp [hl] at h1
      | some r2 =>
        obtain ⟨s3, t3⟩ := r2
        simp only [hl, Option.some.injEq, Prod.mk.injEq] at h1
        obtain ⟨rfl, rfl⟩ := h1
        have hih := ih sc t3 hl
        show (match dispatchInOrder T Loc (l ++ [DC]) sc with
          | none => none
          | some (st2, trace) => some (st2, (c, cc) :: trace)) = _
        rw [hih]
        rfl

/-- C20: for every context whose parent chain reaches a module-scope context,
`typeCheckContextImpl` returns (with a recursion depth of the length of the
chain plus one) and has dispatched the contexts of the chain in
outward-to-inward order: the outermost context that is not a module scope
first, the starting context last, each context once and the module-scope
context not at all; the calls are those of dispatching the reversed chain
one context after the other. -/
theorem typeCheckContextImpl_outward_to_inward {σ : Type} (T : Scopes σ) (Loc : SourceLoc)
    (DC : DeclContext) (chain : List DeclContext) (hreach : ReachesModuleScope T DC chain)
    (fuel : Nat) (hfuel : chain.length < fuel) (st : σ) :
    ∃ st2 trace, typeCheckContextImpl T Loc fuel DC st = .ok (st2, trace) ∧
      dispatchInOrder T Loc chain.reverse st = some (st2, trace) ∧
      trace.map Prod.fst = chain.reverse := by
  induction hreach generalizing fuel with
  | here DC hm =>
    cases fuel with
    | zero => simp at hfuel
    | succ f =>
      exact ⟨st, [], by simp [typeCheckContextImpl, hm], rfl, rfl⟩
  | up DC parent chain hm hp _ ih =>
    cases fuel with
    | zero => simp at hfuel
    | succ f =>
      simp only [List.length_cons, Nat.add_lt_add_iff_right] at hfuel
      obtain ⟨st1, trace, hrec, hord, hfst⟩ := ih f hfuel
      obtain ⟨⟨st2, calls⟩, hd⟩ := dispatch_isSome T Loc DC st1 hm
      refine ⟨st2, trace ++ [(DC, calls)], ?_, ?_, ?_⟩
      · simp [typeCheckContextImpl, hm, hp, hrec, hd]
      · rw [List.reverse_cons]
        exact dispatchInOrder_append T Loc chain.reverse DC st st1 st2 trace calls hord hd
      · rw [List.map_append, hfst, List.reverse_cons]
        rfl

/-- C20 at a closure in a function in an extension of a module: the extension is
dispatched first, the function second and the closure last. -/
theorem typeCheckContextImpl_outward_to_inward_witness :
    typeCheckContextImpl sampleScopes ⟨7⟩ 4 ⟨3⟩ []
      = .ok ([.typeCheckCompletionDecl 101, .typeCheckAbstractFunctionBodyUntil ⟨2⟩ ⟨7⟩],
          [(⟨1⟩, [.typeCheckCompletionDecl 101]),
           (⟨2⟩, [.typeCheckAbstractFunctionBodyUntil ⟨2⟩ ⟨7⟩]),
           (⟨3⟩, [])]) ∧
    ∃ st2 trace, typeCheckContextImpl sampleScopes ⟨7⟩ 4 ⟨3⟩ [] = .ok (st2, trace) ∧
      dispatchInOrder sampleScopes ⟨7⟩ [⟨3⟩, ⟨2⟩, ⟨1⟩].reverse [] = some (st2, trace) ∧
      trace.map Prod.fst = [⟨3⟩, ⟨2⟩, ⟨1⟩].reverse :=
  ⟨by rfl, typeCheckContextImpl_outward_to_inward sampleScopes ⟨7⟩ ⟨3⟩ [⟨3⟩, ⟨2⟩, ⟨1⟩]
    (.up ⟨3⟩ ⟨2⟩ _ rfl rfl (.up ⟨2⟩ ⟨1⟩ _ rfl rfl (.up ⟨1⟩ ⟨0⟩ _ rfl rfl (.here ⟨0⟩ rfl))))
    4 (by decide) []⟩

/-! ## Deduplication of the expected types and labels -/

theorem step_namesTracked (S : Services) (pos : Nat) (m : Bool) (st : CollectState)
    (c : FunctionTypeAndDecl) (h : NamesTracked st) :
    NamesTracked (analyzeApplyExpr.step S pos m st c) := by
  unfold analyzeApplyExpr.step
  split
  · exact h
  · split
    · split
      · exact h
      · rename_i hns
        refine ⟨?_, ?_⟩
        · simp only [recordPossibleName]
          rw [List.nodup_append]
          refine ⟨h.1, List.nodup_singleton _, ?_⟩
          intro a ha hb
          rw [List.mem_singleton] at hb
          rw [hb] at ha
          exact hns (h.2 _ ha)
        · intro n hn
          simp only [recordPossibleName, List.mem_append, List.mem_singleton] at hn
          rcases hn with hn | hn
          · exact List.mem_cons_of_mem _ (h.2 n hn)
          · subst hn
            exact List.mem_cons_self _ _
    · split
      · exact h
      · refine ⟨?_, ?_⟩
        · rw [recordPossibleType_names]
          exact h.1
        · intro n hn
          rw [recordPossibleType_names] at hn
          exact h.2 n hn

theorem foldl_namesTracked (S : Services) (pos : Nat) (m : Bool)
    (cs : List FunctionTypeAndDecl) (st : CollectState) (h : NamesTracked st) :
    NamesTracked (cs.foldl (analyzeApplyExpr.step S pos m) st) := by
  induction cs generalizing st with
  | nil => exact h
  | cons c cs ih => exact ih _ (step_namesTracked S pos m st c h)

/-- The possible expected labels `analyzeApplyExpr` returns have no repetition. -/
theorem analyzeApplyExpr_names_nodup (S : Services) (hole E arg : Expr)
    (harg : E.getArgs = some arg) :
    ∃ r, analyzeApplyExpr S hole .empty E = some r ∧ r.2.PossibleNames.Nodup := by
  cases hpos : holePosition arg hole with
  | none =>
    obtain ⟨r, hr, _, hn, _, _⟩ := analyzeApplyExpr_of_no_position S hole E arg harg hpos
    exact ⟨r, hr, by rw [hn]; exact List.nodup_nil⟩
  | some ph =>
    obtain ⟨pos, hasName⟩ := ph
    obtain ⟨r, hr, hn, _⟩ := analyzeApplyExpr_of_position S hole E arg pos hasName harg hpos
    refine ⟨r, hr, ?_⟩
    rw [hn]
    exact (foldl_namesTracked S pos _ _ _
      ⟨List.nodup_nil, by intro n h; cases h⟩).1

/-- C17 as stated fails for `f(<hole>)` with the two candidates `(Int) -> Void`
and `(@lvalue Int) -> Void`, whose parameter types differ only by the l-value
wrapper: the two types are different, so both pass the set of seen types, and
both are recorded in r-value form, so the result lists `Int` twice. -/
theorem analyzeApplyExpr_records_type_twice :
    analyzeApplyExpr sampleServicesLValue sampleHole .empty sampleCallUnlabeled
      = some (true, ⟨[tyInt, tyInt], [], [sampleCandidateInt, sampleCandidateLValueInt], false⟩) ∧
    ¬ ([tyInt, tyInt] : List Ty).Nodup := by
  refine ⟨by rfl, ?_⟩
  decide

/-! ## The return type a closure expects -/

/-- C11, amended: for a closure expression, `getReturnTypeFromContext` returns
the result of the closure's own type whenever that type is resolved and
error-free, also when the closure has an explicit result annotation of a
different type; it returns the type `U` of the explicit annotation only when
the closure has no resolved type or its type has an error. For a closure
ancestor whose body is a single expression the single-expression-body flag
is set and that return type goes to the recorder, so the sole expected type
is the r-value form of `U` for an annotated closure without an error-free
type, and of the inferred result for a closure with an error-free type. -/
theorem getReturnTypeFromContext_closure (S : Services) (i : ExprInfo) (ps : List ASTNode)
    (tl : Option TypeLoc) (body : ClosureBody) (hole : Expr) :
    (∀ params result, i.ty = some (.Function params result) →
      (Ty.Function params result).hasError = false →
      getReturnTypeFromContext S (.closure (.Closure i ps tl body)) = some result) ∧
    (∀ TL, tl = some TL → (i.ty = none ∨ ∃ T, i.ty = some T ∧ T.hasError = true) →
      getReturnTypeFromContext S (.closure (.Closure i ps tl body)) = TL.ty) ∧
    (isSingleExpressionBodyForCodeCompletion body = true →
      analyzeExpr S hole .empty (.Closure i ps tl body)
        = some (recordPossibleType { ExprContextInfo.empty with singleExpressionBody := true }
            (getReturnTypeFromContext S (.closure (.Closure i ps tl body))))) ∧
    (∀ U, isSingleExpressionBodyForCodeCompletion body = true → tl = some ⟨some U⟩ →
      (i.ty = none ∨ ∃ T, i.ty = some T ∧ T.hasError = true) → U.isErrorType = false →
      analyzeExpr S hole .empty (.Closure i ps tl body)
        = some ⟨[U.getRValueType], [], [], true⟩) ∧
    (∀ params result, isSingleExpressionBodyForCodeCompletion body = true →
      i.ty = some (.Function params result) → (Ty.Function params result).hasError = false →
      result.isErrorType = false →
      analyzeExpr S hole .empty (.Closure i ps tl body)
        = some ⟨[result.getRValueType], [], [], true⟩) ∧
    analyzeExpr sampleServices sampleHole .empty sampleClosureUntyped
      = some ⟨[tyString], [], [], true⟩ ∧
    analyzeExpr sampleServices sampleHole .empty sampleClosureInferred
      = some ⟨[tyInt], [], [], true⟩ := by
  have hinf : ∀ params result, i.ty = some (.Function params result) →
      (Ty.Function params result).hasError = false →
      getReturnTypeFromContext S (.closure (.Closure i ps tl body)) = some result := by
    intro params result hty herr
    simp [getReturnTypeFromContext, Expr.getType, Expr.info, hty, herr,
      AbstractClosureExpr.getResultType]
  have hexp : ∀ TL, tl = some TL → (i.ty = none ∨ ∃ T, i.ty = some T ∧ T.hasError = true) →
      getReturnTypeFromContext S (.closure (.Closure i ps tl body)) = TL.ty := by
    intro TL htl hty
    subst htl
    rcases hty with hty | ⟨T, hty, herr⟩
    · simp [getReturnTypeFromContext, Expr.getType, Expr.info, hty, explicitResultType]
    · simp [getReturnTypeFromContext, Expr.getType, Expr.info, hty, herr, explicitResultType]
  have hana : isSingleExpressionBodyForCodeCompletion body = true →
      analyzeExpr S hole .empty (.Closure i ps tl body)
        = some (recordPossibleType { ExprContextInfo.empty with singleExpressionBody := true }
            (getReturnTypeFromContext S (.closure (.Closure i ps tl body)))) := by
    intro hb
    simp [analyzeExpr, hb]
  refine ⟨hinf, hexp, hana, ?_, ?_, by rfl, by rfl⟩
  · intro U hb htl hty hU
    rw [hana hb, hexp ⟨some U⟩ htl hty]
    simp [recordPossibleType, hU, ExprContextInfo.empty]
  · intro params result hb hty herr hres
    rw [hana hb, hinf params result hty herr]
    simp [recordPossibleType, hres, ExprContextInfo.empty]

/-- C11 as stated fails for the closure `{ () -> String in <hole> }` whose own
type is resolved to `() -> Int`: the closure has the explicit result
annotation `String`, yet `getReturnTypeFromContext` returns `Int`, the result
of the closure's type, and the sole expected type of the analysis is `Int`. -/
theorem getReturnTypeFromContext_closure_counterexample :
    explicitResultType sampleClosureAnnotated = some tyString ∧
    getReturnTypeFromContext sampleServices (.closure sampleClosureAnnotated) = some tyInt ∧
    tyInt ≠ tyString ∧
    analyzeExpr sampleServices sampleHole .empty sampleClosureAnnotated
      = some ⟨[tyInt], [], [], true⟩ := by
  refine ⟨rfl, by rfl, by decide, by rfl⟩

/-! ## The boolean condition of a statement -/

/-- The loop over the condition elements answers true exactly when some boolean
element contains the hole. -/
theorem isBoolConditionOf_any_iff (hole : Expr) (cond : List StmtConditionElement) :
    isBoolConditionOf.any hole cond = true ↔
      ∃ E, StmtConditionElement.Boolean E ∈ cond ∧
        rangeContains E.info.range hole.info.range = true := by
  induction cond with
  | nil => simp [isBoolConditionOf.any]
  | cons c rest ih =>
    cases c with
    | Boolean E =>
      simp only [isBoolConditionOf.any]
      by_cases hc : containsTarget hole E = true
      · simp only [hc, if_true, true_iff]
        exact ⟨E, List.mem_cons_self _ _, hc⟩
      · simp only [hc, Bool.false_eq_true, if_false, ih]
        constructor
        · rintro ⟨E2, hm, hr⟩
          exact ⟨E2, List.mem_cons_of_mem _ hm, hr⟩
        · rintro ⟨E2, hm, hr⟩
          rcases List.mem_cons.mp hm with hm | hm
          · cases hm
            exact absurd hr hc
          · exact ⟨E2, hm, hr⟩
    | PatternBinding p init =>
      simp only [isBoolConditionOf.any, ih]
      constructor
      · rintro ⟨E2, hm, hr⟩
        exact ⟨E2, List.mem_cons_of_mem _ hm, hr⟩
      · rintro ⟨E2, hm, hr⟩
        rcases List.mem_cons.mp hm with hm | hm
        · cases hm
        · exact ⟨E2, hm, hr⟩
    | Availability =>
      simp only [isBoolConditionOf.any, ih]
      constructor
      · rintro ⟨E2, hm, hr⟩
        exact ⟨E2, List.mem_cons_of_mem _ hm, hr⟩
      · rintro ⟨E2, hm, hr⟩
        rcases List.mem_cons.mp hm with hm | hm
        · cases hm
        · exact ⟨E2, hm, hr⟩

/-- The test `isBoolConditionOf` holds exactly when the hole's range is contained
in a boolean condition expression of the statement. -/
theorem isBoolConditionOf_iff (hole : Expr) (Parent : Stmt) :
    isBoolConditionOf hole Parent = true ↔ holeInBooleanCondition hole Parent := by
  cases Parent with
  | mk k r cs => simp [isBoolConditionOf, holeInBooleanCondition]
  | ForEach r p s b => simp [isBoolConditionOf, holeInBooleanCondition]
  | RepeatWhile r b c =>
    cases c with
    | none => simp [isBoolConditionOf, holeInBooleanCondition]
    | some cond => simp [isBoolConditionOf, holeInBooleanCondition, containsTarget]
  | LabeledConditional k r cond rest =>
    simp only [isBoolConditionOf, holeInBooleanCondition]
    exact isBoolConditionOf_any_iff hole cond

/-- C12: when the ancestor analysed is an if, while, guard or repeat-while
statement, the expected types are exactly the boolean type if the hole's
source range is contained in a boolean condition expression of that
statement and are empty otherwise, and no names or callees are recorded in
either case; `if <hole> { }` gives the boolean type, `if let x = <hole> { }`
gives nothing. -/
theorem analyzeStmt_condition (S : Services) (DC : ContextNode) (hole : Expr) (Parent : Stmt)
    (hkind : Parent.getKind = .If ∨ Parent.getKind = .While ∨ Parent.getKind = .Guard ∨
      Parent.getKind = .RepeatWhile) :
    (∃ r, analyzeStmt S DC hole .empty Parent = some r ∧
      (holeInBooleanCondition hole Parent → r.PossibleTypes = [boolDeclaredInterfaceType]) ∧
      (¬ holeInBooleanCondition hole Parent → r.PossibleTypes = []) ∧
      r.PossibleNames = [] ∧ r.PossibleCallees = []) ∧
    analyzeStmt sampleServices (.other ⟨0⟩) sampleHole .empty sampleIf
      = some ⟨[boolDeclaredInterfaceType], [], [], false⟩ ∧
    analyzeStmt sampleServices (.other ⟨0⟩) sampleHole .empty sampleIfLet
      = some ExprContextInfo.empty := by
  refine ⟨?_, by rfl, by rfl⟩
  have hrec : recordPossibleType ExprContextInfo.empty (some boolDeclaredInterfaceType)
      = ⟨[boolDeclaredInterfaceType], [], [], false⟩ := by rfl
  by_cases hb : isBoolConditionOf hole Parent = true
  · have hin := (isBoolConditionOf_iff hole Parent).mp hb
    refine ⟨⟨[boolDeclaredInterfaceType], [], [], false⟩, ?_, fun _ => rfl,
      fun h => absurd hin h, rfl, rfl⟩
    rcases hkind with h | h | h | h <;> simp [analyzeStmt, h, hb, hrec]
  · have hin : ¬ holeInBooleanCondition hole Parent :=
      fun h => hb ((isBoolConditionOf_iff hole Parent).mpr h)
    refine ⟨ExprContextInfo.empty, ?_, fun h => absurd h hin, fun _ => rfl, rfl, rfl⟩
    rcases hkind with h | h | h | h <;> simp [analyzeStmt, h, hb]

/-- C12 at `if <hole> { }`. -/
theorem analyzeStmt_condition_witness :
    (∃ r, analyzeStmt sampleServices (.other ⟨0⟩) sampleHole .empty sampleIf = some r ∧
      (holeInBooleanCondition sampleHole sampleIf →
        r.PossibleTypes = [boolDeclaredInterfaceType]) ∧
      (¬ holeInBooleanCondition sampleHole sampleIf → r.PossibleTypes = []) ∧
      r.PossibleNames = [] ∧ r.PossibleCallees = []) ∧
    analyzeStmt sampleServices (.other ⟨0⟩) sampleHole .empty sampleIf
      = some ⟨[boolDeclaredInterfaceType], [], [], false⟩ ∧
    analyzeStmt sampleServices (.other ⟨0⟩) sampleHole .empty sampleIfLet
      = some ExprContextInfo.empty :=
  analyzeStmt_condition sampleServices (.other ⟨0⟩) sampleHole sampleIf (Or.inl rfl)

/-! ## The element of a tuple -/

/-- In a tuple laid out in source order every element has an ordered range. -/
theorem inSourceOrder_isOrdered (l : List Expr) (n : Nat) (x : Expr)
    (hl : inSourceOrder l) (hx : l.get? n = some x) : x.info.range.isOrdered := by
  induction l generalizing n with
  | nil => simp at hx
  | cons y l ih =>
    cases n with
    | zero =>
      simp only [List.get?_cons_zero, Option.some.injEq] at hx
      subst hx
      exact hl.1
    | succ n =>
      simp only [List.get?_cons_succ] at hx
      exact ih n hl.2.2 hx

/-- The loop over the elements of a tuple laid out in source order stops at the
element that is the hole or contains it. -/
theorem getPositionInArgs_scan_at_hole (elements : List Expr) (nameLocs : List SourceLoc)
    (hole : Expr) (P0 : Nat) (H0 : Bool) (i : Nat) (e : Expr)
    (horder : inSourceOrder elements) (hi : elements.get? i = some e)
    (hin : hole = e ∨
      (rangeContains e.info.range hole.info.range = true ∧ hole.info.range.isOrdered)) :
    getPositionInArgs.scan nameLocs hole P0 H0 elements 0
      = ⟨true, i, (getElementNameLoc nameLocs i).isValid⟩ := by
  have hordE : e.getStartLoc.Value ≤ e.getEndLoc.Value :=
    inSourceOrder_isOrdered elements i e horder hi
  have hstart : e.getStartLoc.Value ≤ hole.getStartLoc.Value ∧
      hole.getStartLoc.Value ≤ e.getEndLoc.Value := by
    rcases hin with h | ⟨hc, ho⟩
    · subst h
      exact ⟨Nat.le_refl _, hordE⟩
    · unfold rangeContains at hc
      simp only [Bool.and_eq_true, decide_eq_true_eq] at hc
      have ho2 : hole.getStartLoc.Value ≤ hole.getEndLoc.Value := ho
      have h1 : e.getStartLoc.Value ≤ hole.getStartLoc.Value := hc.1
      have h2 : hole.getEndLoc.Value ≤ e.getEndLoc.Value := hc.2
      exact ⟨h1, by omega⟩
  have hnb : isBeforeInBuffer e.getEndLoc hole.getStartLoc = false := by
    unfold isBeforeInBuffer
    simp only [decide_eq_false_iff_not]
    omega
  have hbefore : ∀ j ej, j < i → elements.get? j = some ej →
      isBeforeInBuffer ej.getEndLoc hole.getStartLoc = true := by
    intro j ej hj hgj
    have := inSourceOrder_before elements horder j i ej e hj hgj hi
    unfold isBeforeInBuffer
    simp only [decide_eq_true_eq]
    omega
  rcases getPositionInArgs_scan_spec nameLocs hole P0 H0 elements 0 with
    ⟨_, hall⟩ | ⟨d, e2, hd, hnb2, hleast, hr⟩
  · rw [hall e (List.get?_mem hi)] at hnb
    cases hnb
  · rw [Nat.zero_add] at hr
    have hdi : d = i := by
      rcases Nat.lt_trichotomy d i with h | h | h
      · rw [hbefore d e2 h hd] at hnb2
        cases hnb2
      · exact h
      · rw [hleast i e h hi] at hnb
        cases hnb
    rw [hr, hdi]

/-- The position the loop over the elements returns is an index of the tuple. -/
theorem getPositionInArgs_scan_lt (elements : List Expr) (nameLocs : List SourceLoc)
    (hole : Expr) (P0 : Nat) (H0 : Bool)
    (h : (getPositionInArgs.scan nameLocs hole P0 H0 elements 0).success = true) :
    (getPositionInArgs.scan nameLocs hole P0 H0 elements 0).Position < elements.length := by
  rcases getPositionInArgs_scan_spec nameLocs hole P0 H0 elements 0 with
    ⟨hf, _⟩ | ⟨d, e2, hd, _, _, hr⟩
  · rw [hf] at h
    cases h
  · rw [hr]
    show 0 + d < elements.length
    rw [Nat.zero_add]
    rcases Nat.lt_or_ge d elements.length with hl | hl
    · exact hl
    · rw [List.get?_eq_none.mpr hl] at hd
      cases hd

/-- C13, amended: when the ancestor analysed is a tuple expression with a
resolved tuple type `(T0, ..., Tn-1)` of as many elements as the expression,
laid out in source order, and the hole is its i-th element, the type `Ti`
goes to the recorder, so for a `Ti` that is not the error type the sole
expected type is the r-value form of `Ti`, which is `Ti` itself when `Ti`
has no l-value part; the element index used is always
in range; when the tuple expression has no resolved type or its type is not
a tuple type, nothing is recorded. For `(a, <hole>)` of type `(Int, String)`
the sole expected type is `String`. -/
theorem analyzeExpr_tuple_element (S : Services) (info : ExprInfo) (elements : List Expr)
    (nameLocs : List SourceLoc) (hole : Expr) :
    (∀ tys i e, info.ty = some (.Tuple tys) → tys.length = elements.length →
      inSourceOrder elements → elements.get? i = some e →
      (hole = e ∨
        (rangeContains e.info.range hole.info.range = true ∧ hole.info.range.isOrdered)) →
      ∃ Ti, tys.get? i = some Ti ∧
        analyzeExpr S hole .empty (.Tuple info elements nameLocs)
          = some (recordPossibleType .empty (some Ti)) ∧
        (Ti.isErrorType = false →
          analyzeExpr S hole .empty (.Tuple info elements nameLocs)
            = some ⟨[Ti.getRValueType], [], [], false⟩) ∧
        (Ti.isErrorType = false → Ti.getRValueType = Ti →
          analyzeExpr S hole .empty (.Tuple info elements nameLocs)
            = some ⟨[Ti], [], [], false⟩)) ∧
    (∀ tys, info.ty = some (.Tuple tys) → tys.length = elements.length →
      ∃ r, analyzeExpr S hole .empty (.Tuple info elements nameLocs) = some r) ∧
    ((∀ tys, info.ty ≠ some (.Tuple tys)) →
      analyzeExpr S hole .empty (.Tuple info elements nameLocs) = some .empty) ∧
    analyzeExpr sampleServices sampleTupleHole .empty sampleTypedTuple
      = some ⟨[tyString], [], [], false⟩ := by
  refine ⟨?_, ?_, ?_, by rfl⟩
  · intro tys i e hty hlen horder hi hin
    have hscan := getPositionInArgs_scan_at_hole elements nameLocs hole 0 false i e horder hi hin
    have hlt : i < tys.length := by
      rw [hlen]
      rcases Nat.lt_or_ge i elements.length with hl | hl
      · exact hl
      · rw [List.get?_eq_none.mpr hl] at hi
        cases hi
    obtain ⟨Ti, hTi⟩ : ∃ Ti, tys.get? i = some Ti := ⟨tys.get ⟨i, hlt⟩, List.get?_eq_get hlt⟩
    have hres : analyzeExpr S hole .empty (.Tuple info elements nameLocs)
        = some (recordPossibleType .empty (some Ti)) := by
      have hTi2 : tys[i]? = some Ti := by rw [← List.get?_eq_getElem?]; exact hTi
      simp [analyzeExpr, analyzeExpr.tuple, Expr.getType, Expr.info, hty, getPositionInArgs,
        hscan, hTi2]
    refine ⟨Ti, hTi, hres, ?_, ?_⟩
    · intro hne
      rw [hres]
      simp [recordPossibleType, hne, ExprContextInfo.empty]
    · intro hne hrv
      rw [hres]
      simp [recordPossibleType, hne, hrv, ExprContextInfo.empty]
  · intro tys hty hlen
    by_cases hs : (getPositionInArgs.scan nameLocs hole 0 false elements 0).success = true
    · have hlt := getPositionInArgs_scan_lt elements nameLocs hole 0 false hs
      rw [← hlen] at hlt
      refine ⟨recordPossibleType .empty (some (tys.get ⟨_, hlt⟩)), ?_⟩
      simp [analyzeExpr, analyzeExpr.tuple, Expr.getType, Expr.info, hty, getPositionInArgs,
        hs, List.getElem?_eq_getElem hlt]
    · refine ⟨.empty, ?_⟩
      simp [analyzeExpr, analyzeExpr.tuple, Expr.getType, Expr.info, hty, getPositionInArgs, hs]
  · intro hno
    cases hty : info.ty with
    | none => simp [analyzeExpr, analyzeExpr.tuple, Expr.getType, Expr.info, hty]
    | some T =>
      cases T with
      | Tuple tys => exact absurd hty (hno tys)
      | _ => simp [analyzeExpr, analyzeExpr.tuple, Expr.getType, Expr.info, hty]

/-- C13 as stated fails for the tuple `(a, <hole>)` whose resolved type is the
tuple of the l-value types of `Int` and `String`: the hole is the second
element and `T1` is the l-value type of `String`, which is not the error
type, but the sole expected type is `String`, its r-value form. -/
theorem analyzeExpr_tuple_element_counterexample :
    analyzeExpr sampleServices sampleTupleHole .empty sampleLValueTuple
      = some ⟨[tyString], [], [], false⟩ ∧
    ([Ty.LValue tyInt, Ty.LValue tyString].get? 1 = some (Ty.LValue tyString)) ∧
    (Ty.LValue tyString).isErrorType = false ∧
    tyString ≠ Ty.LValue tyString := by
  refine ⟨by rfl, rfl, rfl, by decide⟩

/-! ## The pattern of a binding -/

/-- The scan of `analyzeDecl` passes the entries it does not look for. -/
theorem analyzeDecl_scan_skip (hole : Expr) (info : ExprContextInfo)
    (pre rest : List PatternBindingEntry)
    (hpre : ∀ x ∈ pre, PatternBindingEntry.selects hole x = false) :
    analyzeDecl.scan hole info (pre ++ rest) = analyzeDecl.scan hole info rest := by
  induction pre with
  | nil => rfl
  | cons x pre ih =>
    have hx := hpre x (List.mem_cons_self _ _)
    have hrest := ih (fun y hy => hpre y (List.mem_cons_of_mem _ hy))
    cases x with
    | mk p init =>
      cases p with
      | mk k ty r cs =>
        cases init with
        | none => simpa [analyzeDecl.scan] using hrest
        | some Init =>
          cases ty with
          | none =>
            simp only [List.cons_append, analyzeDecl.scan]
            split <;> exact hrest
          | some T =>
            simp only [PatternBindingEntry.selects] at hx
            simp [analyzeDecl.scan, hx, hrest]

/-- C14, amended: when the ancestor analysed is a pattern-binding declaration
and the first binding entry whose initializer contains the hole and whose
pattern has a resolved type has pattern type `T`, that type goes to the
recorder and the scan stops, whatever the type of the initializer expression
and whatever entries follow: for a `T` that is not the error type the
expected types are exactly the r-value form of `T`, which is `T` itself when
`T` has no l-value part. For
`var v: Int = <hole>, w: String = b` they are exactly `Int`. -/
theorem analyzeDecl_first_entry (hole : Expr) (range : SourceRange)
    (pre post : List PatternBindingEntry) (k : PatternKind) (T : Ty) (r : SourceRange)
    (cs : List ASTNode) (Init : Expr)
    (hpre : ∀ x ∈ pre, PatternBindingEntry.selects hole x = false)
    (hin : containsTarget hole Init = true) :
    analyzeDecl hole .empty
        (.PatternBinding range (pre ++ .mk (.mk k (some T) r cs) (some Init) :: post))
      = some (recordPossibleType .empty (some T)) ∧
    (T.isErrorType = false →
      analyzeDecl hole .empty
          (.PatternBinding range (pre ++ .mk (.mk k (some T) r cs) (some Init) :: post))
        = some ⟨[T.getRValueType], [], [], false⟩) ∧
    (T.isErrorType = false → T.getRValueType = T →
      analyzeDecl hole .empty
          (.PatternBinding range (pre ++ .mk (.mk k (some T) r cs) (some Init) :: post))
        = some ⟨[T], [], [], false⟩) ∧
    analyzeDecl sampleHole .empty samplePatternBinding = some ⟨[tyInt], [], [], false⟩ := by
  have hres : analyzeDecl hole .empty
        (.PatternBinding range (pre ++ .mk (.mk k (some T) r cs) (some Init) :: post))
      = some (recordPossibleType .empty (some T)) := by
    simp [analyzeDecl, analyzeDecl_scan_skip hole .empty pre _ hpre, analyzeDecl.scan, hin]
  refine ⟨hres, ?_, ?_, by rfl⟩
  · intro hne
    rw [hres]
    simp [recordPossibleType, hne, ExprContextInfo.empty]
  · intro hne hrv
    rw [hres]
    simp [recordPossibleType, hne, hrv, ExprContextInfo.empty]

/-- C14, amended, at `var v: Int = <hole>, w: String = b`. -/
theorem analyzeDecl_first_entry_witness :
    analyzeDecl sampleHole .empty
        (.PatternBinding ⟨⟨1⟩, ⟨9⟩⟩ ([] ++ .mk (.mk .Typed (some tyInt) ⟨⟨1⟩, ⟨2⟩⟩ [])
          (some sampleHole) ::
          [.mk (.mk .Typed (some tyString) ⟨⟨5⟩, ⟨6⟩⟩ [])
            (some (.Other .DeclRef (infoAt 9 9) []))]))
      = some (recordPossibleType .empty (some tyInt)) ∧
    (tyInt.isErrorType = false →
      analyzeDecl sampleHole .empty
          (.PatternBinding ⟨⟨1⟩, ⟨9⟩⟩ ([] ++ .mk (.mk .Typed (some tyInt) ⟨⟨1⟩, ⟨2⟩⟩ [])
            (some sampleHole) ::
            [.mk (.mk .Typed (some tyString) ⟨⟨5⟩, ⟨6⟩⟩ [])
              (some (.Other .DeclRef (infoAt 9 9) []))]))
        = some ⟨[tyInt.getRValueType], [], [], false⟩) ∧
    (tyInt.isErrorType = false → tyInt.getRValueType = tyInt →
      analyzeDecl sampleHole .empty
          (.PatternBinding ⟨⟨1⟩, ⟨9⟩⟩ ([] ++ .mk (.mk .Typed (some tyInt) ⟨⟨1⟩, ⟨2⟩⟩ [])
            (some sampleHole) ::
            [.mk (.mk .Typed (some tyString) ⟨⟨5⟩, ⟨6⟩⟩ [])
              (some (.Other .DeclRef (infoAt 9 9) []))]))
        = some ⟨[tyInt], [], [], false⟩) ∧
    analyzeDecl sampleHole .empty samplePatternBinding = some ⟨[tyInt], [], [], false⟩ :=
  analyzeDecl_first_entry sampleHole ⟨⟨1⟩, ⟨9⟩⟩ [] _ .Typed tyInt ⟨⟨1⟩, ⟨2⟩⟩ [] sampleHole
    (by intro x hx; cases hx) (by rfl)

/-- C14 as stated fails for a binding `var v = <hole>` whose pattern has the
l-value type of `Int`: the pattern type `T` is resolved and is not the error
type, but the expected types are `[Int]`, the r-value form, and not `[T]`. -/
theorem analyzeDecl_first_entry_counterexample :
    analyzeDecl sampleHole .empty samplePatternBindingLValue = some ⟨[tyInt], [], [], false⟩ ∧
    (Ty.LValue tyInt).isErrorType = false ∧
    [tyInt] ≠ [Ty.LValue tyInt] := by
  refine ⟨by rfl, rfl, by decide⟩

/-! ## The destination of an assignment -/

/-- C19, amended: when the ancestor analysed is an assignment, a type is
recorded only if the location of the assignment operator is strictly before
the start of the hole, and a hole at or before the operator gives an empty
result. With the hole after the operator, the split is on whether the
destination has a resolved type at all: if it has a type `T`, that type goes
to the recorder, so a `T` that is not the error type gives the r-value form
of `T` as the sole expected type and the error type gives nothing, without a
look at the declaration; if it has no type and is a reference to a
declaration with an interface type, that type mapped into the context of the
declaration goes to the recorder; otherwise nothing is recorded. -/
theorem analyzeExpr_assign (S : Services) (hole : Expr) (info : ExprInfo) (dest src : Expr)
    (equalLoc : SourceLoc) :
    (isBeforeInBuffer equalLoc hole.getStartLoc = false →
      analyzeExpr S hole .empty (.Assign info dest src equalLoc) = some .empty) ∧
    (analyzeExpr S hole .empty (.Assign info dest src equalLoc) ≠ some .empty →
      isBeforeInBuffer equalLoc hole.getStartLoc = true) ∧
    (∀ T, isBeforeInBuffer equalLoc hole.getStartLoc = true → dest.getType = some T →
      analyzeExpr S hole .empty (.Assign info dest src equalLoc)
        = some (recordPossibleType .empty (some T)) ∧
      (T.isErrorType = false →
        analyzeExpr S hole .empty (.Assign info dest src equalLoc)
          = some ⟨[T.getRValueType], [], [], false⟩) ∧
      (T.isErrorType = true →
        analyzeExpr S hole .empty (.Assign info dest src equalLoc) = some .empty)) ∧
    (∀ dinfo decl I, isBeforeInBuffer equalLoc hole.getStartLoc = true →
      dest = .DeclRef dinfo decl → dinfo.ty = none → decl.interfaceType = some I →
      analyzeExpr S hole .empty (.Assign info dest src equalLoc)
        = some (recordPossibleType .empty (some (S.mapTypeIntoContext decl.declContext I))) ∧
      ((S.mapTypeIntoContext decl.declContext I).isErrorType = false →
        analyzeExpr S hole .empty (.Assign info dest src equalLoc)
          = some ⟨[(S.mapTypeIntoContext decl.declContext I).getRValueType], [], [], false⟩)) ∧
    (dest.getType = none →
      (∀ dinfo decl I, ¬ (dest = .DeclRef dinfo decl ∧ decl.interfaceType = some I)) →
      analyzeExpr S hole .empty (.Assign info dest src equalLoc) = some .empty) ∧
    analyzeExpr sampleServices sampleHole .empty sampleAssign = some ⟨[tyInt], [], [], false⟩ ∧
    analyzeExpr sampleServices sampleHole .empty sampleAssignHoleLeft = some .empty := by
  refine ⟨?_, ?_, ?_, ?_, ?_, by rfl, by rfl⟩
  · intro hb
    simp [analyzeExpr, analyzeExpr.assign, hb]
  · intro hne
    cases hb : isBeforeInBuffer equalLoc hole.getStartLoc with
    | true => rfl
    | false =>
      exfalso
      apply hne
      simp [analyzeExpr, analyzeExpr.assign, hb]
  · intro T hb hT
    have hres : analyzeExpr S hole .empty (.Assign info dest src equalLoc)
        = some (recordPossibleType .empty (some T)) := by
      simp [analyzeExpr, analyzeExpr.assign, hb, hT]
    refine ⟨hres, ?_, ?_⟩
    · intro hne
      rw [hres]
      simp [recordPossibleType, hne, ExprContextInfo.empty]
    · intro he
      rw [hres]
      simp [recordPossibleType, he]
  · intro dinfo decl I hb hd hty hI
    subst hd
    have hres : analyzeExpr S hole .empty (.Assign info (.DeclRef dinfo decl) src equalLoc)
        = some (recordPossibleType .empty (some (S.mapTypeIntoContext decl.declContext I))) := by
      simp [analyzeExpr, analyzeExpr.assign, hb, Expr.getType, Expr.info, hty, hI]
    refine ⟨hres, ?_⟩
    intro hne
    rw [hres]
    simp [recordPossibleType, hne, ExprContextInfo.empty]
  · intro hT hno
    cases hb : isBeforeInBuffer equalLoc hole.getStartLoc with
    | false => simp [analyzeExpr, analyzeExpr.assign, hb]
    | true =>
      cases dest with
      | DeclRef dinfo decl =>
        cases hI : decl.interfaceType with
        | none => simp [analyzeExpr, analyzeExpr.assign, hb, hT, hI]
        | some I => exact absurd ⟨rfl, hI⟩ (hno dinfo decl I)
      | _ => simp [analyzeExpr, analyzeExpr.assign, hb, hT]

/-- C19 as stated fails for `x = <hole>` where the reference `x` has been given
the error type and the declaration of `x` has the interface type `Int`: the
hole is after the operator, the destination has no resolved non-error type
and is a bare reference to a declaration with an interface type, yet the
result is empty and not `Int` mapped into the context of the declaration. -/
theorem analyzeExpr_assign_counterexample :
    analyzeExpr sampleServices sampleHole .empty sampleAssignErrorDest = some .empty ∧
    isBeforeInBuffer ⟨2⟩ sampleHole.getStartLoc = true ∧
    (Expr.DeclRef ⟨some .Error, ⟨⟨1⟩, ⟨1⟩⟩, false⟩ sampleVarDecl).getType = some Ty.Error ∧
    Ty.Error.isErrorType = true ∧
    sampleVarDecl.interfaceType = some tyInt ∧
    recordPossibleType .empty
        (some (sampleServices.mapTypeIntoContext sampleVarDecl.declContext tyInt))
      = ⟨[tyInt], [], [], false⟩ := by
  refine ⟨by rfl, by rfl, by rfl, by rfl, by rfl, by rfl⟩

/-! ## findParsedExpr -/

/-- A node reached in a larger list of trees. -/
theorem Reaches.mono {roots roots2 : List WalkNode} {path : List ASTNode} {n : WalkNode}
    (hsub : ∀ r ∈ roots, r ∈ roots2) (h : Reaches roots path n) : Reaches roots2 path n := by
  induction h with
  | root n hn => exact .root n (hsub n hn)
  | child path a cs n _ hn ih => exact .child path a cs n ih hn

/-- A node reached among the children of a node is reached from that node. -/
theorem Reaches.under {a : ASTNode} {cs : List WalkNode} {path : List ASTNode} {n : WalkNode}
    (h : Reaches cs path n) : Reaches [.mk a cs] (a :: path) n := by
  induction h with
  | root n hn =>
    exact Reaches.child [] a cs n (.root _ (List.mem_singleton.mpr rfl)) hn
  | child path b ds n _ hn ih =>
    exact Reaches.child (a :: path) b ds n ih hn

/-- The finder's pre-callback on a fresh state: it stores an expression of the
target range that is not a wrapper and stops, or skips the node, or enters a
node whose range contains the target range. -/
theorem exprFinder_pre (T : SourceRange) (P : Option ASTNode) (node : ASTNode) :
    (∃ E, node = .expr E ∧ T = E.getSourceRange ∧ ExprFinder.isWrapper E = false ∧
      Traversal.pre (ExprFinder.walker T) P none node = .ok (some E, .stop)) ∨
    Traversal.pre (ExprFinder.walker T) P none node = .ok (none, .skip) ∨
    (node.rangeContainsTarget T = true ∧
      Traversal.pre (ExprFinder.walker T) P none node = .ok (none, .enter)) := by
  cases node with
  | expr E =>
    by_cases hm : T = E.getSourceRange ∧ ExprFinder.isWrapper E = false
    · refine Or.inl ⟨E, rfl, hm.1, hm.2, ?_⟩
      simp [Traversal.pre, ExprFinder.walker, ExprFinder.walkToExprPre, hm, Except.map,
        Traversal.next]
    · cases hc : rangeContains E.getSourceRange T with
      | false =>
        refine Or.inr (Or.inl ?_)
        simp [Traversal.pre, ExprFinder.walker, ExprFinder.walkToExprPre, hm, Except.map,
          Traversal.next, ExprFinder.isInterstingRange, hc]
      | true =>
        refine Or.inr (Or.inr ⟨?_, ?_⟩)
        · simp [ASTNode.rangeContainsTarget, ASTNode.getSourceRange, hc]
        · simp [Traversal.pre, ExprFinder.walker, ExprFinder.walkToExprPre, hm, Except.map,
            Traversal.next, ExprFinder.isInterstingRange, hc]
  | stmt S =>
    cases hc : rangeContains S.getSourceRange T with
    | false =>
      refine Or.inr (Or.inl ?_)
      simp [Traversal.pre, ExprFinder.walker, ExprFinder.walkToStmtPre, Except.map,
        Traversal.next, ExprFinder.isInterstingRange, hc]
    | true =>
      refine Or.inr (Or.inr ⟨?_, ?_⟩)
      · simp [ASTNode.rangeContainsTarget, ASTNode.getSourceRange, hc]
      · simp [Traversal.pre, ExprFinder.walker, ExprFinder.walkToStmtPre, Except.map,
          Traversal.next, ExprFinder.isInterstingRange, hc]
  | decl D =>
    cases hc : rangeContains D.getSourceRange T with
    | false =>
      refine Or.inr (Or.inl ?_)
      simp [Traversal.pre, ExprFinder.walker, ExprFinder.walkToDeclPre, Except.map,
        ExprFinder.isInterstingRange, hc]
    | true =>
      refine Or.inr (Or.inr ⟨?_, ?_⟩)
      · simp [ASTNode.rangeContainsTarget, ASTNode.getSourceRange, hc]
      · simp [Traversal.pre, ExprFinder.walker, ExprFinder.walkToDeclPre, Except.map,
          ExprFinder.isInterstingRange, hc]
  | pattern Pt =>
    cases hc : rangeContains Pt.getSourceRange T with
    | false =>
      refine Or.inr (Or.inl ?_)
      simp [Traversal.pre, ExprFinder.walker, ExprFinder.walkToPatternPre, Except.map,
        Traversal.next, ExprFinder.isInterstingRange, hc]
    | true =>
      refine Or.inr (Or.inr ⟨?_, ?_⟩)
      · simp [ASTNode.rangeContainsTarget, ASTNode.getSourceRange, hc]
      · simp [Traversal.pre, ExprFinder.walker, ExprFinder.walkToPatternPre, Except.map,
          Traversal.next, ExprFinder.isInterstingRange, hc]
  | typeLoc TL =>
    refine Or.inr (Or.inl ?_)
    simp [Traversal.pre, ExprFinder.walker, ExprFinder.walkToTypeLocPre, Except.map]

/-- The finder's post-callbacks leave the state and never stop the walk. -/
theorem exprFinder_post (T : SourceRange) (P : Option ASTNode) (st : Option Expr)
    (node : ASTNode) : Traversal.post (ExprFinder.walker T) P st node = .ok (st, false) := by
  cases node <;> simp [Traversal.post, ExprFinder.walker, Except.map]

mutual
/-- The walk of one tree by a fresh finder ends in one of the two outcomes. -/
theorem exprFinder_doIt (T : SourceRange) (P : Option ASTNode) :
    (n : WalkNode) → FinderOutcome T [n] (Traversal.doIt (ExprFinder.walker T) P n none)
  | .mk node children => by
    rcases exprFinder_pre T P node with ⟨E, hn, hT, hw, hpre⟩ | hpre | ⟨hc, hpre⟩
    · refine Or.inr ⟨E, [], children, ?_, hT, hw, ?_, ?_⟩
      · simp [Traversal.doIt, hpre]
      · rw [← hn]
        exact .root _ (List.mem_singleton.mpr rfl)
      · intro a ha
        cases ha
    · refine Or.inl ?_
      simp [Traversal.doIt, hpre]
    · rcases exprFinder_doItAll T (some node) children with hall | ⟨E, path, cs, hall, hT, hw, hr, hp⟩
      · refine Or.inl ?_
        simp [Traversal.doIt, hpre, hall, exprFinder_post]
      · refine Or.inr ⟨E, node :: path, cs, ?_, hT, hw, hr.under, ?_⟩
        · simp [Traversal.doIt, hpre, hall]
        · intro a ha
          rcases List.mem_cons.mp ha with h | h
          · rw [h]
            exact hc
          · exact hp a h
/-- The walk of a list of trees by a fresh finder ends in one of the two outcomes. -/
theorem exprFinder_doItAll (T : SourceRange) (P : Option ASTNode) :
    (ns : List WalkNode) → FinderOutcome T ns (Traversal.doItAll (ExprFinder.walker T) P ns none)
  | [] => Or.inl (by simp [Traversal.doItAll])
  | n :: ns => by
    rcases exprFinder_doIt T P n with h1 | ⟨E, path, cs, h1, hT, hw, hr, hp⟩
    · rcases exprFinder_doItAll T P ns with h2 | ⟨E, path, cs, h2, hT, hw, hr, hp⟩
      · refine Or.inl ?_
        simp [Traversal.doItAll, h1, h2]
      · refine Or.inr ⟨E, path, cs, ?_, hT, hw, ?_, hp⟩
        · simp [Traversal.doItAll, h1, h2]
        · exact hr.mono (fun r hr2 => List.mem_cons_of_mem _ hr2)
    · refine Or.inr ⟨E, path, cs, ?_, hT, hw, ?_, hp⟩
      · simp [Traversal.doItAll, h1]
      · exact hr.mono (fun r hr2 => by
          rw [List.mem_singleton.mp hr2]
          exact List.mem_cons_self _ _)
end

/-! ## The ancestors of the hole -/

/-- Nothing is reached in an empty list of trees. -/
theorem Reaches.not_nil {path : List ASTNode} {n : WalkNode} (h : Reaches [] path n) : False := by
  induction h with
  | root n hn => cases hn
  | child _ _ _ _ _ _ ih => exact ih

/-- A node reached in a list of trees is reached in the first or in the others. -/
theorem Reaches.cons_inv {r : WalkNode} {rs : List WalkNode} {path : List ASTNode}
    {n : WalkNode} (h : Reaches (r :: rs) path n) : Reaches [r] path n ∨ Reaches rs path n := by
  induction h with
  | root n hn =>
    rcases List.mem_cons.mp hn with h1 | h1
    · exact Or.inl (.root n (List.mem_singleton.mpr h1))
    · exact Or.inr (.root n h1)
  | child path a cs n _ hn ih =>
    rcases ih with h1 | h1
    · exact Or.inl (.child path a cs n h1 hn)
    · exact Or.inr (.child path a cs n h1 hn)

/-- A node reached in one tree is its top or is reached among its children. -/
theorem Reaches.single_inv {a : ASTNode} {cs : List WalkNode} {path : List ASTNode}
    {n : WalkNode} (h : Reaches [.mk a cs] path n) :
    (path = [] ∧ n = .mk a cs) ∨ ∃ rest, path = a :: rest ∧ Reaches cs rest n := by
  induction h with
  | root n hn => exact Or.inl ⟨rfl, List.mem_singleton.mp hn⟩
  | child path b ds n _ hn ih =>
    rcases ih with ⟨hp, hb⟩ | ⟨rest, hp, hr⟩
    · injection hb with hb1 hb2
      subst hb1 hb2 hp
      exact Or.inr ⟨[], rfl, .root n hn⟩
    · subst hp
      exact Or.inr ⟨rest ++ [b], rfl, .child rest b ds n hr hn⟩

/-- The pre-callback of the finder of the ancestors: the walk stops at an
expression at the positions of the hole; any other node is entered, pushed
first when the predicate holds for it. -/
theorem parentFinder_pre (Child : Expr) (Pred : ASTNode → Option ASTNode → Bool)
    (P : Option ASTNode) (st : List ASTNode) (node : ASTNode) :
    (∃ E, node = .expr E ∧ ExprParentFinder.arePositionsSame E Child = true ∧
      Traversal.pre (ExprParentFinder.walker Child Pred) P st node = .ok (st, .stop)) ∨
    ((∀ E, node = .expr E → ExprParentFinder.arePositionsSame E Child = false) ∧
      Traversal.pre (ExprParentFinder.walker Child Pred) P st node
        = .ok (if ExprParentFinder.pushes Pred P node then st ++ [node] else st, .enter)) := by
  cases node with
  | expr E =>
    cases hs : ExprParentFinder.arePositionsSame E Child with
    | true =>
      refine Or.inl ⟨E, rfl, hs, ?_⟩
      simp [Traversal.pre, ExprParentFinder.walker, ExprParentFinder.walkToExprPre, hs,
        Except.map, Traversal.next]
    | false =>
      refine Or.inr ⟨?_, ?_⟩
      · intro E2 h
        injection h with h
        rw [← h]
        exact hs
      · cases hp : Pred (.expr E) P <;>
          simp [Traversal.pre, ExprParentFinder.walker, ExprParentFinder.walkToExprPre, hs,
            Except.map, Traversal.next, ExprParentFinder.pushes, hp]
  | stmt S =>
    refine Or.inr ⟨(fun E h => by cases h), ?_⟩
    cases hp : Pred (.stmt S) P <;>
      simp [Traversal.pre, ExprParentFinder.walker, ExprParentFinder.walkToStmtPre,
        Except.map, Traversal.next, ExprParentFinder.pushes, hp]
  | decl D =>
    refine Or.inr ⟨(fun E h => by cases h), ?_⟩
    cases hp : Pred (.decl D) P <;>
      simp [Traversal.pre, ExprParentFinder.walker, ExprParentFinder.walkToDeclPre,
        Except.map, ExprParentFinder.pushes, hp]
  | pattern Pt =>
    refine Or.inr ⟨(fun E h => by cases h), ?_⟩
    cases hp : Pred (.pattern Pt) P <;>
      simp [Traversal.pre, ExprParentFinder.walker, ExprParentFinder.walkToPatternPre,
        Except.map, Traversal.next, ExprParentFinder.pushes, hp]
  | typeLoc TL =>
    refine Or.inr ⟨(fun E h => by cases h), ?_⟩
    simp [Traversal.pre, ExprParentFinder.walker, Except.map, ExprParentFinder.pushes]

/-- A pop after a push gives the stack back. -/
theorem popBack_append (st : List ASTNode) (node : ASTNode) :
    ExprParentFinder.popBack (st ++ [node]) = .ok st := by
  unfold ExprParentFinder.popBack
  split
  · next h => simp at h
  · simp

/-- The post-callback of the finder of the ancestors takes off what the
pre-callback of the same node pushed and never stops the walk. -/
theorem parentFinder_post (Child : Expr) (Pred : ASTNode → Option ASTNode → Bool)
    (P : Option ASTNode) (st : List ASTNode) (node : ASTNode) :
    Traversal.post (ExprParentFinder.walker Child Pred) P
        (if ExprParentFinder.pushes Pred P node then st ++ [node] else st) node
      = .ok (st, false) := by
  cases node with
  | expr E =>
    cases hp : Pred (.expr E) P <;>
      simp [Traversal.post, ExprParentFinder.walker, ExprParentFinder.walkToExprPost,
        Except.map, ExprParentFinder.pushes, hp, popBack_append]
  | stmt S =>
    cases hp : Pred (.stmt S) P <;>
      simp [Traversal.post, ExprParentFinder.walker, ExprParentFinder.walkToStmtPost,
        Except.map, ExprParentFinder.pushes, hp, popBack_append]
  | decl D =>
    cases hp : Pred (.decl D) P <;>
      simp [Traversal.post, ExprParentFinder.walker, ExprParentFinder.walkToDeclPost,
        Except.map, ExprParentFinder.pushes, hp, popBack_append]
  | pattern Pt =>
    cases hp : Pred (.pattern Pt) P <;>
      simp [Traversal.post, ExprParentFinder.walker, ExprParentFinder.walkToPatternPost,
        Except.map, ExprParentFinder.pushes, hp, popBack_append]
  | typeLoc TL =>
    simp [Traversal.post, ExprParentFinder.pushes]

/-- The stack a path adds, read from the top of the path. -/
theorem interestingOf_cons (Pred : ASTNode → Option ASTNode → Bool) (P : Option ASTNode)
    (st : List ASTNode) (node : ASTNode) (rest : List ASTNode) :
    (if ExprParentFinder.pushes Pred P node then st ++ [node] else st)
        ++ ExprParentFinder.interestingOf Pred (some node) rest
      = st ++ ExprParentFinder.interestingOf Pred P (node :: rest) := by
  cases hp : ExprParentFinder.pushes Pred P node <;>
    simp [ExprParentFinder.interestingOf, hp]

mutual
/-- The walk of one tree by the finder of the ancestors ends in one of the two
outcomes, from any stack. -/
theorem parentFinder_doIt (Child : Expr) (Pred : ASTNode → Option ASTNode → Bool)
    (P : Option ASTNode) : (n : WalkNode) → (st : List ASTNode) →
    ParentFinderOutcome Child Pred P [n] st
      (Traversal.doIt (ExprParentFinder.walker Child Pred) P n st)
  | .mk node children, st => by
    rcases parentFinder_pre Child Pred P st node with ⟨E, hn, hs, hpre⟩ | ⟨hns, hpre⟩
    · refine Or.inr ⟨[], E, children, ?_, ?_, hs, ?_⟩
      · simp [Traversal.doIt, hpre, ExprParentFinder.interestingOf]
      · rw [← hn]
        exact .root _ (List.mem_singleton.mpr rfl)
      · intro e he
        cases he
    · rcases parentFinder_doItAll Child Pred (some node) children
          (if ExprParentFinder.pushes Pred P node then st ++ [node] else st) with
        ⟨hall, hno⟩ | ⟨path, E, cs, hall, hr, hs, hp⟩
      · refine Or.inl ⟨?_, ?_⟩
        · simp only [Traversal.doIt, hpre, hall]
          exact parentFinder_post Child Pred P st node
        · intro path E cs hr
          rcases hr.single_inv with ⟨_, hn⟩ | ⟨rest, _, hr2⟩
          · injection hn with hn1 _
            exact hns E hn1.symm
          · exact hno rest E cs hr2
      · refine Or.inr ⟨node :: path, E, cs, ?_, hr.under, hs, ?_⟩
        · simp only [Traversal.doIt, hpre, hall]
          rw [interestingOf_cons]
        · intro e he
          rcases List.mem_cons.mp he with h | h
          · exact hns e h.symm
          · exact hp e h
/-- The walk of a list of trees by the finder of the ancestors ends in one of the
two outcomes, from any stack. -/
theorem parentFinder_doItAll (Child : Expr) (Pred : ASTNode → Option ASTNode → Bool)
    (P : Option ASTNode) : (ns : List WalkNode) → (st : List ASTNode) →
    ParentFinderOutcome Child Pred P ns st
      (Traversal.doItAll (ExprParentFinder.walker Child Pred) P ns st)
  | [], st => Or.inl ⟨by simp [Traversal.doItAll], fun _ _ _ hr => hr.not_nil.elim⟩
  | n :: ns, st => by
    rcases parentFinder_doIt Child Pred P n st with ⟨h1, hno1⟩ | ⟨path, E, cs, h1, hr, hs, hp⟩
    · rcases parentFinder_doItAll Child Pred P ns st with
        ⟨h2, hno2⟩ | ⟨path, E, cs, h2, hr, hs, hp⟩
      · refine Or.inl ⟨?_, ?_⟩
        · simp [Traversal.doItAll, h1, h2]
        · intro path E cs hr
          rcases hr.cons_inv with h | h
          · exact hno1 path E cs h
          · exact hno2 path E cs h
      · refine Or.inr ⟨path, E, cs, ?_, ?_, hs, hp⟩
        · simp [Traversal.doItAll, h1, h2]
        · exact hr.mono (fun r hr2 => List.mem_cons_of_mem _ hr2)
    · refine Or.inr ⟨path, E, cs, ?_, ?_, hs, hp⟩
      · simp [Traversal.doItAll, h1]
      · exact hr.mono (fun r hr2 => by
          rw [List.mem_singleton.mp hr2]
          exact List.mem_cons_self _ _)
end

/-- The interesting nodes of a path are nodes of the path. -/
theorem interestingOf_subset (Pred : ASTNode → Option ASTNode → Bool) (path : List ASTNode) :
    ∀ (P : Option ASTNode) (a : ASTNode),
      a ∈ ExprParentFinder.interestingOf Pred P path → a ∈ path := by
  induction path with
  | nil =>
    intro P a ha
    simp [ExprParentFinder.interestingOf] at ha
  | cons b rest ih =>
    intro P a ha
    unfold ExprParentFinder.interestingOf at ha
    split at ha
    · rcases List.mem_cons.mp ha with h | h
      · rw [h]
        exact List.mem_cons_self _ _
      · exact List.mem_cons_of_mem _ (ih (some b) a h)
    · exact List.mem_cons_of_mem _ (ih (some b) a ha)

/-- An expression has its own positions. -/
theorem arePositionsSame_self (E : Expr) : ExprParentFinder.arePositionsSame E E = true := by
  simp [ExprParentFinder.arePositionsSame]

/-! ## The claims on the two walks -/

/-- C15: the assertion of the finder never fires. For the binary expression
`a + b`, whose implicit argument tuple has the same range as the expression,
and that range as target, two expressions that are no wrappers have exactly
the target range, yet `findParsedExpr` returns the outer one without failure:
the walk stops at the first expression stored, so for no context and no
target range does a second store happen. -/
theorem findParsedExpr_second_match_never_seen :
    findParsedExpr [.expr sampleBinarySameRange] ⟨⟨1⟩, ⟨5⟩⟩
      = .ok (some sampleBinarySameRange) ∧
    (sampleBinarySameRange.getSourceRange = ⟨⟨1⟩, ⟨5⟩⟩ ∧
      ExprFinder.isWrapper sampleBinarySameRange = false) ∧
    (∃ fn arg, sampleBinarySameRange = .Apply .Binary (infoAt 1 5) fn arg ∧
      arg.getSourceRange = ⟨⟨1⟩, ⟨5⟩⟩ ∧ ExprFinder.isWrapper arg = false) ∧
    ∀ (DC : List ASTNode) (TargetRange : SourceRange),
      findParsedExpr DC TargetRange ≠ .error .foundExprAlreadySet := by
  refine ⟨by rfl, ⟨by rfl, by rfl⟩, ⟨_, _, rfl, by rfl, by rfl⟩, ?_⟩
  intro DC T
  rcases exprFinder_doItAll T none (ASTNode.toWalks DC) with h | ⟨E, path, cs, h, _⟩ <;>
    simp [findParsedExpr, walkContext, h, Except.map]

/-- C16: for every context and target range, an expression `findParsedExpr`
returns has exactly the target range, is not an implicit conversion, an
auto-closure or a constructor reference call, and lies in the context below
nodes whose ranges all contain the target range, none of them a type
annotation; when no expression of the context has exactly the target range,
the result is absent. In `return f(a, <hole>)` the range of the hole gives
the hole, and a range no expression has gives nothing. -/
theorem findParsedExpr_result (DC : List ASTNode) (TargetRange : SourceRange) :
    (∀ E, findParsedExpr DC TargetRange = .ok (some E) →
      E.getSourceRange = TargetRange ∧ ExprFinder.isWrapper E = false ∧
      ∃ path cs, Reaches (ASTNode.toWalks DC) path (.mk (.expr E) cs) ∧
        ∀ a ∈ path, a.rangeContainsTarget TargetRange = true ∧ a.isTypeLoc = false) ∧
    ((∀ path E cs, Reaches (ASTNode.toWalks DC) path (.mk (.expr E) cs) →
        E.getSourceRange ≠ TargetRange) →
      findParsedExpr DC TargetRange = .ok none) ∧
    findParsedExpr [sampleReturnCall] ⟨⟨11⟩, ⟨11⟩⟩ = .ok (some sampleArgHole) ∧
    findParsedExpr [sampleReturnCall] ⟨⟨11⟩, ⟨12⟩⟩ = .ok none := by
  refine ⟨?_, ?_, by rfl, by rfl⟩
  · intro E hE
    rcases exprFinder_doItAll TargetRange none (ASTNode.toWalks DC) with
      h | ⟨E2, path, cs, h, hT, hw, hr, hp⟩
    · simp [findParsedExpr, walkContext, h, Except.map] at hE
    · simp only [findParsedExpr, walkContext, h, Except.map, Except.ok.injEq,
        Option.some.injEq] at hE
      subst hE
      refine ⟨hT.symm, hw, path, cs, hr, ?_⟩
      intro a ha
      have hc := hp a ha
      refine ⟨hc, ?_⟩
      cases a <;> simp [ASTNode.isTypeLoc, ASTNode.rangeContainsTarget,
        ASTNode.getSourceRange] at hc ⊢
  · intro hno
    rcases exprFinder_doItAll TargetRange none (ASTNode.toWalks DC) with
      h | ⟨E2, path, cs, h, hT, hw, hr, hp⟩
    · simp [findParsedExpr, walkContext, h, Except.map]
    · exact absurd hT.symm (hno path E2 cs hr)

/-- C18: when the walk of the finder of the ancestors stops, it has stopped at
an expression of the context at the positions of the hole, and the stack
holds exactly the nodes of the path from the top of the context down to the
parent of that expression that satisfy the predicate under their parent, in
the order of the path, the top first and the closest ancestor last; no
expression on the stack is at the positions of the hole, so the hole itself
is never on it. The walk stops whenever the context has an expression at the
positions of the hole. In `return f(a, <hole>)` the stack at the hole is the
return statement and then the call. -/
theorem parentFinder_stack_at_halt (ChildExpr : Expr)
    (Predicate : ASTNode → Option ASTNode → Bool) (DC : List ASTNode) :
    (∀ Ancestors,
      walkContext (ExprParentFinder.walker ChildExpr Predicate) DC [] = .ok (Ancestors, true) →
      ∃ path E cs, Reaches (ASTNode.toWalks DC) path (.mk (.expr E) cs) ∧
        ExprParentFinder.arePositionsSame E ChildExpr = true ∧
        Ancestors = ExprParentFinder.interestingOf Predicate none path ∧
        (∀ e, ASTNode.expr e ∈ Ancestors →
          ExprParentFinder.arePositionsSame e ChildExpr = false) ∧
        ASTNode.expr ChildExpr ∉ Ancestors) ∧
    ((∃ path E cs, Reaches (ASTNode.toWalks DC) path (.mk (.expr E) cs) ∧
        ExprParentFinder.arePositionsSame E ChildExpr = true) →
      ∃ Ancestors,
        walkContext (ExprParentFinder.walker ChildExpr Predicate) DC [] = .ok (Ancestors, true)) ∧
    walkContext (ExprParentFinder.walker sampleArgHole Analyze.predicate) [sampleReturnCall] []
      = .ok ([.stmt sampleReturn, .expr sampleCallTwoArgs], true) := by
  refine ⟨?_, ?_, by rfl⟩
  · intro Ancestors hA
    rcases parentFinder_doItAll ChildExpr Predicate none (ASTNode.toWalks DC) [] with
      ⟨h, _⟩ | ⟨path, E, cs, h, hr, hs, hp⟩
    · simp [walkContext, h] at hA
    · simp only [walkContext, h, List.nil_append, Except.ok.injEq, Prod.mk.injEq,
        and_true] at hA
      subst hA
      have hnot : ∀ e, ASTNode.expr e ∈ ExprParentFinder.interestingOf Predicate none path →
          ExprParentFinder.arePositionsSame e ChildExpr = false :=
        fun e he => hp e (interestingOf_subset Predicate path none _ he)
      refine ⟨path, E, cs, hr, hs, rfl, hnot, ?_⟩
      intro hmem
      have := hnot ChildExpr hmem
      rw [arePositionsSame_self] at this
      cases this
  · rintro ⟨path, E, cs, hr, hs⟩
    rcases parentFinder_doItAll ChildExpr Predicate none (ASTNode.toWalks DC) [] with
      ⟨_, hno⟩ | ⟨path2, E2, cs2, h, _⟩
    · rw [hno path E cs hr] at hs
      cases hs
    · exact ⟨_, h⟩

/-! ## A call whose hole has no position -/

/-- The position of the hole is unknown exactly when one of the two position
functions fails. -/
theorem holePosition_eq_none (arg hole : Expr)
    (h : (getPositionInArgs arg hole 0 false).success = false ∨
      (translateArgIndexToParamIndex arg (getPositionInArgs arg hole 0 false).Position
        (getPositionInArgs arg hole 0 false).HasName).success = false) :
    holePosition arg hole = none := by
  unfold holePosition
  rcases h with h | h
  · simp [h]
  · by_cases h1 : (getPositionInArgs arg hole 0 false).success = true
    · simp [h1, h]
    · simp [h1]

/-- C22: in `analyzeApplyExpr`, when the resolver gives a non-empty list of
candidates but `getPositionInArgs` or `translateArgIndexToParamIndex` fails,
the analysis returns (with `false`): the callees of the result are exactly
the candidates in the order of the resolver, and the possible types and names
are empty; when the resolver gives no candidate, callees, types and names
are all empty. For `f(x: <hole>)` with the hole placed after the argument
list the result holds the candidate and nothing else. -/
theorem analyzeApplyExpr_without_position (S : Services) (hole E arg : Expr)
    (harg : E.getArgs = some arg) :
    (((getPositionInArgs arg hole 0 false).success = false ∨
        (translateArgIndexToParamIndex arg (getPositionInArgs arg hole 0 false).Position
          (getPositionInArgs arg hole 0 false).HasName).success = false) →
      S.candidates E ≠ [] →
      ∃ r, analyzeApplyExpr S hole .empty E = some (false, r) ∧
        r.PossibleCallees = S.candidates E ∧ r.PossibleTypes = [] ∧ r.PossibleNames = []) ∧
    (S.candidates E = [] →
      ∃ r, analyzeApplyExpr S hole .empty E = some (false, r) ∧
        r.PossibleCallees = [] ∧ r.PossibleTypes = [] ∧ r.PossibleNames = []) ∧
    analyzeApplyExpr sampleServices sampleHoleAfterArgs .empty sampleCallLabeled
      = some (false, ⟨[], [], [sampleCandidate], false⟩) := by
  refine ⟨?_, ?_, by rfl⟩
  · intro hpos _
    obtain ⟨r, hr, hf, hn, ht, hc⟩ :=
      analyzeApplyExpr_of_no_position S hole E arg harg (holePosition_eq_none arg hole hpos)
    refine ⟨r.2, ?_, hc, ht, hn⟩
    rw [hr, ← hf]
  · intro hnone
    refine ⟨.empty, ?_, rfl, rfl, rfl⟩
    cases E with
    | Apply k i fn a =>
      have hc : S.calleesForApply (.Apply k i fn a) = [] := hnone
      simp [analyzeApplyExpr, hc]
    | Subscript i base index =>
      have hc : S.calleesForSubscript (.Subscript i base index) = [] := hnone
      simp [analyzeApplyExpr, hc]
    | _ => simp [Expr.getArgs] at harg

/-- C22 at `f(x: <hole>)` with the hole placed after the argument list. -/
theorem analyzeApplyExpr_without_position_witness :
    (((getPositionInArgs (.Tuple (infoAt 2 7) [.Other .CodeCompletion (infoAt 6 6) []] [⟨3⟩])
          sampleHoleAfterArgs 0 false).success = false ∨
        (translateArgIndexToParamIndex
          (.Tuple (infoAt 2 7) [.Other .CodeCompletion (infoAt 6 6) []] [⟨3⟩])
          (getPositionInArgs (.Tuple (infoAt 2 7) [.Other .CodeCompletion (infoAt 6 6) []] [⟨3⟩])
            sampleHoleAfterArgs 0 false).Position
          (getPositionInArgs (.Tuple (infoAt 2 7) [.Other .CodeCompletion (infoAt 6 6) []] [⟨3⟩])
            sampleHoleAfterArgs 0 false).HasName).success = false) →
      sampleServices.candidates sampleCallLabeled ≠ [] →
      ∃ r, analyzeApplyExpr sampleServices sampleHoleAfterArgs .empty sampleCallLabeled
          = some (false, r) ∧
        r.PossibleCallees = sampleServices.candidates sampleCallLabeled ∧
        r.PossibleTypes = [] ∧ r.PossibleNames = []) ∧
    (sampleServices.candidates sampleCallLabeled = [] →
      ∃ r, analyzeApplyExpr sampleServices sampleHoleAfterArgs .empty sampleCallLabeled
          = some (false, r) ∧
        r.PossibleCallees = [] ∧ r.PossibleTypes = [] ∧ r.PossibleNames = []) ∧
    analyzeApplyExpr sampleServices sampleHoleAfterArgs .empty sampleCallLabeled
      = some (false, ⟨[], [], [sampleCandidate], false⟩) :=
  analyzeApplyExpr_without_position sampleServices sampleHoleAfterArgs sampleCallLabeled
    (.Tuple (infoAt 2 7) [.Other .CodeCompletion (infoAt 6 6) []] [⟨3⟩]) rfl

/-! ## The predicate of the ancestors and the dispatch -/

/-- The rule for a tuple stops the program only when the type of the tuple has
fewer elements than the tuple expression. -/
theorem analyzeExpr_tuple_eq_none (hole : Expr) (info : ExprContextInfo) (i : ExprInfo)
    (es : List Expr) (locs : List SourceLoc)
    (h : analyzeExpr.tuple hole info (.Tuple i es locs) = none) :
    ∃ tys, i.ty = some (.Tuple tys) ∧ tys.length < es.length := by
  unfold analyzeExpr.tuple at h
  simp only [Expr.getType, Expr.info] at h
  cases hty : i.ty with
  | none => simp [hty] at h
  | some T =>
    cases T with
    | Tuple tys =>
      refine ⟨tys, rfl, ?_⟩
      simp only [hty, getPositionInArgs] at h
      by_cases hs : (getPositionInArgs.scan locs hole 0 false es 0).success = true
      · have hlt := getPositionInArgs_scan_lt es locs hole 0 false hs
        simp only [hs, if_true] at h
        cases hg : tys.get? (getPositionInArgs.scan locs hole 0 false es 0).Position with
        | some x =>
          rw [List.get?_eq_getElem?] at hg
          simp [hg] at h
        | none =>
          have := List.get?_eq_none.mp hg
          omega
      · simp [hs] at h
    | _ => simp [hty] at h

/-- C21: every node the predicate of `Analyze` accepts reaches a handled case of
the dispatch. For an accepted node that is not a tuple the rule returns, so
neither an unreachable branch for an unhandled kind nor the assertion on the
body of the closure fails; an accepted tuple reaches the rule for tuples,
which stops the program only when the type of the tuple has fewer elements
than the tuple expression. -/
theorem Analyze_dispatch_handles (S : Services) (C : AnalyzerContext) (hole : Expr)
    (info : ExprContextInfo) (Node : ASTNode) (Parent : Option ASTNode)
    (hacc : Analyze.predicate Node Parent = true) :
    ((∀ i es locs, Node ≠ .expr (.Tuple i es locs)) →
      ∃ r, Analyze.dispatch S C hole info Node = some r) ∧
    (∀ i es locs, Node = .expr (.Tuple i es locs) →
      Analyze.dispatch S C hole info Node = analyzeExpr.tuple hole info (.Tuple i es locs) ∧
      (Analyze.dispatch S C hole info Node = none →
        ∃ tys, i.ty = some (.Tuple tys) ∧ tys.length < es.length)) := by
  constructor
  · intro hnt
    cases Node with
    | expr E =>
      cases E with
      | Apply k i fn arg =>
        cases k <;> simp [Analyze.predicate] at hacc <;>
          · simp only [Analyze.dispatch, analyzeExpr, analyzeApplyExpr]
            split <;> exact ⟨_, rfl⟩
      | Subscript i base index =>
        simp only [Analyze.dispatch, analyzeExpr, analyzeApplyExpr]
        split <;> exact ⟨_, rfl⟩
      | Assign i dest src l => exact ⟨_, rfl⟩
      | Tuple i es locs => exact absurd rfl (hnt i es locs)
      | Closure i ps tl body =>
        simp only [Analyze.predicate] at hacc
        simp only [Analyze.dispatch, analyzeExpr, hacc, if_true]
        exact ⟨_, rfl⟩
      | _ => simp [Analyze.predicate] at hacc
    | stmt St =>
      simp only [Analyze.predicate] at hacc
      simp only [Analyze.dispatch, analyzeStmt]
      cases hk : St.getKind <;> simp only [hk] at hacc ⊢ <;>
        first
          | ((repeat' split) <;> exact ⟨_, rfl⟩)
          | cases hacc
    | decl D =>
      cases D with
      | mk k r cs =>
        cases k <;> simp [Analyze.predicate, Decl.getKind] at hacc
        exact ⟨_, rfl⟩
      | PatternBinding r es => exact ⟨_, rfl⟩
    | pattern P =>
      simp only [Analyze.predicate] at hacc
      simp only [Analyze.dispatch, analyzePattern]
      cases hk : P.getKind <;> simp only [hk] at hacc ⊢ <;>
        first
          | ((repeat' split) <;> exact ⟨_, rfl⟩)
          | cases hacc
    | typeLoc t => exact ⟨_, rfl⟩
  · intro i es locs hN
    subst hN
    refine ⟨rfl, ?_⟩
    intro h
    exact analyzeExpr_tuple_eq_none hole info i es locs h

/-- C21 at the return statement of `return f(a, <hole>)`. -/
theorem Analyze_dispatch_handles_witness :
    ((∀ i es locs, ASTNode.stmt sampleReturn ≠ .expr (.Tuple i es locs)) →
      ∃ r, Analyze.dispatch sampleServices sampleAnalyzerContext sampleArgHole .empty
        (.stmt sampleReturn) = some r) ∧
    (∀ i es locs, ASTNode.stmt sampleReturn = .expr (.Tuple i es locs) →
      Analyze.dispatch sampleServices sampleAnalyzerContext sampleArgHole .empty
          (.stmt sampleReturn)
        = analyzeExpr.tuple sampleArgHole .empty (.Tuple i es locs) ∧
      (Analyze.dispatch sampleServices sampleAnalyzerContext sampleArgHole .empty
          (.stmt sampleReturn) = none →
        ∃ tys, i.ty = some (.Tuple tys) ∧ tys.length < es.length)) :=
  Analyze_dispatch_handles sampleServices sampleAnalyzerContext sampleArgHole .empty
    (.stmt sampleReturn) none (by rfl)

/-! ## A walk that never meets the hole -/

/-- C25: the pushes and pops of the finder of the ancestors are balanced. For
every context in which no expression has the positions of the hole, the walk
completes with an empty stack and without a pop of an empty stack, and
`Analyze` gives the empty result: no types, no names, no callees, the flag
unset. For no context, hole and predicate does the walk pop an empty stack. -/
theorem Analyze_without_hole_in_context (S : Services) (C : AnalyzerContext)
    (ParsedExpr : Expr)
    (hno : ∀ path E cs, Reaches (ASTNode.toWalks C.analyzeDC) path (.mk (.expr E) cs) →
      ExprParentFinder.arePositionsSame E ParsedExpr = false) :
    walkContext (ExprParentFinder.walker ParsedExpr Analyze.predicate) C.analyzeDC []
      = .ok ([], false) ∧
    Analyze S C (some ParsedExpr) = some ⟨[], [], [], false⟩ ∧
    ∀ (Predicate : ASTNode → Option ASTNode → Bool) (DC : List ASTNode) (Child : Expr),
      walkContext (ExprParentFinder.walker Child Predicate) DC [] ≠ .error .popOfEmptyStack := by
  have hwalk : walkContext (ExprParentFinder.walker ParsedExpr Analyze.predicate)
      C.analyzeDC [] = .ok ([], false) := by
    rcases parentFinder_doItAll ParsedExpr Analyze.predicate none
        (ASTNode.toWalks C.analyzeDC) [] with ⟨h, _⟩ | ⟨path, E, cs, _, hr, hs, _⟩
    · exact h
    · rw [hno path E cs hr] at hs
      cases hs
  refine ⟨hwalk, ?_, ?_⟩
  · simp [Analyze, hwalk, ExprContextInfo.empty]
  · intro Predicate DC Child
    rcases parentFinder_doItAll Child Predicate none (ASTNode.toWalks DC) [] with
      ⟨h, _⟩ | ⟨path, E, cs, h, _⟩ <;> simp [walkContext, h]

/-- C25 at the body `return f(a, <hole>)` with a hole whose positions no
expression of the body has. -/
theorem Analyze_without_hole_in_context_witness :
    walkContext (ExprParentFinder.walker sampleHoleAfterArgs Analyze.predicate)
        sampleAnalyzerContext.analyzeDC [] = .ok ([], false) ∧
    Analyze sampleServices sampleAnalyzerContext (some sampleHoleAfterArgs)
      = some ⟨[], [], [], false⟩ ∧
    ∀ (Predicate : ASTNode → Option ASTNode → Bool) (DC : List ASTNode) (Child : Expr),
      walkContext (ExprParentFinder.walker Child Predicate) DC [] ≠ .error .popOfEmptyStack :=
  Analyze_without_hole_in_context sampleServices sampleAnalyzerContext sampleHoleAfterArgs
    (by
      have hev : Traversal.doItAll
          (ExprParentFinder.walker sampleHoleAfterArgs Analyze.predicate) none
          (ASTNode.toWalks sampleAnalyzerContext.analyzeDC) [] = .ok ([], false) := by rfl
      rcases parentFinder_doItAll sampleHoleAfterArgs Analyze.predicate none
          (ASTNode.toWalks sampleAnalyzerContext.analyzeDC) [] with ⟨_, hno⟩ | ⟨path, E, cs, h, _⟩
      · exact hno
      · rw [hev] at h
        simp at h)

/-! ## The entries of the possible types -/

mutual
/-- The r-value form of a type is in r-value form. -/
theorem getRValueType_idem : ∀ t : Ty, t.getRValueType.getRValueType = t.getRValueType
  | .Nominal _ => rfl
  | .Error => rfl
  | .Unresolved => rfl
  | .GenericTypeParam _ => rfl
  | .LValue t => by
    simp only [Ty.getRValueType]
    exact getRValueType_idem t
  | .InOut t => by
    simp only [Ty.getRValueType]
    rw [getRValueType_idem t]
  | .Tuple ts => by
    simp only [Ty.getRValueType]
    rw [getRValueTypes_idem ts]
  | .Function ps r => by
    simp only [Ty.getRValueType]
    rw [getRValueTypes_idem ps, getRValueType_idem r]
/-- The r-value forms of a list of types are in r-value form. -/
theorem getRValueTypes_idem : ∀ ts : List Ty,
    Ty.getRValueTypes (Ty.getRValueTypes ts) = Ty.getRValueTypes ts
  | [] => rfl
  | t :: ts => by
    simp only [Ty.getRValueTypes]
    rw [getRValueType_idem t, getRValueTypes_idem ts]
end

/-- The r-value form of a type is the error type only for the error type itself
and for an l-value wrapper. -/
theorem getRValueType_isErrorType (T : Ty) (h : T.getRValueType.isErrorType = true) :
    T.isErrorType = true ∨ ∃ U, T = .LValue U := by
  cases T with
  | Error => exact Or.inl rfl
  | LValue U => exact Or.inr ⟨U, rfl⟩
  | _ => simp [Ty.getRValueType, Ty.isErrorType] at h

/-! ### The types handed to the recorder -/

/-- The possible types after a call of the recorder. -/
theorem recordPossibleType_types (info : ExprContextInfo) (x : Option Ty) :
    (recordPossibleType info x).PossibleTypes
      = info.PossibleTypes ++ (recordPossibleType.added x).toList := by
  cases x with
  | none => simp [recordPossibleType, recordPossibleType.added]
  | some t =>
    by_cases h : t.isErrorType = true <;> simp [recordPossibleType, recordPossibleType.added, h]

/-- What a list of one handed type adds. -/
theorem filterMap_added_singleton (x : Option Ty) :
    [x].filterMap recordPossibleType.added = (recordPossibleType.added x).toList := by
  cases h : recordPossibleType.added x <;> simp [List.filterMap_cons, h]

/-- One iteration of the loop over the candidates: the seen types grow by the
types handed to the recorder in this iteration, at most one, which was not seen
before and is the type of the candidate's parameter at the position. -/
theorem step_handed (S : Services) (pos : Nat) (m : Bool) (st : CollectState)
    (c : FunctionTypeAndDecl) :
    ∃ new : List Ty,
      (analyzeApplyExpr.step S pos m st c).seenTypes = new ++ st.seenTypes ∧
      (analyzeApplyExpr.step S pos m st c).info.PossibleTypes
        = st.info.PossibleTypes ++ (new.reverse.map some).filterMap recordPossibleType.added ∧
      (new = [] ∨ ∃ p, c.1.Params.get? pos = some p ∧
        paramTypeInContext S c.2 p ∉ st.seenTypes ∧ new = [paramTypeInContext S c.2 p]) := by
  unfold analyzeApplyExpr.step
  split
  · exact ⟨[], by simp, by simp, Or.inl rfl⟩
  · rename_i p hp
    split
    · split
      · exact ⟨[], by simp, by simp, Or.inl rfl⟩
      · exact ⟨[], by simp, by simp [recordPossibleName], Or.inl rfl⟩
    · split
      · exact ⟨[], by simp, by simp, Or.inl rfl⟩
      · rename_i hns
        refine ⟨[paramTypeInContext S c.2 p], by simp, ?_, Or.inr ⟨p, hp, hns, rfl⟩⟩
        simp only [List.reverse_singleton, List.map_cons, List.map_nil,
          filterMap_added_singleton]
        exact recordPossibleType_types _ _

/-- The loop over the candidates: the seen types grow by the types handed to the
recorder, latest first; the possible types grow by what the recorder adds for
them; the new seen types are without repetition, were not seen before, and
each is the type of a parameter of a candidate at the position. -/
theorem foldl_handed (S : Services) (pos : Nat) (m : Bool) (cs : List FunctionTypeAndDecl) :
    ∀ st : CollectState, ∃ new : List Ty,
      (cs.foldl (analyzeApplyExpr.step S pos m) st).seenTypes = new ++ st.seenTypes ∧
      (cs.foldl (analyzeApplyExpr.step S pos m) st).info.PossibleTypes
        = st.info.PossibleTypes ++ (new.reverse.map some).filterMap recordPossibleType.added ∧
      new.Nodup ∧ (∀ T ∈ new, T ∉ st.seenTypes) ∧
      (∀ T ∈ new, ∃ c ∈ cs, ∃ p, c.1.Params.get? pos = some p ∧
        T = paramTypeInContext S c.2 p) := by
  induction cs with
  | nil =>
    intro st
    exact ⟨[], by simp, by simp, List.nodup_nil, by simp, by simp⟩
  | cons c cs ih =>
    intro st
    obtain ⟨n1, hs1, ht1, hn1⟩ := step_handed S pos m st c
    obtain ⟨n2, hs2, ht2, hnd2, hnot2, horg2⟩ := ih (analyzeApplyExpr.step S pos m st c)
    refine ⟨n2 ++ n1, ?_, ?_, ?_, ?_, ?_⟩
    · rw [List.foldl_cons, hs2, hs1, List.append_assoc]
    · rw [List.foldl_cons, ht2, ht1, List.reverse_append, List.map_append,
        List.filterMap_append, List.append_assoc]
    · rw [List.nodup_append]
      refine ⟨hnd2, ?_, ?_⟩
      · rcases hn1 with h | ⟨p, _, _, h⟩ <;> simp [h]
      · intro a ha2 ha1
        have := hnot2 a ha2
        rw [hs1] at this
        exact this (List.mem_append_left _ ha1)
    · intro T hT hin
      rcases List.mem_append.mp hT with h | h
      · have := hnot2 T h
        rw [hs1] at this
        exact this (List.mem_append_right _ hin)
      · rcases hn1 with h1 | ⟨p, _, hns, h1⟩
        · rw [h1] at h
          cases h
        · rw [h1, List.mem_singleton] at h
          rw [h] at hin
          exact hns hin
    · intro T hT
      rcases List.mem_append.mp hT with h | h
      · obtain ⟨c2, hc2, p, hp, hTeq⟩ := horg2 T h
        exact ⟨c2, List.mem_cons_of_mem _ hc2, p, hp, hTeq⟩
      · rcases hn1 with h1 | ⟨p, hp, _, h1⟩
        · rw [h1] at h
          cases h
        · rw [h1, List.mem_singleton] at h
          exact ⟨c, List.mem_cons_self _ _, p, hp, h⟩

/-- The seen types and names of an iteration do not depend on the results so far. -/
theorem step_seen_indep (S : Services) (pos : Nat) (m : Bool) (st1 st2 : CollectState)
    (c : FunctionTypeAndDecl) (hT : st1.seenTypes = st2.seenTypes)
    (hN : st1.seenNames = st2.seenNames) :
    (analyzeApplyExpr.step S pos m st1 c).seenTypes
        = (analyzeApplyExpr.step S pos m st2 c).seenTypes ∧
    (analyzeApplyExpr.step S pos m st1 c).seenNames
        = (analyzeApplyExpr.step S pos m st2 c).seenNames := by
  unfold analyzeApplyExpr.step
  rw [hT, hN]
  split
  · exact ⟨hT, hN⟩
  · split
    · split
      · exact ⟨hT, hN⟩
      · exact ⟨rfl, rfl⟩
    · split
      · exact ⟨hT, hN⟩
      · exact ⟨rfl, rfl⟩

/-- The seen types of the loop do not depend on the results it starts with. -/
theorem foldl_seen_indep (S : Services) (pos : Nat) (m : Bool) (cs : List FunctionTypeAndDecl) :
    ∀ st1 st2 : CollectState, st1.seenTypes = st2.seenTypes → st1.seenNames = st2.seenNames →
      (cs.foldl (analyzeApplyExpr.step S pos m) st1).seenTypes
        = (cs.foldl (analyzeApplyExpr.step S pos m) st2).seenTypes := by
  induction cs with
  | nil => intro st1 st2 hT _; exact hT
  | cons c cs ih =>
    intro st1 st2 hT hN
    obtain ⟨h1, h2⟩ := step_seen_indep S pos m st1 st2 c hT hN
    exact ih _ _ h1 h2

/-- The possible types `analyzeApplyExpr` returns are what the recorder adds for
the types handed to it. -/
theorem analyzeApplyExpr_types_handed (S : Services) (hole E arg : Expr)
    (r : Bool × ExprContextInfo) (harg : E.getArgs = some arg)
    (hr : analyzeApplyExpr S hole .empty E = some r) :
    r.2.PossibleTypes
      = (analyzeApplyExpr.handed S hole E).filterMap recordPossibleType.added := by
  unfold analyzeApplyExpr.handed
  cases hpos : holePosition arg hole with
  | none =>
    obtain ⟨r2, hr2, _, _, ht, _⟩ := analyzeApplyExpr_of_no_position S hole E arg harg hpos
    rw [hr] at hr2
    injection hr2 with hr2
    simp only [harg, hpos]
    rw [hr2, ht]
    rfl
  | some ph =>
    obtain ⟨pos, hn⟩ := ph
    obtain ⟨r2, hr2, _, ht⟩ := analyzeApplyExpr_of_position S hole E arg pos hn harg hpos
    rw [hr] at hr2
    injection hr2 with hr2
    obtain ⟨new, hs, hty, _⟩ := foldl_handed S pos
      (!hn && !E.isImplicit && (E.isCallExpr || E.isSubscriptExpr)) (S.candidates E)
      ⟨[], [], { ExprContextInfo.empty with PossibleCallees := S.candidates E }⟩
    have hind := foldl_seen_indep S pos
      (!hn && !E.isImplicit && (E.isCallExpr || E.isSubscriptExpr)) (S.candidates E)
      ⟨[], [], { ExprContextInfo.empty with PossibleCallees := S.candidates E }⟩
      ⟨[], [], .empty⟩ rfl rfl
    simp only [harg, hpos]
    rw [hr2, ht, hty, ← hind, hs]
    simp [ExprContextInfo.empty]

/-- The possible types `analyzeExpr` returns are what the recorder adds for the
types the rule hands to it. -/
theorem analyzeExpr_types_handed (S : Services) (hole Parent : Expr) (r : ExprContextInfo)
    (hr : analyzeExpr S hole .empty Parent = some r) :
    r.PossibleTypes = (analyzeExpr.handed S hole Parent).filterMap recordPossibleType.added := by
  have happly : ∀ E arg, E.getArgs = some arg →
      (analyzeApplyExpr S hole .empty E).map Prod.snd = some r →
      r.PossibleTypes
        = (analyzeApplyExpr.handed S hole E).filterMap recordPossibleType.added := by
    intro E arg harg hE
    cases hA : analyzeApplyExpr S hole .empty E with
    | none => simp [hA] at hE
    | some p =>
      simp only [hA, Option.map_some', Option.some.injEq] at hE
      rw [← hE]
      exact analyzeApplyExpr_types_handed S hole E arg p harg hA
  cases Parent with
  | Apply k i fn arg =>
    cases k with
    | Call => exact happly (.Apply .Call i fn arg) arg rfl hr
    | Binary => exact happly (.Apply .Binary i fn arg) arg rfl hr
    | PrefixUnary => exact happly (.Apply .PrefixUnary i fn arg) arg rfl hr
    | _ => simp [analyzeExpr] at hr
  | Subscript i base index => exact happly (.Subscript i base index) index rfl hr
  | Assign i dest src l =>
    simp only [analyzeExpr, Option.some.injEq] at hr
    rw [← hr]
    unfold analyzeExpr.assign analyzeExpr.handed
    simp only
    repeat' split
    all_goals first
      | rfl
      | (rw [recordPossibleType_types, filterMap_added_singleton]; rfl)
  | Tuple i es locs =>
    simp only [analyzeExpr, analyzeExpr.tuple] at hr
    unfold analyzeExpr.handed
    simp only
    repeat' split at hr
    all_goals
      cases hr <;> simp_all [recordPossibleType_types, filterMap_added_singleton,
        ExprContextInfo.empty]
  | Closure i ps tl body =>
    simp only [analyzeExpr] at hr
    split at hr
    · injection hr with hr
      rw [← hr, recordPossibleType_types]
      simp only [analyzeExpr.handed, filterMap_added_singleton]
      rfl
    · cases hr
  | _ => simp [analyzeExpr] at hr

/-- The possible types `analyzeStmt` returns are what the recorder adds for the
types the rule hands to it. -/
theorem analyzeStmt_types_handed (S : Services) (DC : ContextNode) (hole : Expr)
    (Parent : Stmt) (r : ExprContextInfo)
    (hr : analyzeStmt S DC hole .empty Parent = some r) :
    r.PossibleTypes
      = (analyzeStmt.handed S DC hole Parent).filterMap recordPossibleType.added := by
  unfold analyzeStmt at hr
  unfold analyzeStmt.handed
  cases hk : Parent.getKind <;> simp only [hk] at hr ⊢ <;>
    ((repeat' split at hr) <;> cases hr <;>
      simp_all [recordPossibleType_types, filterMap_added_singleton, ExprContextInfo.empty])

/-- The possible types the loop of `analyzeDecl` returns are what the recorder
adds for the type handed to it. -/
theorem analyzeDecl_scan_types_handed (hole : Expr) :
    ∀ es : List PatternBindingEntry,
      (analyzeDecl.scan hole .empty es).PossibleTypes
        = (analyzeDecl.handed hole es).filterMap recordPossibleType.added
  | [] => rfl
  | .mk (.mk _ patternType _ _) (some Init) :: rest => by
    unfold analyzeDecl.scan analyzeDecl.handed
    split
    · cases patternType with
      | some T =>
        simp only [recordPossibleType_types, filterMap_added_singleton]
        rfl
      | none => exact analyzeDecl_scan_types_handed hole rest
    · exact analyzeDecl_scan_types_handed hole rest
  | .mk (.mk _ _ _ _) none :: rest => by
    simp only [analyzeDecl.scan, analyzeDecl.handed]
    exact analyzeDecl_scan_types_handed hole rest

/-- The possible types the dispatch of `Analyze` returns are what the recorder
adds for the types the rule hands to it. -/
theorem dispatch_types_handed (S : Services) (C : AnalyzerContext) (hole : Expr)
    (P : ASTNode) (r : ExprContextInfo)
    (hr : Analyze.dispatch S C hole .empty P = some r) :
    r.PossibleTypes
      = (Analyze.dispatch.handed S C hole P).filterMap recordPossibleType.added := by
  cases P with
  | expr E => exact analyzeExpr_types_handed S hole E r hr
  | stmt St => exact analyzeStmt_types_handed S C.DC hole St r hr
  | decl D =>
    cases D with
    | mk k rg cs =>
      cases k <;> simp [Analyze.dispatch, analyzeDecl] at hr
      rw [← hr]
      rfl
    | PatternBinding rg es =>
      simp only [Analyze.dispatch, analyzeDecl, Option.some.injEq] at hr
      rw [← hr]
      exact analyzeDecl_scan_types_handed hole es
  | pattern Pt =>
    simp only [Analyze.dispatch, analyzePattern] at hr
    simp only [Analyze.dispatch.handed, analyzePattern.handed]
    cases hk : Pt.getKind <;> simp only [hk] at hr ⊢ <;>
      ((repeat' split at hr) <;> cases hr <;>
        simp_all [recordPossibleType_types, filterMap_added_singleton,
          ExprContextInfo.empty])
  | typeLoc t =>
    simp only [Analyze.dispatch, Option.some.injEq] at hr
    rw [← hr]
    rfl

/-- The possible types `Analyze` returns are what the recorder adds for the types
handed to it. -/
theorem Analyze_types_handed (S : Services) (C : AnalyzerContext) (ParsedExpr : Option Expr)
    (r : ExprContextInfo) (h : Analyze S C ParsedExpr = some r) :
    r.PossibleTypes = (Analyze.handed S C ParsedExpr).filterMap recordPossibleType.added := by
  unfold Analyze at h
  unfold Analyze.handed
  cases ParsedExpr with
  | none =>
    simp only [Option.some.injEq] at h
    rw [← h]
    rfl
  | some hole =>
    simp only at h ⊢
    cases hw : walkContext (ExprParentFinder.walker hole Analyze.predicate) C.analyzeDC [] with
    | error e => simp [hw] at h
    | ok res =>
      obtain ⟨Ancestors, flag⟩ := res
      simp only [hw] at h ⊢
      cases hl : Ancestors.getLast? with
      | none =>
        simp only [hl, Option.some.injEq] at h
        simp only [hl]
        rw [← h]
        rfl
      | some P =>
        simp only [hl] at h ⊢
        exact dispatch_types_handed S C hole P r h

/-- C24, amended: for every input, the possible expected types in the result of
`Analyze` are exactly what `recordPossibleType` makes of the types the rule of
the closest ancestor hands to it, in order. Each entry is the r-value form of
one of those handed types, a type that is present and is not the error type,
and is itself in r-value form; the entry is the error type only when that
handed type is an l-value wrapper whose r-value form is the error type, so
without such a wrapper among the handed types no entry is the error type. A
rule whose handed types are all absent or the error type contributes
nothing. -/
theorem Analyze_possible_types (S : Services) (C : AnalyzerContext)
    (ParsedExpr : Option Expr) (r : ExprContextInfo) (h : Analyze S C ParsedExpr = some r) :
    r.PossibleTypes = (Analyze.handed S C ParsedExpr).filterMap recordPossibleType.added ∧
    (∀ t ∈ r.PossibleTypes, ∃ T : Ty, some T ∈ Analyze.handed S C ParsedExpr ∧
      T.isErrorType = false ∧ t = T.getRValueType ∧ t.getRValueType = t ∧
      (t.isErrorType = true → ∃ U, T = .LValue U ∧ U.getRValueType = .Error)) ∧
    ((∀ T U, some T ∈ Analyze.handed S C ParsedExpr → T ≠ .LValue U) →
      ∀ t ∈ r.PossibleTypes, t.isErrorType = false) ∧
    ((∀ x ∈ Analyze.handed S C ParsedExpr, x = none ∨ x = some .Error) →
      r.PossibleTypes = []) := by
  have heq := Analyze_types_handed S C ParsedExpr r h
  have hmem : ∀ t ∈ r.PossibleTypes, ∃ T : Ty, some T ∈ Analyze.handed S C ParsedExpr ∧
      T.isErrorType = false ∧ t = T.getRValueType ∧ t.getRValueType = t ∧
      (t.isErrorType = true → ∃ U, T = .LValue U ∧ U.getRValueType = .Error) := by
    intro t ht
    rw [heq, List.mem_filterMap] at ht
    obtain ⟨x, hx, hxt⟩ := ht
    cases x with
    | none => simp [recordPossibleType.added] at hxt
    | some T =>
      by_cases he : T.isErrorType = true
      · simp [recordPossibleType.added, he] at hxt
      · simp only [recordPossibleType.added, he, Bool.false_eq_true, if_false,
          Option.some.injEq] at hxt
        refine ⟨T, hx, by simpa using he, hxt.symm, ?_, ?_⟩
        · rw [← hxt]
          exact getRValueType_idem T
        · intro hte
          rw [← hxt] at hte
          rcases getRValueType_isErrorType T hte with h1 | ⟨U, hU⟩
          · exact absurd h1 he
          · refine ⟨U, hU, ?_⟩
            rw [hU] at hte
            simp only [Ty.getRValueType] at hte
            cases hu : U.getRValueType <;> simp [hu, Ty.isErrorType] at hte ⊢
  refine ⟨heq, hmem, ?_, ?_⟩
  · intro hno t ht
    obtain ⟨T, hT, _, _, _, herr⟩ := hmem t ht
    cases hte : t.isErrorType with
    | false => rfl
    | true =>
      obtain ⟨U, hU, _⟩ := herr hte
      exact absurd hU (hno T U hT)
  · intro hall
    rw [heq]
    apply List.filterMap_eq_nil_iff.mpr
    intro x hx
    rcases hall x hx with h1 | h1 <;> rw [h1] <;> rfl

/-- C24, amended, at `x = <hole>` with a destination of l-value type `Int`: the
type handed to the recorder is the l-value type of `Int` and the sole entry
is `Int`. -/
theorem Analyze_possible_types_witness :
    Analyze.handed sampleServices (sampleContextOf (.expr sampleAssign)) (some sampleHole)
      = [some (.LValue tyInt)] ∧
    ((⟨[tyInt], [], [], false⟩ : ExprContextInfo).PossibleTypes
      = (Analyze.handed sampleServices (sampleContextOf (.expr sampleAssign))
          (some sampleHole)).filterMap recordPossibleType.added ∧
    (∀ t ∈ (⟨[tyInt], [], [], false⟩ : ExprContextInfo).PossibleTypes, ∃ T : Ty,
      some T ∈ Analyze.handed sampleServices (sampleContextOf (.expr sampleAssign))
        (some sampleHole) ∧
      T.isErrorType = false ∧ t = T.getRValueType ∧ t.getRValueType = t ∧
      (t.isErrorType = true → ∃ U, T = .LValue U ∧ U.getRValueType = .Error)) ∧
    ((∀ T U, some T ∈ Analyze.handed sampleServices (sampleContextOf (.expr sampleAssign))
        (some sampleHole) → T ≠ .LValue U) →
      ∀ t ∈ (⟨[tyInt], [], [], false⟩ : ExprContextInfo).PossibleTypes,
        t.isErrorType = false) ∧
    ((∀ x ∈ Analyze.handed sampleServices (sampleContextOf (.expr sampleAssign))
        (some sampleHole), x = none ∨ x = some .Error) →
      (⟨[tyInt], [], [], false⟩ : ExprContextInfo).PossibleTypes = [])) :=
  ⟨by rfl, Analyze_possible_types sampleServices (sampleContextOf (.expr sampleAssign))
    (some sampleHole) ⟨[tyInt], [], [], false⟩ (by rfl)⟩

/-- C24 as stated fails for `x = <hole>` whose destination has the l-value type
of the error type: the type handed to the recorder is present and is not the
error type itself, so the recorder stores its r-value form, and the sole
entry of the possible expected types is the error type. -/
theorem Analyze_possible_types_counterexample :
    Analyze sampleServices sampleAssignContext (some sampleHole)
      = some ⟨[Ty.Error], [], [], false⟩ ∧
    Analyze.handed sampleServices sampleAssignContext (some sampleHole)
      = [some (.LValue .Error)] ∧
    Ty.Error.isErrorType = true ∧
    (Ty.LValue Ty.Error).isErrorType = false := by
  refine ⟨by rfl, by rfl, rfl, rfl⟩

/-! ## What the reset changes -/

/-- The guarded `setType(Type())` keeps a type or makes a stale one null. -/
theorem typeSameButStale_eraseStale (ty : Option Ty) : typeSameButStale ty (eraseStale ty) := by
  cases ty with
  | none => exact Or.inl rfl
  | some t =>
    by_cases hs : (t.hasError || t.hasUnresolvedType) = true
    · exact Or.inr ⟨by simpa [isStaleType] using hs, by simp [eraseStale, hs]⟩
    · exact Or.inl (by simp [eraseStale, hs])

/-- The state of an expression after the guarded `setType(Type())`. -/
theorem ExprInfo.sameButStale_erased (i : ExprInfo) : i.sameButStale i.erased :=
  ⟨typeSameButStale_eraseStale i.ty, rfl, rfl⟩

/-- The explicit result type of a closure after its walk. -/
theorem typeLocSameButStale_doItTypeLoc (tl : Option TypeLoc) :
    typeLocSameButStale tl (Eraser.doItTypeLoc tl) := by
  cases tl with
  | none => rfl
  | some t => exact ⟨_, rfl, typeSameButStale_eraseStale t.ty⟩

mutual
/-- Away from auto-closure wrappers the walk changes nothing but stale markers. -/
theorem doIt_sameButStale : ∀ e : Expr, e.hasNoAutoClosure = true →
    e.sameButStale (Eraser.doIt e)
  | .Paren i sub, h => by
    simp only [Expr.hasNoAutoClosure] at h
    simp only [Eraser.doIt, Expr.sameButStale]
    exact ⟨_, _, rfl, i.sameButStale_erased, doIt_sameButStale sub h⟩
  | .Tuple i es locs, h => by
    simp only [Expr.hasNoAutoClosure] at h
    simp only [Eraser.doIt, Expr.sameButStale]
    exact ⟨_, _, rfl, i.sameButStale_erased, doItExprs_sameButStale es h⟩
  | .ArgumentShuffle i sub m va, h => by
    simp only [Expr.hasNoAutoClosure] at h
    simp only [Eraser.doIt, Expr.sameButStale]
    exact ⟨_, _, rfl, i.sameButStale_erased, doIt_sameButStale sub h⟩
  | .Apply k i fn arg, h => by
    simp only [Expr.hasNoAutoClosure, Bool.and_eq_true] at h
    simp only [Eraser.doIt, Expr.sameButStale]
    exact ⟨_, _, _, rfl, i.sameButStale_erased, doIt_sameButStale fn h.1,
      doIt_sameButStale arg h.2⟩
  | .Subscript i base index, h => by
    simp only [Expr.hasNoAutoClosure, Bool.and_eq_true] at h
    simp only [Eraser.doIt, Expr.sameButStale]
    exact ⟨_, _, _, rfl, i.sameButStale_erased, doIt_sameButStale base h.1,
      doIt_sameButStale index h.2⟩
  | .AutoClosure _ _, h => by
    simp [Expr.hasNoAutoClosure] at h
  | .Other k i cs, h => by
    simp only [Expr.hasNoAutoClosure] at h
    simp only [Eraser.doIt, Expr.sameButStale]
    exact ⟨_, _, rfl, i.sameButStale_erased, doItNodes_sameButStale cs h⟩
  | .Assign i dest src l, h => by
    simp only [Expr.hasNoAutoClosure, Bool.and_eq_true] at h
    simp only [Eraser.doIt, Expr.sameButStale]
    exact ⟨_, _, _, rfl, i.sameButStale_erased, doIt_sameButStale dest h.1,
      doIt_sameButStale src h.2⟩
  | .DeclRef i d, _ => by
    simp only [Eraser.doIt, Expr.sameButStale]
    exact ⟨_, rfl, i.sameButStale_erased⟩
  | .Closure i ps tl body, h => by
    simp only [Expr.hasNoAutoClosure, Bool.and_eq_true] at h
    simp only [Eraser.doIt, Expr.sameButStale]
    exact ⟨_, _, _, _, rfl, i.sameButStale_erased, doItNodes_sameButStale ps h.1,
      typeLocSameButStale_doItTypeLoc tl, doItBody_sameButStale body h.2⟩
/-- The walk of the body of a closure changes nothing but stale markers. -/
theorem doItBody_sameButStale : ∀ b : ClosureBody, b.hasNoAutoClosure = true →
    b.sameButStale (Eraser.doItBody b)
  | .singleExpression r e, h => by
    simp only [ClosureBody.hasNoAutoClosure] at h
    simp only [Eraser.doItBody, ClosureBody.sameButStale]
    exact ⟨_, rfl, doIt_sameButStale e h⟩
  | .brace _ _, _ => by
    simp only [Eraser.doItBody, ClosureBody.sameButStale]
/-- The walk of the elements of a tuple changes nothing but stale markers. -/
theorem doItExprs_sameButStale : ∀ es : List Expr, Expr.allNoAutoClosure es = true →
    Expr.allSameButStale es (Eraser.doItExprs es)
  | [], _ => by
    simp only [Eraser.doItExprs, Expr.allSameButStale]
  | e :: es, h => by
    simp only [Expr.allNoAutoClosure, Bool.and_eq_true] at h
    simp only [Eraser.doItExprs, Expr.allSameButStale]
    exact ⟨_, _, rfl, doIt_sameButStale e h.1, doItExprs_sameButStale es h.2⟩
/-- The walk of a pattern changes nothing but stale markers. -/
theorem doItPattern_sameButStale : ∀ p : Pattern, p.hasNoAutoClosure = true →
    p.sameButStale (Eraser.doItPattern p)
  | .mk k ty r cs, h => by
    simp only [Pattern.hasNoAutoClosure] at h
    simp only [Eraser.doItPattern, Pattern.sameButStale]
    exact ⟨_, _, rfl, typeSameButStale_eraseStale ty, doItNodes_sameButStale cs h⟩
/-- The walk of the entries of a pattern binding changes nothing but stale markers. -/
theorem doItEntries_sameButStale : ∀ es : List PatternBindingEntry,
    PatternBindingEntry.allNoAutoClosure es = true →
    PatternBindingEntry.allSameButStale es (Eraser.doItEntries es)
  | [], _ => by
    simp only [Eraser.doItEntries, PatternBindingEntry.allSameButStale]
  | .mk p (some e) :: es, h => by
    simp only [PatternBindingEntry.allNoAutoClosure, Bool.and_eq_true] at h
    simp only [Eraser.doItEntries, PatternBindingEntry.allSameButStale]
    exact ⟨_, _, _, rfl, doItPattern_sameButStale p h.1.1, doIt_sameButStale e h.1.2,
      doItEntries_sameButStale es h.2⟩
  | .mk p none :: es, h => by
    simp only [PatternBindingEntry.allNoAutoClosure, Bool.and_eq_true] at h
    simp only [Eraser.doItEntries, PatternBindingEntry.allSameButStale]
    exact ⟨_, _, rfl, doItPattern_sameButStale p h.1, doItEntries_sameButStale es h.2⟩
/-- The walk of a child changes nothing but stale markers. -/
theorem doItNode_sameButStale : ∀ n : ASTNode, n.hasNoAutoClosure = true →
    n.sameButStale (Eraser.doItNode n)
  | .expr e, h => by
    simp only [ASTNode.hasNoAutoClosure] at h
    simp only [Eraser.doItNode, ASTNode.sameButStale]
    exact ⟨_, rfl, doIt_sameButStale e h⟩
  | .stmt _, _ => by
    simp only [Eraser.doItNode, ASTNode.sameButStale, Eraser.walkToStmtPre]
  | .decl (.mk k r cs), h => by
    simp only [ASTNode.hasNoAutoClosure] at h
    simp only [Eraser.doItNode, ASTNode.sameButStale]
    exact ⟨_, rfl, doItNodes_sameButStale cs h⟩
  | .decl (.PatternBinding r es), h => by
    simp only [ASTNode.hasNoAutoClosure] at h
    simp only [Eraser.doItNode, ASTNode.sameButStale]
    exact ⟨_, rfl, doItEntries_sameButStale es h⟩
  | .pattern p, h => by
    simp only [ASTNode.hasNoAutoClosure] at h
    simp only [Eraser.doItNode, ASTNode.sameButStale]
    exact ⟨_, rfl, doItPattern_sameButStale p h⟩
  | .typeLoc t, _ => by
    simp only [Eraser.doItNode, ASTNode.sameButStale, Eraser.walkToTypeLocPre]
    exact ⟨_, rfl, typeSameButStale_eraseStale t.ty⟩
/-- The walk of a list of children changes nothing but stale markers. -/
theorem doItNodes_sameButStale : ∀ ns : List ASTNode, ASTNode.allNoAutoClosure ns = true →
    ASTNode.allSameButStale ns (Eraser.doItNodes ns)
  | [], _ => by
    simp only [Eraser.doItNodes, ASTNode.allSameButStale]
  | n :: ns, h => by
    simp only [ASTNode.allNoAutoClosure, Bool.and_eq_true] at h
    simp only [Eraser.doItNodes, ASTNode.allSameButStale]
    exact ⟨_, _, rfl, doItNode_sameButStale n h.1, doItNodes_sameButStale ns h.2⟩
end

/-- C23, amended: on a tree without auto-closure wrappers outside statements,
`prepareForRetypechecking` changes nothing except stale markers: the tree
after the reset has the same nodes in the same places, a type annotation
differs only where it was erroneous or unresolved before the reset, is
outside every statement and is null afterwards; every type that is resolved
and error-free and every node beneath a statement is left unchanged. For
`g(x, { s })` the error types of the call and of `x` are cleared, the type
`Int` of `g` stays, and the block body of the closure, with the error type
in it, stays as it was. -/
theorem prepareForRetypechecking_frame (E : Expr) (h : E.hasNoAutoClosure = true) :
    E.sameButStale (prepareForRetypechecking E) ∧
    (∀ before after, typeSameButStale before after →
      (isStaleType before = false → after = before) ∧
      (after ≠ before → isStaleType before = true ∧ after = none)) ∧
    (∀ s after, (ASTNode.stmt s).sameButStale after → after = .stmt s) ∧
    (∀ r elements after, (ClosureBody.brace r elements).sameButStale after →
      after = .brace r elements) ∧
    prepareForRetypechecking sampleStaleCall
      = .Apply .Call ⟨none, ⟨⟨1⟩, ⟨20⟩⟩, false⟩
          (.DeclRef ⟨some tyInt, ⟨⟨1⟩, ⟨1⟩⟩, false⟩ sampleVarDecl)
          (.Tuple (infoAt 2 20)
            [.Other .DeclRef ⟨none, ⟨⟨3⟩, ⟨3⟩⟩, false⟩ [],
             .Closure (infoAt 6 19) [] none
              (.brace ⟨⟨6⟩, ⟨19⟩⟩
                [.stmt (.mk .Return ⟨⟨8⟩, ⟨17⟩⟩ [.expr sampleErrorOperand]),
                 .stmt (.mk .Other ⟨⟨18⟩, ⟨18⟩⟩ [])])] []) := by
  have h1 : prepareForRetypechecking E = Eraser.doIt E := by
    cases E <;> first | rfl | simp [Expr.hasNoAutoClosure] at h
  refine ⟨?_, ?_, ?_, ?_, by rfl⟩
  · rw [h1]
    exact doIt_sameButStale E h
  · intro before after hk
    refine ⟨?_, ?_⟩
    · intro hs
      rcases hk with hk | ⟨hk, _⟩
      · exact hk
      · rw [hs] at hk
        cases hk
    · intro hne
      rcases hk with hk | hk
      · exact absurd hk hne
      · exact hk
  · intro s after hs
    simpa only [ASTNode.sameButStale] using hs
  · intro r elements after hs
    simpa only [ClosureBody.sameButStale] using hs

/-- C23, amended, at `g(x, { s })`. -/
theorem prepareForRetypechecking_frame_witness :
    sampleStaleCall.sameButStale (prepareForRetypechecking sampleStaleCall) ∧
    (∀ before after, typeSameButStale before after →
      (isStaleType before = false → after = before) ∧
      (after ≠ before → isStaleType before = true ∧ after = none)) ∧
    (∀ s after, (ASTNode.stmt s).sameButStale after → after = .stmt s) ∧
    (∀ r elements after, (ClosureBody.brace r elements).sameButStale after →
      after = .brace r elements) ∧
    prepareForRetypechecking sampleStaleCall
      = .Apply .Call ⟨none, ⟨⟨1⟩, ⟨20⟩⟩, false⟩
          (.DeclRef ⟨some tyInt, ⟨⟨1⟩, ⟨1⟩⟩, false⟩ sampleVarDecl)
          (.Tuple (infoAt 2 20)
            [.Other .DeclRef ⟨none, ⟨⟨3⟩, ⟨3⟩⟩, false⟩ [],
             .Closure (infoAt 6 19) [] none
              (.brace ⟨⟨6⟩, ⟨19⟩⟩
                [.stmt (.mk .Return ⟨⟨8⟩, ⟨17⟩⟩ [.expr sampleErrorOperand]),
                 .stmt (.mk .Other ⟨⟨18⟩, ⟨18⟩⟩ [])])] []) :=
  prepareForRetypechecking_frame sampleStaleCall (by rfl)

/-- C23 as stated fails for the argument list `(e)` of a call with an
auto-closure parameter: the reset takes the auto-closure wrapper out of the
tree and puts its body in its place, a change that is no stale marker. -/
theorem prepareForRetypechecking_frame_counterexample :
    prepareForRetypechecking sampleAutoClosureTree = .Paren (infoAt 1 9) sampleErrorOperand ∧
    ¬ sampleAutoClosureTree.sameButStale (prepareForRetypechecking sampleAutoClosureTree) := by
  refine ⟨by rfl, ?_⟩
  intro h
  have h2 : (Expr.Paren (infoAt 1 9)
      (.AutoClosure ⟨some .Error, ⟨⟨8⟩, ⟨8⟩⟩, true⟩ sampleErrorOperand)).sameButStale
      (.Paren (infoAt 1 9) (.Other .DeclRef ⟨some .Error, ⟨⟨8⟩, ⟨8⟩⟩, false⟩ [])) := h
  simp only [Expr.sameButStale] at h2
  obtain ⟨j, sub2, heq, _, j2, body2, heq2, _⟩ := h2
  injection heq with _ hsub
  rw [← hsub] at heq2
  cases heq2

/-! ## Repetitions among the possible types and labels -/

/-- A list without repetition keeps none under a partial map that sends different
members to different values. -/
theorem filterMap_nodup_of_injOn {α β : Type} (g : α → Option β) :
    ∀ l : List α, l.Nodup →
      (∀ a ∈ l, ∀ b ∈ l, ∀ t, g a = some t → g b = some t → a = b) →
      (l.filterMap g).Nodup
  | [], _, _ => List.nodup_nil
  | a :: l, hnd, hinj => by
    have hnd2 := List.nodup_cons.mp hnd
    have ih := filterMap_nodup_of_injOn g l hnd2.2
      (fun x hx y hy t h1 h2 =>
        hinj x (List.mem_cons_of_mem _ hx) y (List.mem_cons_of_mem _ hy) t h1 h2)
    cases hg : g a with
    | none =>
      rw [List.filterMap_cons_none hg]
      exact ih
    | some t =>
      rw [List.filterMap_cons_some hg]
      refine List.nodup_cons.mpr ⟨?_, ih⟩
      intro hmem
      obtain ⟨b, hb, hgb⟩ := List.mem_filterMap.mp hmem
      have := hinj a (List.mem_cons_self _ _) b (List.mem_cons_of_mem _ hb) t hg hgb
      rw [this] at hnd2
      exact hnd2.1 hb

/-- At most one handed type gives at most one entry. -/
theorem filterMap_nodup_of_short {α β : Type} (g : α → Option β) (l : List α)
    (h : l.length ≤ 1) : (l.filterMap g).Nodup := by
  match l, h with
  | [], _ => exact List.nodup_nil
  | [x], _ =>
    cases hg : g x with
    | none => rw [List.filterMap_cons_none hg]; exact List.nodup_nil
    | some t => rw [List.filterMap_cons_some hg]; exact List.nodup_singleton t
  | _ :: _ :: _, h => simp at h

/-- The entries `analyzeApplyExpr` records have no repetition when no two
different parameter types of the candidates have the same r-value form. -/
theorem analyzeApplyExpr_handed_nodup (S : Services) (hole E : Expr)
    (hrv : ∀ c1 ∈ S.candidates E, ∀ p1 ∈ c1.1.Params, ∀ c2 ∈ S.candidates E,
      ∀ p2 ∈ c2.1.Params,
      (paramTypeInContext S c1.2 p1).getRValueType = (paramTypeInContext S c2.2 p2).getRValueType →
      paramTypeInContext S c1.2 p1 = paramTypeInContext S c2.2 p2) :
    ((analyzeApplyExpr.handed S hole E).filterMap recordPossibleType.added).Nodup := by
  unfold analyzeApplyExpr.handed
  cases harg : E.getArgs with
  | none => exact List.nodup_nil
  | some arg =>
    simp only
    cases hpos : holePosition arg hole with
    | none => exact List.nodup_nil
    | some ph =>
      obtain ⟨pos, hn⟩ := ph
      simp only
      obtain ⟨new, hs, _, hnd, _, horg⟩ := foldl_handed S pos
        (!hn && !E.isImplicit && (E.isCallExpr || E.isSubscriptExpr)) (S.candidates E)
        ⟨[], [], .empty⟩
      simp only [List.append_nil] at hs
      rw [hs]
      apply filterMap_nodup_of_injOn
      · exact (List.nodup_reverse.mpr hnd).map (fun a b h => Option.some.inj h)
      · intro a ha b hb t hga hgb
        obtain ⟨T1, hT1, rfl⟩ := List.mem_map.mp ha
        obtain ⟨T2, hT2, rfl⟩ := List.mem_map.mp hb
        rw [List.mem_reverse] at hT1 hT2
        obtain ⟨c1, hc1, p1, hp1, rfl⟩ := horg T1 hT1
        obtain ⟨c2, hc2, p2, hp2, rfl⟩ := horg T2 hT2
        have e1 : (paramTypeInContext S c1.2 p1).getRValueType = t := by
          by_cases he : (paramTypeInContext S c1.2 p1).isErrorType = true
          · simp [recordPossibleType.added, he] at hga
          · simpa [recordPossibleType.added, he] using hga
        have e2 : (paramTypeInContext S c2.2 p2).getRValueType = t := by
          by_cases he : (paramTypeInContext S c2.2 p2).isErrorType = true
          · simp [recordPossibleType.added, he] at hgb
          · simpa [recordPossibleType.added, he] using hgb
        rw [hrv c1 hc1 p1 (List.get?_mem hp1) c2 hc2 p2 (List.get?_mem hp2) (e1.trans e2.symm)]

/-- The loop of `analyzeDecl` hands at most one type to the recorder. -/
theorem analyzeDecl_handed_short (hole : Expr) :
    ∀ es : List PatternBindingEntry, (analyzeDecl.handed hole es).length ≤ 1
  | [] => by simp [analyzeDecl.handed]
  | .mk (.mk _ patternType _ _) (some Init) :: rest => by
    unfold analyzeDecl.handed
    split
    · cases patternType with
      | some T => simp
      | none => exact analyzeDecl_handed_short hole rest
    · exact analyzeDecl_handed_short hole rest
  | .mk (.mk _ _ _ _) none :: rest => by
    simp only [analyzeDecl.handed]
    exact analyzeDecl_handed_short hole rest

/-- The rule for the closest ancestor hands at most one type to the recorder, or
it is the rule for call-like nodes. -/
theorem dispatch_handed_short_or_apply (S : Services) (C : AnalyzerContext) (hole : Expr)
    (P : ASTNode) :
    (Analyze.dispatch.handed S C hole P).length ≤ 1 ∨
    ∃ E, Analyze.dispatch.handed S C hole P = analyzeApplyExpr.handed S hole E := by
  cases P with
  | expr E =>
    cases E with
    | Apply k i fn arg =>
      cases k with
      | Call => exact Or.inr ⟨.Apply .Call i fn arg, rfl⟩
      | Binary => exact Or.inr ⟨.Apply .Binary i fn arg, rfl⟩
      | PrefixUnary => exact Or.inr ⟨.Apply .PrefixUnary i fn arg, rfl⟩
      | _ => exact Or.inl (by simp [Analyze.dispatch.handed, analyzeExpr.handed])
    | Subscript i base index => exact Or.inr ⟨.Subscript i base index, rfl⟩
    | Assign i dest src l =>
      left
      simp only [Analyze.dispatch.handed, analyzeExpr.handed]
      repeat' split
      all_goals simp
    | Tuple i es locs =>
      left
      simp only [Analyze.dispatch.handed, analyzeExpr.handed]
      repeat' split
      all_goals simp
    | Closure i ps tl body => exact Or.inl (by simp [Analyze.dispatch.handed, analyzeExpr.handed])
    | _ => exact Or.inl (by simp [Analyze.dispatch.handed, analyzeExpr.handed])
  | stmt St =>
    left
    simp only [Analyze.dispatch.handed, analyzeStmt.handed]
    repeat' split
    all_goals simp
  | decl D =>
    cases D with
    | mk k rg cs => exact Or.inl (by simp [Analyze.dispatch.handed])
    | PatternBinding rg es => exact Or.inl (analyzeDecl_handed_short hole es)
  | pattern Pt =>
    left
    simp only [Analyze.dispatch.handed, analyzePattern.handed]
    repeat' split
    all_goals simp
  | typeLoc t => exact Or.inl (by simp [Analyze.dispatch.handed])

/-- The possible expected labels the rule for the closest ancestor returns have
no repetition. -/
theorem dispatch_names_nodup (S : Services) (C : AnalyzerContext) (hole : Expr)
    (P : ASTNode) (r : ExprContextInfo)
    (hr : Analyze.dispatch S C hole .empty P = some r) : r.PossibleNames.Nodup := by
  have happly : ∀ E arg, E.getArgs = some arg →
      (analyzeApplyExpr S hole .empty E).map Prod.snd = some r → r.PossibleNames.Nodup := by
    intro E arg harg hE
    obtain ⟨r2, hr2, hnd⟩ := analyzeApplyExpr_names_nodup S hole E arg harg
    simp only [hr2, Option.map_some', Option.some.injEq] at hE
    rw [← hE]
    exact hnd
  have hnil : r.PossibleNames = [] → r.PossibleNames.Nodup := by
    intro h
    rw [h]
    exact List.nodup_nil
  cases P with
  | expr E =>
    cases E with
    | Apply k i fn arg =>
      cases k with
      | Call => exact happly (.Apply .Call i fn arg) arg rfl hr
      | Binary => exact happly (.Apply .Binary i fn arg) arg rfl hr
      | PrefixUnary => exact happly (.Apply .PrefixUnary i fn arg) arg rfl hr
      | _ => simp [Analyze.dispatch, analyzeExpr] at hr
    | Subscript i base index => exact happly (.Subscript i base index) index rfl hr
    | Assign i dest src l =>
      apply hnil
      simp only [Analyze.dispatch, analyzeExpr, Option.some.injEq] at hr
      rw [← hr]
      unfold analyzeExpr.assign
      repeat' split
      all_goals simp [recordPossibleType_names, ExprContextInfo.empty]
    | Tuple i es locs =>
      apply hnil
      simp only [Analyze.dispatch, analyzeExpr, analyzeExpr.tuple] at hr
      repeat' split at hr
      all_goals
        cases hr <;> simp [recordPossibleType_names, ExprContextInfo.empty]
    | Closure i ps tl body =>
      apply hnil
      simp only [Analyze.dispatch, analyzeExpr] at hr
      split at hr
      · injection hr with hr
        rw [← hr, recordPossibleType_names]
        rfl
      · cases hr
    | _ => simp [Analyze.dispatch, analyzeExpr] at hr
  | stmt St =>
    apply hnil
    simp only [Analyze.dispatch, analyzeStmt] at hr
    repeat' split at hr
    all_goals
      cases hr <;> simp [recordPossibleType_names, ExprContextInfo.empty]
  | decl D =>
    apply hnil
    cases D with
    | mk k rg cs =>
      cases k <;> simp [Analyze.dispatch, analyzeDecl] at hr
      rw [← hr]
      rfl
    | PatternBinding rg es =>
      simp only [Analyze.dispatch, analyzeDecl, Option.some.injEq] at hr
      rw [← hr]
      clear hr happly hnil
      induction es with
      | nil => rfl
      | cons e es ih =>
        obtain ⟨⟨k, ty, rg2, cs⟩, init⟩ := e
        cases init with
        | none => simpa [analyzeDecl.scan] using ih
        | some Init =>
          unfold analyzeDecl.scan
          repeat' split
          all_goals first
            | exact ih
            | simp [recordPossibleType_names, ExprContextInfo.empty]
  | pattern Pt =>
    apply hnil
    simp only [Analyze.dispatch, analyzePattern] at hr
    repeat' split at hr
    all_goals
      cases hr <;> simp [recordPossibleType_names, ExprContextInfo.empty]
  | typeLoc t =>
    apply hnil
    simp only [Analyze.dispatch, Option.some.injEq] at hr
    rw [← hr]
    rfl

/-- A result of `Analyze` is the empty one with nothing handed to the recorder, or
the result of the rule for the closest ancestor. -/
theorem Analyze_eq_some (S : Services) (C : AnalyzerContext) (ParsedExpr : Option Expr)
    (r : ExprContextInfo) (h : Analyze S C ParsedExpr = some r) :
    (r = .empty ∧ Analyze.handed S C ParsedExpr = []) ∨
    ∃ hole P, Analyze.dispatch S C hole .empty P = some r ∧
      Analyze.handed S C ParsedExpr = Analyze.dispatch.handed S C hole P := by
  unfold Analyze at h
  unfold Analyze.handed
  cases ParsedExpr with
  | none =>
    simp only [Option.some.injEq] at h
    exact Or.inl ⟨h.symm, rfl⟩
  | some hole =>
    simp only at h ⊢
    cases hw : walkContext (ExprParentFinder.walker hole Analyze.predicate) C.analyzeDC [] with
    | error e => simp [hw] at h
    | ok res =>
      obtain ⟨Ancestors, flag⟩ := res
      simp only [hw] at h ⊢
      cases hl : Ancestors.getLast? with
      | none =>
        simp only [hl, Option.some.injEq] at h
        exact Or.inl ⟨h.symm, by simp only [hl]⟩
      | some P =>
        simp only [hl] at h ⊢
        exact Or.inr ⟨hole, P, h, rfl⟩

/-- C17, amended: for every input, the possible expected labels in the result of
`Analyze` have no repeated string, and the possible expected types have no
duplicates whenever no two different parameter types the candidates of a node
offer have the same r-value form. That holds for parameter types that differ
by an in-out wrapper, which the r-value form keeps: for `f(<hole>)` with the
candidates `(Int) -> Void` and `(inout Int) -> Void` the types are `Int` and
`inout Int`. -/
theorem Analyze_no_duplicates (S : Services) (C : AnalyzerContext) (ParsedExpr : Option Expr)
    (r : ExprContextInfo) (h : Analyze S C ParsedExpr = some r) :
    r.PossibleNames.Nodup ∧
    ((∀ E, ∀ c1 ∈ S.candidates E, ∀ p1 ∈ c1.1.Params, ∀ c2 ∈ S.candidates E,
        ∀ p2 ∈ c2.1.Params,
        (paramTypeInContext S c1.2 p1).getRValueType
            = (paramTypeInContext S c2.2 p2).getRValueType →
        paramTypeInContext S c1.2 p1 = paramTypeInContext S c2.2 p2) →
      r.PossibleTypes.Nodup) ∧
    analyzeApplyExpr sampleServicesInOut sampleHole .empty sampleCallUnlabeled
      = some (true, ⟨[tyInt, .InOut tyInt], [],
          [sampleCandidateInt, sampleCandidateInOutInt], false⟩) := by
  have heq := Analyze_types_handed S C ParsedExpr r h
  refine ⟨?_, ?_, by rfl⟩
  · rcases Analyze_eq_some S C ParsedExpr r h with ⟨he, _⟩ | ⟨hole, P, hd, _⟩
    · rw [he]
      exact List.nodup_nil
    · exact dispatch_names_nodup S C hole P r hd
  · intro hrv
    rw [heq]
    rcases Analyze_eq_some S C ParsedExpr r h with ⟨_, he⟩ | ⟨hole, P, _, hh⟩
    · rw [he]
      exact List.nodup_nil
    · rw [hh]
      rcases dispatch_handed_short_or_apply S C hole P with hs | ⟨E, hE⟩
      · exact filterMap_nodup_of_short _ _ hs
      · rw [hE]
        exact analyzeApplyExpr_handed_nodup S hole E (hrv E)

/-- C17, amended, at `f(<hole>)` with the candidates `(Int) -> Void` and
`(inout Int) -> Void`, whose parameter types have different r-value forms. -/
theorem Analyze_no_duplicates_witness :
    (∀ E, ∀ c1 ∈ sampleServicesInOut.candidates E, ∀ p1 ∈ c1.1.Params,
        ∀ c2 ∈ sampleServicesInOut.candidates E, ∀ p2 ∈ c2.1.Params,
        (paramTypeInContext sampleServicesInOut c1.2 p1).getRValueType
            = (paramTypeInContext sampleServicesInOut c2.2 p2).getRValueType →
        paramTypeInContext sampleServicesInOut c1.2 p1
          = paramTypeInContext sampleServicesInOut c2.2 p2) ∧
    ((⟨[tyInt, .InOut tyInt], [], [sampleCandidateInt, sampleCandidateInOutInt], false⟩ :
        ExprContextInfo).PossibleNames.Nodup ∧
    ((∀ E, ∀ c1 ∈ sampleServicesInOut.candidates E, ∀ p1 ∈ c1.1.Params,
        ∀ c2 ∈ sampleServicesInOut.candidates E, ∀ p2 ∈ c2.1.Params,
        (paramTypeInContext sampleServicesInOut c1.2 p1).getRValueType
            = (paramTypeInContext sampleServicesInOut c2.2 p2).getRValueType →
        paramTypeInContext sampleServicesInOut c1.2 p1
          = paramTypeInContext sampleServicesInOut c2.2 p2) →
      (⟨[tyInt, .InOut tyInt], [], [sampleCandidateInt, sampleCandidateInOutInt], false⟩ :
        ExprContextInfo).PossibleTypes.Nodup) ∧
    analyzeApplyExpr sampleServicesInOut sampleHole .empty sampleCallUnlabeled
      = some (true, ⟨[tyInt, .InOut tyInt], [],
          [sampleCandidateInt, sampleCandidateInOutInt], false⟩)) := by
  refine ⟨?_, Analyze_no_duplicates sampleServicesInOut
    (sampleContextOf (.expr sampleCallUnlabeled)) (some sampleHole)
    ⟨[tyInt, .InOut tyInt], [], [sampleCandidateInt, sampleCandidateInOutInt], false⟩ (by rfl)⟩
  intro E c1 hc1 p1 hp1 c2 hc2 p2 hp2 hEq
  have hc : ∀ c ∈ sampleServicesInOut.candidates E,
      c = sampleCandidateInt ∨ c = sampleCandidateInOutInt := by
    intro c hc
    cases E <;> simp [Services.candidates, sampleServicesInOut] at hc <;> exact hc
  rcases hc c1 hc1 with h1 | h1 <;> rcases hc c2 hc2 with h2 | h2 <;>
    subst h1 h2 <;>
    simp only [sampleCandidateInt, sampleCandidateInOutInt, List.mem_singleton] at hp1 hp2 <;>
    subst hp1 hp2 <;>
    first
      | rfl
      | (exfalso
         simp [paramTypeInContext, Ty.getRValueType, tyInt] at hEq)

/-! ## Labels at a slot without a written label -/

/-- The label flag stays unset through the translation of a position without
written label, unless the position belongs to a variadic run whose first
argument has a label. -/
theorem translate_hasName_false (arg : Expr) (w : Nat)
    (hrun : ∀ i sub m va, arg = .ArgumentShuffle i sub m va → w ∈ va →
      variadicRunHasName sub va = false)
    (htrans : (translateArgIndexToParamIndex arg w false).success = true) :
    (translateArgIndexToParamIndex arg w false).HasName = false := by
  cases arg with
  | ArgumentShuffle i sub m va =>
    rw [translate_shuffle] at htrans ⊢
    rcases translate_scan_spec sub va w false m 0 with ⟨hfail, _⟩ | ⟨d, s, _, hmatch, _, hres⟩
    · rw [hfail] at htrans
      cases htrans
    · rw [hres]
      by_cases hs : s = toSigned w
      · simp [hs]
      · simp only [hs, if_false]
        rcases hmatch with h | ⟨_, hin⟩
        · exact absurd h hs
        · exact hrun i sub m va rfl hin
  | _ => rfl

/-- C1, amended: in `analyzeApplyExpr`, for a call or subscript node that is
not implicit and whose hole slot carries no written label, and whose hole
does not belong to a variadic run of an argument shuffle whose first argument
carries a written label, every candidate whose parameter at the hole's
logical position has a label gets that label into the possible expected
names, and every possible expected type comes from a candidate whose
parameter there has no label; for `f(<hole>)` with the single candidate
`(x: Int) -> Void` the names are exactly `["x"]` and the types are empty. -/
theorem analyzeApplyExpr_unlabeled_slot (S : Services) (hole E arg : Expr) (w : Nat)
    (hkind : E.isCallExpr = true ∨ E.isSubscriptExpr = true)
    (himp : E.isImplicit = false)
    (harg : E.getArgs = some arg)
    (hwritten : getPositionInArgs arg hole 0 false = ⟨true, w, false⟩)
    (hrun : ∀ i sub m va, arg = .ArgumentShuffle i sub m va → w ∈ va →
      variadicRunHasName sub va = false)
    (htrans : (translateArgIndexToParamIndex arg w false).success = true) :
    (∃ r, analyzeApplyExpr S hole .empty E = some r ∧
      (∀ c ∈ S.candidates E, ∀ p,
        c.1.Params.get? (translateArgIndexToParamIndex arg w false).Position = some p →
        p.hasLabel = true → p.Label ∈ r.2.PossibleNames) ∧
      (∀ t ∈ r.2.PossibleTypes, ∃ c ∈ S.candidates E, ∃ p,
        c.1.Params.get? (translateArgIndexToParamIndex arg w false).Position = some p ∧
        p.hasLabel = false ∧ t = (paramTypeInContext S c.2 p).getRValueType)) ∧
    analyzeApplyExpr sampleServices sampleHole .empty sampleCallUnlabeled
      = some (true, ⟨[], ["x"], [sampleCandidate], false⟩) := by
  refine ⟨?_, by rfl⟩
  have hflag := translate_hasName_false arg w hrun htrans
  have hpos : holePosition arg hole
      = some ((translateArgIndexToParamIndex arg w false).Position, false) := by
    unfold holePosition
    simp [hwritten, htrans, hflag]
  obtain ⟨r, hr, hn, ht⟩ := analyzeApplyExpr_of_position S hole E arg _ false harg hpos
  have hm : (!false && !E.isImplicit && (E.isCallExpr || E.isSubscriptExpr)) = true := by
    rcases hkind with h | h <;> simp [himp, h]
  rw [hm] at hn ht
  refine ⟨r, hr, ?_, ?_⟩
  · intro c hc p hp hl
    rw [hn]
    exact foldl_records_label S _ _ _ (by intro n h; cases h) c hc p hp hl
  · intro t h
    rw [ht] at h
    rcases foldl_type_origin S _ true _ _ t h with h | ⟨c, hc, p, hp, hm, _, hteq⟩
    · simp [ExprContextInfo.empty] at h
    · exact ⟨c, hc, p, hp, by simpa using hm, hteq⟩

/-- C1, amended, at the call `f(<hole>)` with the candidate `(x: Int) -> Void`. -/
theorem analyzeApplyExpr_unlabeled_slot_witness :
    (∃ r, analyzeApplyExpr sampleServices sampleHole .empty sampleCallUnlabeled = some r ∧
      (∀ c ∈ sampleServices.candidates sampleCallUnlabeled, ∀ p,
        c.1.Params.get?
            (translateArgIndexToParamIndex (.Paren (infoAt 2 4) sampleHole) 0 false).Position
          = some p →
        p.hasLabel = true → p.Label ∈ r.2.PossibleNames) ∧
      (∀ t ∈ r.2.PossibleTypes, ∃ c ∈ sampleServices.candidates sampleCallUnlabeled, ∃ p,
        c.1.Params.get?
            (translateArgIndexToParamIndex (.Paren (infoAt 2 4) sampleHole) 0 false).Position
          = some p ∧
        p.hasLabel = false ∧ t = (paramTypeInContext sampleServices c.2 p).getRValueType)) ∧
    analyzeApplyExpr sampleServices sampleHole .empty sampleCallUnlabeled
      = some (true, ⟨[], ["x"], [sampleCandidate], false⟩) :=
  analyzeApplyExpr_unlabeled_slot sampleServices sampleHole sampleCallUnlabeled
    (.Paren (infoAt 2 4) sampleHole) 0 (Or.inl rfl) rfl rfl rfl
    (by intro i sub m va h; cases h) rfl

/-- C1 as stated fails for `f(x: 1, <hole>)` against `f(x: Int...)`: the call is
not implicit and the slot of the hole carries no written label, but the hole
belongs to the variadic run, whose first argument has a label; the label flag
is taken from that first argument, so the candidate's parameter at the
logical position 0, which has the label `x`, contributes its type and not
its label. -/
theorem analyzeApplyExpr_unlabeled_slot_counterexample :
    sampleCallVariadicLabeled.isCallExpr = true ∧
    sampleCallVariadicLabeled.isImplicit = false ∧
    sampleCallVariadicLabeled.getArgs = some sampleVariadicLabeledArgs ∧
    getPositionInArgs sampleVariadicLabeledArgs sampleVariadicHole 0 false = ⟨true, 1, false⟩ ∧
    holePosition sampleVariadicLabeledArgs sampleVariadicHole = some (0, true) ∧
    sampleServices.candidates sampleCallVariadicLabeled = [sampleCandidate] ∧
    sampleCandidate.1.Params.get? 0 = some ⟨"x", tyInt⟩ ∧
    (⟨"x", tyInt⟩ : Param).hasLabel = true ∧
    analyzeApplyExpr sampleServices sampleVariadicHole .empty sampleCallVariadicLabeled
      = some (true, ⟨[tyInt], [], [sampleCandidate], false⟩) := by
  refine ⟨rfl, rfl, rfl, by rfl, by rfl, rfl, rfl, by rfl, by rfl⟩

end ExprContextAnalysis
